import Mathlib

/-! # evanesque: a shallow embedding of `src/evanesque.c`

The interpreter is embedded as pure functions over an explicit machine state.

* Memory is byte level.  A buffer is a `List Nat` of bytes; a byte that lies
  past the end of the list reads as `0` (the terminating NUL of the line read
  by `fgets`, the zero-initialised rest of the static `arena`).
* A `char *` is a `Ptr`: `NULL`, an offset into the line buffer, or an offset
  into `arena`.
* `strtok_r`, `strspn`, `strcspn`, `strtol` and `printf("%ld")` are C library
  functions; they are embedded after their ISO C / POSIX description, with the
  glibc convention for the `strtok_r` save pointer (it is left on the NUL that
  ends the string).  `strtok_r` tokenises **in place**: it overwrites the
  delimiter that ends a token with NUL.
* `cell` is `long`: a 64-bit two's complement integer.  Cells are `Int`s and
  arithmetic results are reduced by `wrap`.
* `die` / `exit(1)` end the process: a computation is a `Res`, which is a
  value, a dead process (what was written to stderr, and what stdout holds,
  flushed by `exit`), a crashed process (killed by the trap of the integer
  division: nothing is written to stderr, there is no `exit`), or `outOfFuel`
  when a loop was cut by the fuel of the model.
* `rand()` is a parameter: `rand k` is the value returned by the `k`-th call.
* The token stream at a cursor (`stream`) is what the successive calls of `strtok_r` return
  from that cursor on; the loops of the source are related to it by the `_stream` lemmas.
-/

namespace Evanesque

/-! ## Configuration -/

/-- Source: `#define STACKSZ 4096`, the data stack size. -/
def STACKSZ : Nat := 4096
/-- Source: `#define CALLSZ 4096`, the call stack depth. -/
def CALLSZ : Nat := 4096
/-- Source: `#define LOOPSZ 4096`, the loop stack depth. -/
def LOOPSZ : Nat := 4096
/-- Source: `#define DICTSZ 256`, the maximal number of user words. -/
def DICTSZ : Nat := 256
/-- Source: `#define BUFSZ 65536`, the storage for names and bodies. -/
def BUFSZ : Nat := 65536

/-! ## Cells -/

/-- Smallest `long`. -/
def LONG_MIN : Int := -9223372036854775808
/-- Largest `long`. -/
def LONG_MAX : Int := 9223372036854775807

/-- Reduction of an integer to the 64-bit two's complement range. -/
def wrap (x : Int) : Int := (x + 9223372036854775808) % 18446744073709551616 - 9223372036854775808

/-- The integer is representable as a `cell`. -/
def isCell (x : Int) : Prop := LONG_MIN ≤ x ∧ x ≤ LONG_MAX

instance (x : Int) : Decidable (isCell x) := by unfold isCell; infer_instance

/-! ## Bytes, buffers and pointers -/

/-- The bytes of a string literal of the source. -/
def bytes (s : String) : List Nat := s.toList.map Char.toNat

/-- Read slot `i` of a zero-initialised array held as the list of its first slots. -/
def aget {α : Type} [Inhabited α] (a : List α) (i : Nat) : α := a.getD i default

/-- Write slot `i` of a zero-initialised array held as the list of its first slots. -/
def aset {α : Type} [Inhabited α] (a : List α) (i : Nat) (v : α) : List α :=
  if i < a.length then a.set i v else a ++ List.replicate (i - a.length) default ++ [v]

/-- Copy the bytes `bs` to offset `off` of a buffer (`memcpy`, or a run of byte stores). -/
def blit (a : List Nat) (off : Nat) (bs : List Nat) : List Nat :=
  a.take off ++ List.replicate (off - a.length) 0 ++ bs ++ a.drop (off + bs.length)

/-- A `char *`. -/
inductive Ptr where
  | null
  | line (off : Nat)
  | arena (off : Nat)
deriving DecidableEq

instance : Inhabited Ptr := ⟨Ptr.null⟩

/-- Source: `typedef struct { char *name; char *body; } word;`.  Both pointers are only ever
assigned from `nextb`, so they are kept as offsets into `arena`. -/
structure Word where
  name : Nat
  body : Nat
deriving DecidableEq

instance : Inhabited Word := ⟨⟨0, 0⟩⟩

/-- Source: `typedef struct { char *save; int loopbase; } frame;`. -/
structure Frame where
  save : Ptr
  loopbase : Nat
deriving DecidableEq

/-- The state of the process: the globals of the source, the line buffer of `main`, and the
standard streams. -/
structure State where
  /-- Source: `dstack[0 .. sp)`, the top of the stack first. -/
  dstack : List Int
  /-- Source: `dict`. -/
  dict : List Word
  /-- Source: `dictlen`. -/
  dictlen : Nat
  /-- Source: `arena`. -/
  arena : List Nat
  /-- Source: `nextb - arena`. -/
  nextb : Nat
  /-- Source: the frames `cfp[0], cfp[1], ...` up to `cstack + CALLSZ`, the newest first. -/
  cstack : List Frame
  /-- Source: `lstack`. -/
  lstack : List Ptr
  /-- Source: `ltop`. -/
  ltop : Nat
  /-- Source: `line` of `main`. -/
  line : List Nat
  /-- The bytes written to stdout. -/
  out : List Nat
  /-- The bytes of stdin not read yet. -/
  inp : List Nat
  /-- The number of calls of `rand()` made. -/
  nrand : Nat
deriving DecidableEq

/-- The state at process start, with `ln` in the line buffer and `inp` left on stdin. -/
def initial (ln inp : List Nat) : State :=
  { dstack := [], dict := [], dictlen := 0, arena := [], nextb := 0, cstack := [],
    lstack := [], ltop := 0, line := ln, out := [], inp := inp, nrand := 0 }

/-! ## Outcomes -/

/-- A process ended by `exit(1)`: the bytes written to stderr and the content of stdout. -/
structure Dead where
  err : List Nat
  out : List Nat
deriving DecidableEq

/-- The outcome of a computation: a value; a process ended by `exit(1)`; a process killed by a
signal (the division of the minimum cell by -1 overflows, which traps: the process ends there,
without a diagnostic, without `exit`, and what stdout had buffered is not flushed); or a
computation cut by the fuel of the model. -/
inductive Res (α : Type) where
  | ok (a : α)
  | dead (d : Dead)
  | crash
  | outOfFuel
deriving DecidableEq

/-- Sequencing: a dead process, a crashed process and an exhausted fuel are final. -/
def Res.bind {α β : Type} (x : Res α) (f : α → Res β) : Res β :=
  match x with
  | .ok a => f a
  | .dead d => .dead d
  | .crash => .crash
  | .outOfFuel => .outOfFuel

/-- Source: `die`: write `msg` and a newline to stderr, then `exit(1)`. -/
def die {α : Type} (msg : String) (st : State) : Res α :=
  .dead ⟨bytes msg ++ [10], st.out⟩

/-- Source: `push`. -/
def push (v : Int) (st : State) : Res State :=
  if st.dstack.length ≥ STACKSZ then die "stack overflow" st
  else .ok { st with dstack := v :: st.dstack }

/-- Source: `pop`. -/
def pop (st : State) : Res (Int × State) :=
  match st.dstack with
  | [] => die "stack underflow" st
  | v :: rest => .ok (v, { st with dstack := rest })

/-! ## Strings -/

/-- The delimiters `" \t\r\n"` of every `strtok_r` call of the source. -/
def DELIM : List Nat := [32, 9, 13, 10]

/-- Byte at offset `o`. -/
def peek (buf : List Nat) (o : Nat) : Nat := buf.getD o 0

/-- The C string that starts at offset `o`: the bytes before the first NUL. -/
def cstrBuf (buf : List Nat) (o : Nat) : List Nat := (buf.drop o).takeWhile (fun c => c != 0)

/-- C library: `strspn(buf + s, delim)`. -/
def strspn (buf : List Nat) (s : Nat) (delim : List Nat) : Nat :=
  ((buf.drop s).takeWhile (fun c => delim.contains c)).length

/-- C library: `strcspn(buf + s, delim)`. -/
def strcspn (buf : List Nat) (s : Nat) (delim : List Nat) : Nat :=
  ((buf.drop s).takeWhile (fun c => c != 0 && !delim.contains c)).length

/-- C library: `strtok_r` on one buffer, continuing at offset `s`.  Returns the offset of the
token (or none), the new save offset and the buffer, in which the delimiter that ended the token
is overwritten by NUL. -/
def strtokBuf (buf : List Nat) (s : Nat) (delim : List Nat) : Option Nat × Nat × List Nat :=
  if peek buf s = 0 then (none, s, buf)
  else
    let s1 := s + strspn buf s delim
    if peek buf s1 = 0 then (none, s1, buf)
    else
      let e := s1 + strcspn buf s1 delim
      if peek buf e = 0 then (some s1, e, buf)
      else (some s1, e + 1, buf.set e 0)

/-- C library: `strtok_r(s, delim, &save)`.  Returns the token, the new `save` and the state
(the buffer is modified). -/
def strtok_r (st : State) (s : Ptr) (delim : List Nat) (save : Ptr) : Option Ptr × Ptr × State :=
  match (if s = Ptr.null then save else s) with
  | .null => (none, .null, st)
  | .line o =>
    match strtokBuf st.line o delim with
    | (t, sv, buf) => (t.map Ptr.line, .line sv, { st with line := buf })
  | .arena o =>
    match strtokBuf st.arena o delim with
    | (t, sv, buf) => (t.map Ptr.arena, .arena sv, { st with arena := buf })

/-- The C string a pointer points to. -/
def cstr (st : State) (p : Ptr) : List Nat :=
  match p with
  | .null => []
  | .line o => cstrBuf st.line o
  | .arena o => cstrBuf st.arena o

/-! ## Numerals -/

/-- C library: `isspace` in the C locale. -/
def isspaceC (c : Nat) : Bool := c == 32 || (9 ≤ c && c ≤ 13)

/-- The value of a digit character of `strtol`: `0-9`, `a-z`, `A-Z`. -/
def digitVal (c : Nat) : Option Nat :=
  if 48 ≤ c ∧ c ≤ 57 then some (c - 48)
  else if 97 ≤ c ∧ c ≤ 122 then some (c - 87)
  else if 65 ≤ c ∧ c ≤ 90 then some (c - 55)
  else none

/-- The digits of `strtol`: consume the digits valid in `base`, accumulating the value. -/
def scanDigits (base : Nat) : List Nat → Nat → Nat × List Nat
  | [], acc => (acc, [])
  | c :: cs, acc =>
    match digitVal c with
    | some d => if d < base then scanDigits base cs (acc * base + d) else (acc, c :: cs)
    | none => (acc, c :: cs)

/-- C library: `isxdigit`. -/
def isxdigitC (c : Nat) : Bool :=
  match digitVal c with
  | some v => decide (v < 16)
  | none => false

/-- The result of `strtol` for a magnitude: a value out of range is replaced by the nearest
bound. -/
def clamp (neg : Bool) (acc : Nat) : Int :=
  if neg then (if (acc : Int) > -LONG_MIN then LONG_MIN else -(acc : Int))
  else (if (acc : Int) > LONG_MAX then LONG_MAX else (acc : Int))

/-- The sign of `strtol`. -/
def scanSign (s : List Nat) : Bool × List Nat :=
  match s with
  | 45 :: r => (true, r)
  | 43 :: r => (false, r)
  | _ => (false, s)

/-- The base of `strtol(_, _, 0)`: `0x`/`0X` before a hexadecimal digit selects 16 and is
skipped, another leading `0` selects 8, anything else 10. -/
def scanBase (s : List Nat) : Nat × List Nat :=
  match s with
  | 48 :: x :: d :: r =>
    if (x = 120 ∨ x = 88) ∧ isxdigitC d = true then (16, d :: r) else (8, s)
  | 48 :: _ => (8, s)
  | _ => (10, s)

/-- C library: `strtol(s, &e, 0)` on the C string `s`.  Returns the value and the unparsed
rest `e`; when no digit is converted the value is 0 and `e` is `s`. -/
def strtol (s : List Nat) : Int × List Nat :=
  match scanSign (s.dropWhile isspaceC) with
  | (neg, s2) =>
    match scanBase s2 with
    | (base, s3) =>
      match scanDigits base s3 0 with
      | (acc, e) => if e.length = s3.length then (0, s) else (clamp neg acc, e)

/-- Source: `isnum`: the token is a numeral when it is not empty and `strtol` consumed all of
it. -/
def isnum (s : List Nat) : Option Int :=
  match strtol s with
  | (x, e) => if s ≠ [] ∧ e = [] then some x else none

/-- The digits of `n` in base `b`, the most significant first. -/
def natDigits (b : Nat) : Nat → Nat → List Nat
  | 0, _ => []
  | fuel + 1, n => if n < b then [n] else natDigits b fuel (n / b) ++ [n % b]

/-- The character of a digit, letters in lower or upper case. -/
def digitChar (upper : Bool) (d : Nat) : Nat :=
  if d < 10 then 48 + d else if upper then 55 + d else 87 + d

/-- The natural number `n` written in base `b`. -/
def showNat (upper : Bool) (b n : Nat) : List Nat := (natDigits b (n + 1) n).map (digitChar upper)

/-- C library: the conversion `%ld` of `printf`. -/
def fmt_ld (v : Int) : List Nat :=
  if v < 0 then 45 :: showNat false 10 v.natAbs else showNat false 10 v.natAbs

/-! ## The dictionary -/

/-- The loop of `find`: `n` slots are left to inspect, from slot `i`. -/
def findLoop (st : State) (s : List Nat) : Nat → Nat → Int
  | 0, _ => -1
  | n + 1, i =>
    if cstrBuf st.arena (aget st.dict i).name = s then (i : Int) else findLoop st s n (i + 1)

/-- Source: `find`. -/
def find (st : State) (s : List Nat) : Int := findLoop st s st.dictlen 0

/-- Source: `vanish`; `rnd` is the value `rand()` returns. -/
def vanish (rnd : Nat) (st : State) : State :=
  if st.dictlen = 0 then st
  else
    let r := rnd % st.dictlen
    let n := st.dictlen - 1
    { st with dictlen := n, dict := aset st.dict r (aget st.dict n), nrand := st.nrand + 1 }

/-! ## Comments and definitions -/

/-- Fuel for the token loops that scan forward in a buffer: every iteration moves the cursor
forward by at least one byte, and no buffer grows beyond `BUFSZ`. -/
def loopFuel (st : State) : Nat := st.line.length + st.arena.length + BUFSZ + 1

/-- The loop of `skip_comment`. -/
def skipLoop : Nat → State → Ptr → Res (State × Ptr)
  | 0, _, _ => .outOfFuel
  | n + 1, st, save =>
    match strtok_r st .null DELIM save with
    | (none, save, st) => .ok (st, save)
    | (some tok, save, st) =>
      if cstr st tok = bytes "*/" then .ok (st, save) else skipLoop n st save

/-- Source: `skip_comment`. -/
def skip_comment (st : State) (psave : Ptr) : Res (State × Ptr) :=
  skipLoop (loopFuel st) st psave

/-- The token loop of `compile_word`: copy the tokens to `nextb`, each followed by a space,
until `;` or the end of the stream. -/
def compileLoop : Nat → State → Ptr → Res (State × Ptr)
  | 0, _, _ => .outOfFuel
  | n + 1, st, save =>
    match strtok_r st .null DELIM save with
    | (none, save, st) => .ok (st, save)
    | (some tok, save, st) =>
      if cstr st tok = bytes ";" then .ok (st, save)
      else if cstr st tok = bytes "/*" then
        (skip_comment st save).bind (fun p => compileLoop n p.1 p.2)
      else
        if st.nextb + (cstr st tok).length + 2 ≥ BUFSZ then die "compile arena full" st
        else
          compileLoop n
            { st with arena := blit st.arena st.nextb (cstr st tok ++ [32]),
                      nextb := st.nextb + (cstr st tok).length + 1 } save

/-- Source: `compile_word` up to and including `*psave = save`, that is without the final
`vanish()`. -/
def compileDefine (st : State) (psave : Ptr) : Res (State × Ptr) :=
  match strtok_r st .null DELIM psave with
  | (none, _, st) => die "empty definition" st
  | (some name, save, st) =>
    if st.dictlen ≥ DICTSZ then die "dictionary full" st
    else if st.nextb + ((cstr st name).length + 1) ≥ BUFSZ then die "compile arena full" st
    else
      (compileLoop (loopFuel st)
        { st with dict := aset st.dict st.dictlen ⟨st.nextb, (aget st.dict st.dictlen).body⟩,
                  arena := blit st.arena st.nextb (cstr st name ++ [0]),
                  nextb := st.nextb + ((cstr st name).length + 1) } save).bind
        (fun p =>
          .ok ({ p.1 with arena := blit p.1.arena p.1.nextb [0],
                          nextb := p.1.nextb + 1,
                          dict := aset p.1.dict p.1.dictlen
                            ⟨(aget p.1.dict p.1.dictlen).name, st.nextb + ((cstr st name).length + 1)⟩,
                          dictlen := p.1.dictlen + 1 }, p.2))

/-- Source: `compile_word`. -/
def compile_word (rnd : Nat) (st : State) (psave : Ptr) : Res (State × Ptr) :=
  (compileDefine st psave).bind (fun p => .ok (vanish rnd p.1, p.2))

/-! ## The execution loop -/

/-- The scan of a false `while` for its `repeat`.  Returns the cursor after the matching
`repeat`, or none when the stream ends first. -/
def scanLoop : Nat → State → Ptr → Int → Res (State × Option Ptr)
  | 0, _, _, _ => .outOfFuel
  | n + 1, st, tmp, depth =>
    match strtok_r st .null DELIM tmp with
    | (none, _, st) => .ok (st, none)
    | (some t, tmp, st) =>
      if cstr st t = bytes "/*" then
        (skip_comment st tmp).bind (fun p => scanLoop n p.1 p.2 depth)
      else if cstr st t = bytes "begin" then scanLoop n st tmp (depth + 1)
      else if cstr st t = bytes "repeat" then
        if depth - 1 = 0 then .ok (st, some tmp) else scanLoop n st tmp (depth - 1)
      else scanLoop n st tmp depth

/-- What one iteration of the `for (;;)` of `run` leaves: the next iteration's `ip` and `save`,
or the return of `run`. -/
inductive Step where
  | cont (ip save : Ptr) (st : State)
  | ret (st : State)
deriving DecidableEq

/-- Source: the body of the loop of `run` for a token `t`; `continue` is `Step.cont` with
`ip = NULL`. -/
def exec (rnd : Nat) (t : List Nat) (save : Ptr) (st : State) : Res Step :=
  if t = bytes "/*" then
    (skip_comment st save).bind (fun p => .ok (.cont .null p.2 p.1))
  else if t = bytes "+" then
    (pop st).bind fun a => (pop a.2).bind fun b => (push (wrap (a.1 + b.1)) b.2).bind fun st =>
      .ok (.cont .null save st)
  else if t = bytes "-" then
    (pop st).bind fun a => (pop a.2).bind fun b => (push (wrap (b.1 - a.1)) b.2).bind fun st =>
      .ok (.cont .null save st)
  else if t = bytes "*" then
    (pop st).bind fun a => (pop a.2).bind fun b => (push (wrap (a.1 * b.1)) b.2).bind fun st =>
      .ok (.cont .null save st)
  else if t = bytes "/" then
    (pop st).bind fun a => (pop a.2).bind fun b =>
      if a.1 = 0 then die "division by zero" b.2
      else if b.1 = LONG_MIN ∧ a.1 = -1 then .crash
      else (push (wrap (Int.tdiv b.1 a.1)) b.2).bind fun st => .ok (.cont .null save st)
  else if t = bytes "=" then
    (pop st).bind fun a => (pop a.2).bind fun b =>
      (push (if a.1 = b.1 then 1 else 0) b.2).bind fun st => .ok (.cont .null save st)
  else if t = bytes "<" then
    (pop st).bind fun a => (pop a.2).bind fun b =>
      (push (if b.1 < a.1 then 1 else 0) b.2).bind fun st => .ok (.cont .null save st)
  else if t = bytes ">" then
    (pop st).bind fun a => (pop a.2).bind fun b =>
      (push (if b.1 > a.1 then 1 else 0) b.2).bind fun st => .ok (.cont .null save st)
  else if t = bytes "." then
    (pop st).bind fun a =>
      .ok (.cont .null save { a.2 with out := a.2.out ++ fmt_ld a.1 ++ [10] })
  else if t = bytes "emit" then
    (pop st).bind fun a =>
      .ok (.cont .null save { a.2 with out := a.2.out ++ [(a.1 % 256).toNat] })
  else if t = bytes "key" then
    match st.inp with
    | [] => (push (-1) st).bind fun st => .ok (.cont .null save st)
    | ch :: rest =>
      (push (ch : Int) { st with inp := rest }).bind fun st => .ok (.cont .null save st)
  else if t = bytes "dup" then
    match st.dstack with
    | [] => die "stack underflow" st
    | a :: _ => (push a st).bind fun st => .ok (.cont .null save st)
  else if t = bytes "drop" then
    (pop st).bind fun a => .ok (.cont .null save a.2)
  else if t = bytes "swap" then
    (pop st).bind fun a => (pop a.2).bind fun b => (push a.1 b.2).bind fun st =>
      (push b.1 st).bind fun st => .ok (.cont .null save st)
  else if t = bytes "rot" then
    (pop st).bind fun c => (pop c.2).bind fun b => (pop b.2).bind fun a =>
      (push b.1 a.2).bind fun st => (push c.1 st).bind fun st => (push a.1 st).bind fun st =>
        .ok (.cont .null save st)
  else if t = bytes "-rot" then
    (pop st).bind fun c => (pop c.2).bind fun b => (pop b.2).bind fun a =>
      (push c.1 a.2).bind fun st => (push a.1 st).bind fun st => (push b.1 st).bind fun st =>
        .ok (.cont .null save st)
  else if t = bytes "over" then
    match st.dstack with
    | _ :: b :: _ => (push b st).bind fun st => .ok (.cont .null save st)
    | _ => die "stack underflow" st
  else if t = bytes "tuck" then
    if st.dstack.length < 2 then die "stack underflow" st
    else
      (pop st).bind fun a => (pop a.2).bind fun b => (push a.1 b.2).bind fun st =>
        (push b.1 st).bind fun st => (push a.1 st).bind fun st => .ok (.cont .null save st)
  else if t = bytes "begin" then
    if st.ltop ≥ LOOPSZ then die "loop stack overflow" st
    else .ok (.cont .null save { st with lstack := aset st.lstack st.ltop save, ltop := st.ltop + 1 })
  else if t = bytes "while" then
    if st.ltop ≤ 0 then die "while without begin" st
    else
      (pop st).bind fun c =>
        if c.1 ≠ 0 then .ok (.cont .null save c.2)
        else
          (scanLoop (loopFuel c.2) { c.2 with ltop := c.2.ltop - 1 } save 1).bind fun p =>
            match p.2 with
            | none => die "while: missing matching 'repeat'" p.1
            | some tmp => .ok (.cont .null tmp p.1)
  else if t = bytes "repeat" then
    if st.ltop ≤ 0 then die "repeat without begin" st
    else .ok (.cont .null (aget st.lstack (st.ltop - 1)) st)
  else if t = bytes ":" then
    (compile_word rnd st save).bind fun p => .ok (.cont .null p.2 p.1)
  else if t = bytes ";" then die "';' outside definition" st
  else
    match isnum t with
    | some v => (push v st).bind fun st => .ok (.cont .null save st)
    | none =>
      if find st t < 0 then .dead ⟨bytes "unknown word: " ++ t ++ [10], st.out⟩
      else if st.cstack.length = CALLSZ then die "call stack overflow" st
      else
        .ok (.cont (.arena (aget st.dict (find st t).toNat).body) .null
          { st with cstack := ⟨save, st.ltop⟩ :: st.cstack })

/-- Source: one iteration of the `for (;;)` of `run`. -/
def step (rnd : Nat) (ip save : Ptr) (st : State) : Res Step :=
  match strtok_r st ip DELIM save with
  | (none, _, st) =>
    match st.cstack with
    | [] => .ok (.ret st)
    | f :: fs => .ok (.cont .null f.save { st with ltop := f.loopbase, cstack := fs })
  | (some tok, save, st) => exec rnd (cstr st tok) save st

/-- The `for (;;)` of `run`, cut after `fuel` iterations. -/
def runLoop (rand : Nat → Nat) : Nat → Ptr → Ptr → State → Res State
  | 0, _, _, _ => .outOfFuel
  | fuel + 1, ip, save, st =>
    match step (rand st.nrand) ip save st with
    | .ok (.cont ip save st) => runLoop rand fuel ip save st
    | .ok (.ret st) => .ok st
    | .dead d => .dead d
    | .crash => .crash
    | .outOfFuel => .outOfFuel

/-- Source: `run(line)`, where `line` is the line buffer of `main`. -/
def run (rand : Nat → Nat) (fuel : Nat) (st : State) : Res State :=
  runLoop rand fuel (.line 0) .null st

/-! ## Auxiliary predicates -/

/-- Two states agree on everything but the memory (line buffer, arena and `nextb`). -/
def sameRegs (s t : State) : Prop :=
  t.dstack = s.dstack ∧ t.dict = s.dict ∧ t.dictlen = s.dictlen ∧ t.cstack = s.cstack ∧
  t.lstack = s.lstack ∧ t.ltop = s.ltop ∧ t.out = s.out ∧ t.inp = s.inp ∧ t.nrand = s.nrand

/-- The outcome `x` satisfies `p` when it is a value and `q` when the process died by
`exit(1)`; nothing is asked of a process killed by the trap of the division, nor of a
computation cut by the fuel. -/
def Res.sat {α : Type} (x : Res α) (p : α → Prop) (q : Dead → Prop) : Prop :=
  match x with
  | .ok a => p a
  | .dead d => q d
  | .crash => True
  | .outOfFuel => True

/-- The state an iteration of `run` leaves. -/
def Step.state : Step → State
  | .cont _ _ st => st
  | .ret st => st

/-- From `s` to `t` the dictionary kept its size and stdout was only appended to. -/
def evolves (s t : State) : Prop := t.dictlen = s.dictlen ∧ s.out <+: t.out

/-- From `s` to `t` the dictionary kept its size and nothing was written to stdout. -/
def quiet (s t : State) : Prop := t.dictlen = s.dictlen ∧ t.out = s.out

/-- The tokens the loop of `run` recognises before it tries a numeral or a user word: the
comment opener, the built-in words, `:` and `;`. -/
def builtins : List (List Nat) :=
  [bytes "/*", bytes "+", bytes "-", bytes "*", bytes "/", bytes "=", bytes "<", bytes ">",
   bytes ".", bytes "emit", bytes "key", bytes "dup", bytes "drop", bytes "swap", bytes "rot",
   bytes "-rot", bytes "over", bytes "tuck", bytes "begin", bytes "while", bytes "repeat",
   bytes ":", bytes ";"]

/-- A numeral as it is written: `-` for a negative number (and, when `plus` is set, `+` for
another), the prefix `pre` of the notation, and the digits of the magnitude in base `b`.
Decimal has no prefix, hexadecimal the prefix `0x` or `0X`, octal the prefix `0`. -/
def numeral (plus : Bool) (pre : List Nat) (upper : Bool) (b : Nat) (n : Int) : List Nat :=
  (if n < 0 then [45] else if plus then [43] else []) ++ pre ++ showNat upper b n.natAbs

/-! ## Token streams -/

/-- The byte is one of the delimiters of `DELIM`. -/
def isDelim (c : Nat) : Bool := DELIM.contains c

/-- The byte can belong to a token: it is neither NUL nor a delimiter. -/
def isTok (c : Nat) : Bool := c != 0 && !DELIM.contains c

/-- The tokens of the C string whose bytes are `l`, cut after `n` tokens: skip the delimiters,
stop at NUL or at the end, take the bytes up to the next delimiter or NUL, and go on after a
delimiter. -/
def tokensFuel : Nat → List Nat → List (List Nat)
  | 0, _ => []
  | n + 1, l =>
    match l.dropWhile isDelim with
    | [] => []
    | c :: r =>
      if c = 0 then []
      else
        (c :: r).takeWhile isTok ::
          (match (c :: r).dropWhile isTok with
           | [] => []
           | d :: r2 => if d = 0 then [] else tokensFuel n r2)

/-- The tokens of the C string whose bytes are `l`: the token stream that successive calls of
`strtok_r` with the delimiters `DELIM` read from it. -/
def tokens (l : List Nat) : List (List Nat) := tokensFuel (l.length + 1) l

/-- The bytes from the cursor to the end of its buffer. -/
def rest (st : State) (p : Ptr) : List Nat :=
  match p with
  | .null => []
  | .line o => st.line.drop o
  | .arena o => st.arena.drop o

/-- The token stream at a cursor. -/
def stream (st : State) (p : Ptr) : List (List Nat) := tokens (rest st p)

/-- The cursor `strtok_r(ip, _, &save)` starts from. -/
def cursor (ip save : Ptr) : Ptr := if ip = Ptr.null then save else ip

/-- The cursor points into the line buffer. -/
def Ptr.isLine : Ptr → Bool
  | .line _ => true
  | _ => false

/-- The tokens that follow a comment opener: those after the first `*/`. -/
def dropComment (ts : List (List Nat)) : List (List Nat) :=
  (ts.dropWhile (fun t => t != bytes "*/")).drop 1

/-- The state `st1` is `st` after tokenising in the buffer of the cursor `p`: only that buffer
changed, and it kept its length. -/
def tokenised (p : Ptr) (st st1 : State) : Prop :=
  sameRegs st st1 ∧ st1.nextb = st.nextb ∧ (p.isLine = true → st1.arena = st.arena)
    ∧ (p.isLine = false → st1.line = st.line) ∧ st1.line.length = st.line.length
    ∧ st1.arena.length = st.arena.length

/-- The scan of a false `while` (the loop of `scanLoop`) on a token stream: `inc` tells that the
scan is inside a comment (the call of `skip_comment`), `depth` is the counter of the source.
Returns the tokens after the `repeat` that brings the depth to 0, or none when the stream ends
first. -/
def seekRepeat : Bool → Int → List (List Nat) → Option (List (List Nat))
  | _, _, [] => none
  | true, depth, t :: ts =>
    if t = bytes "*/" then seekRepeat false depth ts else seekRepeat true depth ts
  | false, depth, t :: ts =>
    if t = bytes "/*" then seekRepeat true depth ts
    else if t = bytes "begin" then seekRepeat false (depth + 1) ts
    else if t = bytes "repeat" then
      if depth - 1 = 0 then some ts else seekRepeat false (depth - 1) ts
    else seekRepeat false depth ts

/-- Specification: in the token sequence, `begin` and `repeat` are balanced, counting only the
tokens outside comments, and every comment is closed.  `inc` tells that the sequence starts
inside a comment, `k` is the number of `begin` tokens that are open. -/
def balanced : Bool → Nat → List (List Nat) → Bool
  | inc, k, [] => !inc && k == 0
  | true, k, t :: ts => if t = bytes "*/" then balanced false k ts else balanced true k ts
  | false, k, t :: ts =>
    if t = bytes "/*" then balanced true k ts
    else if t = bytes "begin" then balanced false (k + 1) ts
    else if t = bytes "repeat" then
      if k = 0 then false else balanced false (k - 1) ts
    else balanced false k ts

/-- The offset of the NUL that ends the C string at offset `o`. -/
def strEnd (buf : List Nat) (o : Nat) : Nat := o + (cstrBuf buf o).length

/-- The C string at the cursor ends below offset `b` of the arena, or the cursor is not in the
arena: writing to the arena from `b` on does not touch the tokens at the cursor. -/
def below (b : Nat) (st : State) (p : Ptr) : Prop :=
  match p with
  | .arena o => strEnd st.arena o < b
  | _ => True

/-- The bytes `compile_word` stores for a body: every token followed by a space. -/
def render : List (List Nat) → List Nat
  | [] => []
  | t :: ts => t ++ 32 :: render ts

/-- The token loop of `compile_word` on a token stream: the tokens that are stored.  `inc` tells
that the loop is inside a comment (the call of `skip_comment`). -/
def bodyOf : Bool → List (List Nat) → List (List Nat)
  | _, [] => []
  | true, t :: ts => if t = bytes "*/" then bodyOf false ts else bodyOf true ts
  | false, t :: ts =>
    if t = bytes ";" then []
    else if t = bytes "/*" then bodyOf true ts
    else t :: bodyOf false ts

/-- The token loop of `compile_word` on a token stream: the tokens that are left when the loop
ends. -/
def afterDef : Bool → List (List Nat) → List (List Nat)
  | _, [] => []
  | true, t :: ts => if t = bytes "*/" then afterDef false ts else afterDef true ts
  | false, t :: ts =>
    if t = bytes ";" then ts
    else if t = bytes "/*" then afterDef true ts
    else afterDef false ts

/-- The checks `nextb + tlen + 2 >= arena + BUFSZ` of `compile_word` all pass, for the tokens
`ts` stored from the offset `nb`. -/
def fits : Nat → List (List Nat) → Bool
  | _, [] => true
  | nb, t :: ts => decide (nb + t.length + 2 < BUFSZ) && fits (nb + t.length + 1) ts

/-- Specification: what is left of the token sequence after deleting each span from a `/*`
token through the first following `*/` token, both included.  `inc` tells that the sequence
starts inside such a span. -/
def stripComments : Bool → List (List Nat) → List (List Nat)
  | _, [] => []
  | true, t :: ts => if t = bytes "*/" then stripComments false ts else stripComments true ts
  | false, t :: ts =>
    if t = bytes "/*" then stripComments true ts else t :: stripComments false ts

/-- Specification: no token of the sequence outside a comment is `;`. -/
def semiFree : Bool → List (List Nat) → Bool
  | _, [] => true
  | true, t :: ts => if t = bytes "*/" then semiFree false ts else semiFree true ts
  | false, t :: ts =>
    if t = bytes "/*" then semiFree true ts else t != bytes ";" && semiFree false ts

/-- Specification: every comment of the token sequence is closed in the sequence. -/
def commentsClosed : Bool → List (List Nat) → Bool
  | inc, [] => !inc
  | true, t :: ts =>
    if t = bytes "*/" then commentsClosed false ts else commentsClosed true ts
  | false, t :: ts =>
    if t = bytes "/*" then commentsClosed true ts else commentsClosed false ts

/-- The built-in words that only work on the data stack and the standard streams: the
arithmetic, comparison and input/output words and the stack-shuffling words. -/
def simpleWords : List (List Nat) :=
  [bytes "+", bytes "-", bytes "*", bytes "/", bytes "=", bytes "<", bytes ">",
   bytes ".", bytes "emit", bytes "key", bytes "dup", bytes "drop", bytes "swap", bytes "rot",
   bytes "-rot", bytes "over", bytes "tuck"]

/-- Two states agree on everything but the data stack and the standard streams. -/
def memSame (s t : State) : Prop :=
  t.line = s.line ∧ t.arena = s.arena ∧ t.nextb = s.nextb ∧ t.dict = s.dict ∧
  t.dictlen = s.dictlen ∧ t.cstack = s.cstack ∧ t.lstack = s.lstack ∧ t.ltop = s.ltop ∧
  t.nrand = s.nrand

/-- The process died of one of the errors of the data stack or of a division by zero. -/
def simpleErr (d : Dead) : Prop :=
  d.err = bytes "stack underflow\n" ∨ d.err = bytes "stack overflow\n" ∨
  d.err = bytes "division by zero\n"

/-! ## The main loop -/

/-- C library: `fgets(line, size, stdin)` on the bytes `inp` left on stdin: none at end of file,
otherwise the bytes read (at most `size - 1`, up to and including the first newline) and the
bytes left. -/
def fgets (size : Nat) (inp : List Nat) : Option (List Nat × List Nat) :=
  if inp = [] then none
  else
    let n := min (size - 1) ((inp.takeWhile (fun c => c != 10)).length + 1)
    some (inp.take n, inp.drop n)

/-- Source: `main`, with at most `lines` lines read and `fuel` iterations of `run` per line;
`rand` stands for the random source seeded by `srand`. -/
def main (rand : Nat → Nat) (fuel : Nat) : Nat → State → Res State
  | 0, _ => .outOfFuel
  | lines + 1, st =>
    match fgets 8192 st.inp with
    | none => .ok st
    | some (ln, rest) =>
      (run rand fuel { st with line := blit st.line 0 (ln ++ [0]), inp := rest }).bind
        (main rand fuel lines)

/-- A point of the execution of `main`: between two lines, or in the loop of `run`. -/
inductive Config where
  | idle (st : State)
  | running (ip save : Ptr) (st : State)

/-- The state of a configuration. -/
def Config.state : Config → State
  | .idle st => st
  | .running _ _ st => st

/-- The configurations `main` goes through on the input `inp`: it starts idle in the initial
state, reads a line with `fgets` and enters `run`, goes through the iterations of `run`, and is
idle again when `run` returns. -/
inductive Reach (rand : Nat → Nat) (inp : List Nat) : Config → Prop where
  | start : Reach rand inp (.idle (initial [] inp))
  | read (st : State) (ln rest : List Nat) :
      Reach rand inp (.idle st) → fgets 8192 st.inp = some (ln, rest) →
      Reach rand inp
        (.running (.line 0) .null { st with line := blit st.line 0 (ln ++ [0]), inp := rest })
  | cont (ip save : Ptr) (st : State) (ip1 save1 : Ptr) (st1 : State) :
      Reach rand inp (.running ip save st) →
      step (rand st.nrand) ip save st = .ok (.cont ip1 save1 st1) →
      Reach rand inp (.running ip1 save1 st1)
  | ret (ip save : Ptr) (st st1 : State) :
      Reach rand inp (.running ip save st) →
      step (rand st.nrand) ip save st = .ok (.ret st1) →
      Reach rand inp (.idle st1)

/-- The process did not die of a full dictionary or of a call stack overflow. -/
def errOther (d : Dead) : Prop :=
  d.err ≠ bytes "dictionary full\n" ∧ d.err ≠ bytes "call stack overflow\n"

/-! ## Plain tokens -/

end Evanesque

/-! # Theorems -/

namespace Evanesque

/-! ## Sequencing and the data stack -/

@[simp] theorem Res.ok_bind {α β : Type} (a : α) (f : α → Res β) : (Res.ok a).bind f = f a := rfl

@[simp] theorem Res.dead_bind {α β : Type} (d : Dead) (f : α → Res β) :
    (Res.dead d : Res α).bind f = Res.dead d := rfl

@[simp] theorem Res.outOfFuel_bind {α β : Type} (f : α → Res β) :
    (Res.outOfFuel : Res α).bind f = Res.outOfFuel := rfl

@[simp] theorem Res.crash_bind {α β : Type} (f : α → Res β) :
    (Res.crash : Res α).bind f = Res.crash := rfl

theorem Res.bind_eq_ok {α β : Type} {x : Res α} {f : α → Res β} {b : β}
    (h : x.bind f = .ok b) : ∃ a, x = .ok a ∧ f a = .ok b := by
  cases x with
  | ok a => exact ⟨a, rfl, h⟩
  | dead d => cases h
  | crash => cases h
  | outOfFuel => cases h

/-- On cells, `wrap` is the identity. -/
theorem wrap_of_isCell (x : Int) (h : isCell x) : wrap x = x := by
  unfold isCell LONG_MIN LONG_MAX at h
  unfold wrap
  omega

/-- The truncated quotient of two cells is a cell, the overflow case apart. -/
theorem isCell_tdiv (a b : Int) (ha : isCell a) (hb : b ≠ 0)
    (hov : ¬ (a = LONG_MIN ∧ b = -1)) : isCell (Int.tdiv a b) := by
  unfold isCell LONG_MIN LONG_MAX at *
  have h1 : (Int.tdiv a b).natAbs = a.natAbs / b.natAbs := Int.natAbs_tdiv a b
  by_cases hb1 : b.natAbs = 1
  · have hb2 : b = 1 ∨ b = -1 := by omega
    rcases hb2 with rfl | rfl
    · rw [Int.tdiv_one]; exact ha
    · have : Int.tdiv a (-1) = -a := by
        rw [Int.tdiv_neg, Int.tdiv_one]
      rw [this]; omega
  · have hb2 : 2 ≤ b.natAbs := by omega
    have h2 : a.natAbs / b.natAbs ≤ a.natAbs / 2 := Nat.div_le_div_left hb2 (by decide)
    omega

/-! ## C3: operand order of `-` and `/` -/

/-- C3: operand order of the non-commutative arithmetic.  In every state whose data stack is
within capacity and has `b` on top of `a`, executing `-` replaces the two cells by the cell
`a - b` (the `long` difference, which is the exact difference whenever that is representable)
and executing `/`, when `b` is not 0 and the operands are cells other than the overflow pair
(minimum cell, -1), replaces them by the quotient of `a` by `b` truncated toward zero.  The cells
below, and every other component of the state, are unchanged, and the cursor is not moved. -/
theorem sub_div_operand_order (rnd : Nat) (save : Ptr) (st : State) (a b : Int) (rest : List Int)
    (h : st.dstack = b :: a :: rest) (hcap : st.dstack.length ≤ STACKSZ) :
    exec rnd (bytes "-") save st
        = .ok (.cont .null save { st with dstack := wrap (a - b) :: rest })
    ∧ (isCell (a - b) → wrap (a - b) = a - b)
    ∧ (b ≠ 0 → isCell a → isCell b → ¬ (a = LONG_MIN ∧ b = -1) →
        exec rnd (bytes "/") save st
          = .ok (.cont .null save { st with dstack := Int.tdiv a b :: rest })) := by
  cases st
  simp only at h hcap
  subst h
  have hl2 : ¬ STACKSZ ≤ rest.length := by simp at hcap; omega
  refine ⟨?_, wrap_of_isCell _, ?_⟩
  · simp [exec, bytes, pop, push, hl2]
  · intro hb ha _ hov
    have hq := wrap_of_isCell _ (isCell_tdiv a b ha hb hov)
    simp [exec, bytes, pop, push, hl2, hb, hq]
    exact fun h1 h2 => hov ⟨h1, h2⟩

/-- C3, at a concrete input: `-7 2 /` leaves -3 and `-7 2 -` leaves -9, above an untouched 11. -/
theorem sub_div_operand_order_witness :
    exec 0 (bytes "-") .null { initial [] [] with dstack := [2, -7, 11] }
        = .ok (.cont .null .null { initial [] [] with dstack := [-9, 11] })
    ∧ exec 0 (bytes "/") .null { initial [] [] with dstack := [2, -7, 11] }
        = .ok (.cont .null .null { initial [] [] with dstack := [-3, 11] }) :=
  have h := sub_div_operand_order 0 .null { initial [] [] with dstack := [2, -7, 11] } (-7) 2 [11]
    rfl (by decide)
  ⟨h.1, h.2.2 (by decide) (by decide) (by decide) (by decide)⟩

/-! ## C4: division by zero -/

/-- C4: dividing by 0 is always fatal.  In every state whose top cell is 0, executing `/` yields
no successor state: the process dies, and when a second cell is present the diagnostic is
`division by zero`, with stdout as it was (nothing is pushed, nothing is printed). -/
theorem div_by_zero_fatal (rnd : Nat) (save : Ptr) (st : State) (rest : List Int)
    (h : st.dstack = 0 :: rest) :
    (∃ d, exec rnd (bytes "/") save st = .dead d ∧ d.out = st.out)
    ∧ (∀ s, exec rnd (bytes "/") save st ≠ .ok s)
    ∧ (rest ≠ [] → exec rnd (bytes "/") save st = die "division by zero" st) := by
  cases st
  simp only at h
  subst h
  cases rest with
  | nil => simp [exec, bytes, pop, die]
  | cons b r => simp [exec, bytes, pop, die]

/-- C4, at a concrete input: `7 0 /` dies with `division by zero`. -/
theorem div_by_zero_fatal_witness :
    exec 0 (bytes "/") .null { initial [] [] with dstack := [0, 7] }
      = .dead ⟨bytes "division by zero\n", []⟩ :=
  (div_by_zero_fatal 0 .null { initial [] [] with dstack := [0, 7] } [7] rfl).2.2 (by decide)

/-! ## C5 and C6: the stack-shuffling words -/

/-- C5: the stack effects of the stack-shuffling words.  In every state whose data stack is
within capacity: `dup` (a -- a a), `over` (a b -- a b a) and `tuck` (b a -- a b a), when the
depth is below the capacity 4096, and `drop` (a -- ), `swap` (a b -- b a), `rot` (a b c -- b c a)
and `-rot` (a b c -- c a b) turn a stack that holds the named cells on top into the stack the
signature gives; the cells below and every other component of the state are unchanged. -/
theorem stack_words_effect (rnd : Nat) (save : Ptr) (st : State)
    (hcap : st.dstack.length ≤ STACKSZ) :
    (∀ a r, st.dstack = a :: r → st.dstack.length < STACKSZ →
        exec rnd (bytes "dup") save st = .ok (.cont .null save { st with dstack := a :: a :: r }))
    ∧ (∀ a r, st.dstack = a :: r →
        exec rnd (bytes "drop") save st = .ok (.cont .null save { st with dstack := r }))
    ∧ (∀ a b r, st.dstack = b :: a :: r →
        exec rnd (bytes "swap") save st = .ok (.cont .null save { st with dstack := a :: b :: r }))
    ∧ (∀ a b r, st.dstack = b :: a :: r → st.dstack.length < STACKSZ →
        exec rnd (bytes "over") save st
          = .ok (.cont .null save { st with dstack := a :: b :: a :: r }))
    ∧ (∀ a b c r, st.dstack = c :: b :: a :: r →
        exec rnd (bytes "rot") save st
          = .ok (.cont .null save { st with dstack := a :: c :: b :: r }))
    ∧ (∀ a b c r, st.dstack = c :: b :: a :: r →
        exec rnd (bytes "-rot") save st
          = .ok (.cont .null save { st with dstack := b :: a :: c :: r }))
    ∧ (∀ a b r, st.dstack = a :: b :: r → st.dstack.length < STACKSZ →
        exec rnd (bytes "tuck") save st
          = .ok (.cont .null save { st with dstack := a :: b :: a :: r })) := by
  cases st
  simp only at hcap
  refine ⟨?_, ?_, ?_, ?_, ?_, ?_, ?_⟩
  · intro a r h hlt
    simp only at h hlt
    subst h
    have h1 : ¬ STACKSZ ≤ r.length + 1 := by simp at hlt; omega
    simp [exec, bytes, push, h1]
  · intro a r h
    simp only at h
    subst h
    simp [exec, bytes, pop]
  · intro a b r h
    simp only at h
    subst h
    have h1 : ¬ STACKSZ ≤ r.length := by simp at hcap; omega
    have h2 : ¬ STACKSZ ≤ r.length + 1 := by simp at hcap; omega
    simp [exec, bytes, pop, push, h1, h2]
  · intro a b r h hlt
    simp only at h hlt
    subst h
    have h1 : ¬ STACKSZ ≤ r.length + 1 + 1 := by simp at hlt; omega
    simp [exec, bytes, push, h1]
  · intro a b c r h
    simp only at h
    subst h
    have h1 : ¬ STACKSZ ≤ r.length := by simp at hcap; omega
    have h2 : ¬ STACKSZ ≤ r.length + 1 := by simp at hcap; omega
    have h3 : ¬ STACKSZ ≤ r.length + 1 + 1 := by simp at hcap; omega
    simp [exec, bytes, pop, push, h1, h2, h3]
  · intro a b c r h
    simp only at h
    subst h
    have h1 : ¬ STACKSZ ≤ r.length := by simp at hcap; omega
    have h2 : ¬ STACKSZ ≤ r.length + 1 := by simp at hcap; omega
    have h3 : ¬ STACKSZ ≤ r.length + 1 + 1 := by simp at hcap; omega
    simp [exec, bytes, pop, push, h1, h2, h3]
  · intro a b r h hlt
    simp only at h hlt
    subst h
    have h1 : ¬ STACKSZ ≤ r.length := by simp at hlt; omega
    have h2 : ¬ STACKSZ ≤ r.length + 1 := by simp at hlt; omega
    have h3 : ¬ STACKSZ ≤ r.length + 1 + 1 := by simp at hlt; omega
    simp [exec, bytes, pop, push, h1, h2, h3]

/-- C5, at a concrete input: the seven words on the stack `1 2 3` (3 on top). -/
theorem stack_words_effect_witness :
    exec 0 (bytes "dup") .null { initial [] [] with dstack := [3, 2, 1] }
        = .ok (.cont .null .null { initial [] [] with dstack := [3, 3, 2, 1] })
    ∧ exec 0 (bytes "drop") .null { initial [] [] with dstack := [3, 2, 1] }
        = .ok (.cont .null .null { initial [] [] with dstack := [2, 1] })
    ∧ exec 0 (bytes "swap") .null { initial [] [] with dstack := [3, 2, 1] }
        = .ok (.cont .null .null { initial [] [] with dstack := [2, 3, 1] })
    ∧ exec 0 (bytes "over") .null { initial [] [] with dstack := [3, 2, 1] }
        = .ok (.cont .null .null { initial [] [] with dstack := [2, 3, 2, 1] })
    ∧ exec 0 (bytes "rot") .null { initial [] [] with dstack := [3, 2, 1] }
        = .ok (.cont .null .null { initial [] [] with dstack := [1, 3, 2] })
    ∧ exec 0 (bytes "-rot") .null { initial [] [] with dstack := [3, 2, 1] }
        = .ok (.cont .null .null { initial [] [] with dstack := [2, 1, 3] })
    ∧ exec 0 (bytes "tuck") .null { initial [] [] with dstack := [3, 2, 1] }
        = .ok (.cont .null .null { initial [] [] with dstack := [3, 2, 3, 1] }) :=
  have h := stack_words_effect 0 .null { initial [] [] with dstack := [3, 2, 1] } (by decide)
  ⟨h.1 3 [2, 1] rfl (by decide), h.2.1 3 [2, 1] rfl, h.2.2.1 2 3 [1] rfl,
    h.2.2.2.1 2 3 [1] rfl (by decide), h.2.2.2.2.1 1 2 3 [] rfl, h.2.2.2.2.2.1 1 2 3 [] rfl,
    h.2.2.2.2.2.2 3 2 [1] rfl (by decide)⟩

/-- C6: stack underflow of the stack-shuffling words.  On every state with insufficient depth
the word dies with the `stack underflow` diagnostic and nothing else happens (stdout is as it
was): `dup` and `drop` at depth 0, `swap`, `over` and `tuck` at depth below 2, `rot` and `-rot`
at depth below 3. -/
theorem stack_words_underflow (rnd : Nat) (save : Ptr) (st : State) :
    (st.dstack.length = 0 →
        exec rnd (bytes "dup") save st = die "stack underflow" st
        ∧ exec rnd (bytes "drop") save st = die "stack underflow" st)
    ∧ (st.dstack.length < 2 →
        exec rnd (bytes "swap") save st = die "stack underflow" st
        ∧ exec rnd (bytes "over") save st = die "stack underflow" st
        ∧ exec rnd (bytes "tuck") save st = die "stack underflow" st)
    ∧ (st.dstack.length < 3 →
        exec rnd (bytes "rot") save st = die "stack underflow" st
        ∧ exec rnd (bytes "-rot") save st = die "stack underflow" st) := by
  cases st with
  | mk dstack dict dictlen arena nextb cstack lstack ltop line out inp nrand =>
  refine ⟨?_, ?_, ?_⟩
  · intro h
    simp only at h
    have : dstack = [] := List.length_eq_zero.mp h
    subst this
    simp [exec, bytes, pop, die]
  · intro h
    simp only at h
    rcases dstack with _ | ⟨a, _ | ⟨b, r⟩⟩
    · simp [exec, bytes, pop, die]
    · simp [exec, bytes, pop, die]
    · simp only [List.length_cons] at h; omega
  · intro h
    simp only at h
    rcases dstack with _ | ⟨a, _ | ⟨b, _ | ⟨c, r⟩⟩⟩
    · simp [exec, bytes, pop, die]
    · simp [exec, bytes, pop, die]
    · simp [exec, bytes, pop, die]
    · simp only [List.length_cons] at h; omega

/-- C6, at concrete inputs: `dup` on the empty stack, `swap` on one cell and `rot` on two cells
die with `stack underflow`. -/
theorem stack_words_underflow_witness :
    exec 0 (bytes "dup") .null (initial [] []) = .dead ⟨bytes "stack underflow\n", []⟩
    ∧ exec 0 (bytes "swap") .null { initial [] [] with dstack := [1] }
        = .dead ⟨bytes "stack underflow\n", []⟩
    ∧ exec 0 (bytes "rot") .null { initial [] [] with dstack := [2, 1] }
        = .dead ⟨bytes "stack underflow\n", []⟩ :=
  ⟨((stack_words_underflow 0 .null (initial [] [])).1 rfl).1,
   ((stack_words_underflow 0 .null { initial [] [] with dstack := [1] }).2.1 (by decide)).1,
   ((stack_words_underflow 0 .null { initial [] [] with dstack := [2, 1] }).2.2 (by decide)).1⟩

/-! ## What the token loops leave alone -/

theorem Res.sat_bind {α β : Type} {x : Res α} {f : α → Res β} {p1 : α → Prop} {p : β → Prop}
    {q : Dead → Prop} (hx : x.sat p1 q) (hf : ∀ a, p1 a → (f a).sat p q) :
    (x.bind f).sat p q := by
  cases x with
  | ok a => exact hf a hx
  | dead d => exact hx
  | crash => trivial
  | outOfFuel => trivial

theorem Res.sat_mono {α : Type} {x : Res α} {p p1 : α → Prop} {q q1 : Dead → Prop}
    (hx : x.sat p q) (hp : ∀ a, p a → p1 a) (hq : ∀ d, q d → q1 d) : x.sat p1 q1 := by
  cases x with
  | ok a => exact hp a hx
  | dead d => exact hq d hx
  | crash => trivial
  | outOfFuel => trivial

theorem Res.sat_ok {α : Type} {x : Res α} {p : α → Prop} {q : Dead → Prop} {a : α}
    (hx : x.sat p q) (h : x = .ok a) : p a := by
  subst h; exact hx

theorem Res.sat_dead {α : Type} {x : Res α} {p : α → Prop} {q : Dead → Prop} {d : Dead}
    (hx : x.sat p q) (h : x = .dead d) : q d := by
  subst h; exact hx

theorem sameRegs_refl (s : State) : sameRegs s s := by simp [sameRegs]

theorem sameRegs_trans {s t u : State} (h1 : sameRegs s t) (h2 : sameRegs t u) : sameRegs s u := by
  unfold sameRegs at *
  obtain ⟨a1, a2, a3, a4, a5, a6, a7, a8, a9⟩ := h1
  obtain ⟨b1, b2, b3, b4, b5, b6, b7, b8, b9⟩ := h2
  exact ⟨b1.trans a1, b2.trans a2, b3.trans a3, b4.trans a4, b5.trans a5, b6.trans a6,
    b7.trans a7, b8.trans a8, b9.trans a9⟩

theorem strtok_r_sameRegs (st : State) (s : Ptr) (delim : List Nat) (save : Ptr) :
    sameRegs st (strtok_r st s delim save).2.2 := by
  unfold strtok_r
  split <;> simp [sameRegs]

/-- The loop of `skip_comment` touches memory only, and never dies. -/
theorem skipLoop_sat : ∀ (n : Nat) (st : State) (save : Ptr),
    (skipLoop n st save).sat (fun r => sameRegs st r.1) (fun _ => False)
  | 0, _, _ => by simp [skipLoop, Res.sat]
  | n + 1, st, save => by
    have hs := strtok_r_sameRegs st .null DELIM save
    unfold skipLoop
    generalize strtok_r st .null DELIM save = x at hs
    obtain ⟨tok, sv, st1⟩ := x
    cases tok with
    | none => exact hs
    | some t =>
      simp only
      split
      · exact hs
      · exact Res.sat_mono (skipLoop_sat n st1 sv) (fun _ h => sameRegs_trans hs h) (fun _ h => h)

theorem skip_comment_sat (st : State) (save : Ptr) :
    (skip_comment st save).sat (fun r => sameRegs st r.1) (fun _ => False) :=
  skipLoop_sat _ st save

/-- The token loop of `compile_word` touches memory only; when it dies stdout is as it was. -/
theorem compileLoop_sat : ∀ (n : Nat) (st : State) (save : Ptr),
    (compileLoop n st save).sat (fun r => sameRegs st r.1)
      (fun d => d.err = bytes "compile arena full\n" ∧ d.out = st.out)
  | 0, _, _ => by simp [compileLoop, Res.sat]
  | n + 1, st, save => by
    have hs := strtok_r_sameRegs st .null DELIM save
    unfold compileLoop
    generalize strtok_r st .null DELIM save = x at hs
    obtain ⟨tok, sv, st1⟩ := x
    have ho : st1.out = st.out := hs.2.2.2.2.2.2.1
    cases tok with
    | none => exact hs
    | some t =>
      simp only
      split
      · exact hs
      · split
        · refine Res.sat_bind (Res.sat_mono (skip_comment_sat st1 sv) (fun _ h => h) (fun _ h => h.elim))
            (fun p hp => ?_)
          exact Res.sat_mono (compileLoop_sat n p.1 p.2) (fun _ h => sameRegs_trans hs (sameRegs_trans hp h))
            (fun _ h => ⟨h.1, by rw [h.2, hp.2.2.2.2.2.2.1, ho]⟩)
        · split
          · exact ⟨rfl, ho⟩
          · exact Res.sat_mono (compileLoop_sat n _ sv)
              (fun _ h => sameRegs_trans hs (sameRegs_trans (by simp [sameRegs]) h))
              (fun _ h => ⟨h.1, by rw [h.2]; exact ho⟩)

/-- The scan of a false `while` touches memory only, and never dies. -/
theorem scanLoop_sat : ∀ (n : Nat) (st : State) (tmp : Ptr) (depth : Int),
    (scanLoop n st tmp depth).sat (fun r => sameRegs st r.1) (fun _ => False)
  | 0, _, _, _ => by simp [scanLoop, Res.sat]
  | n + 1, st, tmp, depth => by
    have hs := strtok_r_sameRegs st .null DELIM tmp
    unfold scanLoop
    generalize strtok_r st .null DELIM tmp = x at hs
    obtain ⟨tok, sv, st1⟩ := x
    cases tok with
    | none => exact hs
    | some t =>
      simp only
      split
      · refine Res.sat_bind (skip_comment_sat st1 sv) (fun p hp => ?_)
        exact Res.sat_mono (scanLoop_sat n p.1 p.2 depth) (fun _ h => sameRegs_trans hs (sameRegs_trans hp h))
          (fun _ h => h)
      · split
        · exact Res.sat_mono (scanLoop_sat n st1 sv _) (fun _ h => sameRegs_trans hs h) (fun _ h => h)
        · split
          · split
            · exact hs
            · exact Res.sat_mono (scanLoop_sat n st1 sv _) (fun _ h => sameRegs_trans hs h) (fun _ h => h)
          · exact Res.sat_mono (scanLoop_sat n st1 sv _) (fun _ h => sameRegs_trans hs h) (fun _ h => h)

/-- A definition (before `vanish`) appends one word and leaves the stacks and the streams
alone; it dies only of an empty definition, a full dictionary or a full arena, with stdout as
it was. -/
theorem compileDefine_sat (st : State) (psave : Ptr) :
    (compileDefine st psave).sat
      (fun r => st.dictlen < DICTSZ ∧ r.1.dictlen = st.dictlen + 1 ∧ r.1.dstack = st.dstack ∧
        r.1.cstack = st.cstack ∧ r.1.lstack = st.lstack ∧ r.1.ltop = st.ltop ∧
        r.1.out = st.out ∧ r.1.inp = st.inp ∧ r.1.nrand = st.nrand)
      (fun d => (d.err = bytes "empty definition\n" ∨ d.err = bytes "dictionary full\n" ∨
        d.err = bytes "compile arena full\n") ∧ d.out = st.out) := by
  have hs := strtok_r_sameRegs st .null DELIM psave
  unfold compileDefine
  generalize strtok_r st .null DELIM psave = x at hs
  obtain ⟨tok, sv, st1⟩ := x
  have ho : st1.out = st.out := hs.2.2.2.2.2.2.1
  cases tok with
  | none => exact ⟨Or.inl rfl, ho⟩
  | some t =>
    simp only
    split
    · exact ⟨Or.inr (Or.inl rfl), ho⟩
    · split
      · exact ⟨Or.inr (Or.inr rfl), ho⟩
      · refine Res.sat_bind (Res.sat_mono (compileLoop_sat _ _ sv) (fun _ h => h)
          (fun d h => (⟨Or.inr (Or.inr h.1), h.2.trans ho⟩ : _ ∧ d.out = st.out))) (fun p hc => ?_)
        unfold sameRegs at hs hc
        simp only at hs hc
        obtain ⟨a1, a2, a3, a4, a5, a6, a7, a8, a9⟩ := hs
        obtain ⟨b1, b2, b3, b4, b5, b6, b7, b8, b9⟩ := hc
        simp only [Res.sat]
        refine ⟨by omega, by omega, ?_, ?_, ?_, ?_, ?_, ?_, ?_⟩ <;> simp_all

/-! ## What one iteration of `run` keeps -/

theorem quiet_refl (s : State) : quiet s s := ⟨rfl, rfl⟩

theorem quiet_evolves {s t : State} (h : quiet s t) : evolves s t :=
  ⟨h.1, by rw [h.2]⟩

theorem quiet_of_sameRegs {s t u : State} (h : quiet s t) (h2 : sameRegs t u) : quiet s u :=
  ⟨h2.2.2.1.trans h.1, h2.2.2.2.2.2.2.1.trans h.2⟩

theorem pop_bind_sat {β : Type} (st0 st : State) (f : Int × State → Res β) (p : β → Prop)
    (h : quiet st0 st)
    (hf : ∀ a, quiet st0 a.2 → (f a).sat p (fun d => d.out = st0.out)) :
    ((pop st).bind f).sat p (fun d => d.out = st0.out) := by
  unfold pop
  split
  · exact h.2
  · exact hf _ h

theorem push_bind_sat {β : Type} (st0 st : State) (v : Int) (f : State → Res β) (p : β → Prop)
    (h : quiet st0 st)
    (hf : ∀ a, quiet st0 a → (f a).sat p (fun d => d.out = st0.out)) :
    ((push v st).bind f).sat p (fun d => d.out = st0.out) := by
  unfold push
  split
  · exact h.2
  · exact hf _ h

theorem Res.sat_ite {α : Type} {c : Prop} [Decidable c] {x y : Res α} {p : α → Prop}
    {q : Dead → Prop} (hx : c → x.sat p q) (hy : ¬ c → y.sat p q) :
    (if c then x else y).sat p q := by
  split
  · exact hx ‹_›
  · exact hy ‹_›

theorem die_sat {β : Type} (st0 st : State) (msg : String) (p : β → Prop) (h : quiet st0 st) :
    (die msg st : Res β).sat p (fun d => d.out = st0.out) := h.2

theorem quiet_evolves_append {s t : State} (x : List Nat) (h : quiet s t) :
    evolves s { t with out := t.out ++ x } :=
  ⟨h.1, by rw [← h.2]; exact List.prefix_append _ _⟩

theorem vanish_quiet (rnd : Nat) (st : State) :
    (vanish rnd st).dictlen = st.dictlen - 1 ∧ (vanish rnd st).out = st.out := by
  unfold vanish
  split
  · exact ⟨by omega, rfl⟩
  · exact ⟨rfl, rfl⟩

theorem quiet_evolves_append2 {s t : State} (x y : List Nat) (h : quiet s t) :
    evolves s { t with out := t.out ++ x ++ y } :=
  ⟨h.1, by rw [← h.2, List.append_assoc]; exact List.prefix_append _ _⟩

/-- A definition keeps the size of the dictionary: one word is appended, one is erased. -/
theorem compile_word_sat (rnd : Nat) (st : State) (psave : Ptr) :
    (compile_word rnd st psave).sat (fun r => quiet st r.1)
      (fun d => (d.err = bytes "empty definition\n" ∨ d.err = bytes "dictionary full\n" ∨
        d.err = bytes "compile arena full\n") ∧ d.out = st.out) := by
  unfold compile_word
  refine Res.sat_bind (compileDefine_sat st psave) (fun p hp => ?_)
  have hv := vanish_quiet rnd p.1
  exact ⟨by rw [hv.1, hp.2.1]; omega, by rw [hv.2]; exact hp.2.2.2.2.2.2.1⟩

/-- One token: the dictionary keeps its size, stdout is only appended to, and a death leaves
stdout as it was. -/
theorem exec_sat (rnd : Nat) (t : List Nat) (save : Ptr) (st : State) :
    (exec rnd t save st).sat (fun r => evolves st r.state) (fun d => d.out = st.out) := by
  have h0 := quiet_refl st
  unfold exec
  iterate 23 (apply Res.sat_ite <;> intro _; swap)
  all_goals try (repeat' (first
    | refine pop_bind_sat st _ _ _ (by assumption) (fun _ _ => ?_)
    | refine push_bind_sat st _ _ _ _ (by assumption) (fun _ _ => ?_)
    | (apply Res.sat_ite <;> intro _)
    | exact die_sat _ _ _ _ (by assumption)
    | exact quiet_evolves (by assumption)
    | exact quiet_evolves_append _ (by assumption)
    | exact True.intro))
  · split
    · exact push_bind_sat st _ _ _ _ h0 (fun _ h => quiet_evolves h)
    · apply Res.sat_ite <;> intro _
      · exact h0.2
      · apply Res.sat_ite <;> intro _
        · exact die_sat _ _ _ _ h0
        · exact quiet_evolves ⟨rfl, rfl⟩
  · exact Res.sat_bind (Res.sat_mono (compile_word_sat rnd st save) (fun _ h => h)
      (fun _ h => h.2)) (fun _ h => quiet_evolves h)
  · rename_i c hc _
    have hc1 : quiet st { c.2 with ltop := c.2.ltop - 1 } := ⟨hc.1, hc.2⟩
    refine Res.sat_bind (Res.sat_mono (scanLoop_sat _ _ save 1) (fun _ h => quiet_of_sameRegs hc1 h)
      (fun _ h => h.elim)) (fun p hp => ?_)
    split
    · exact die_sat _ _ _ _ hp
    · exact quiet_evolves hp
  · split
    · exact push_bind_sat st _ _ _ _ h0 (fun _ h => quiet_evolves h)
    · exact die_sat _ _ _ _ h0
  · split
    · exact die_sat _ _ _ _ h0
    · exact push_bind_sat st _ _ _ _ h0 (fun _ h => quiet_evolves h)
  · split
    · exact push_bind_sat st _ _ _ _ h0 (fun _ h => quiet_evolves h)
    · exact push_bind_sat st _ _ _ _ ⟨rfl, rfl⟩ (fun _ h => quiet_evolves h)
  · exact quiet_evolves_append2 _ _ (by assumption)
  · exact Res.sat_bind (Res.sat_mono (skip_comment_sat st save) (fun _ h => quiet_of_sameRegs h0 h)
      (fun _ h => h.elim)) (fun _ h => quiet_evolves h)

/-- One iteration of `run`: the dictionary keeps its size, stdout is only appended to, and a
death leaves stdout as it was. -/
theorem step_sat (rnd : Nat) (ip save : Ptr) (st : State) :
    (step rnd ip save st).sat (fun r => evolves st r.state) (fun d => d.out = st.out) := by
  have hs := strtok_r_sameRegs st ip DELIM save
  unfold step
  generalize strtok_r st ip DELIM save = x at hs
  obtain ⟨tok, sv, st1⟩ := x
  have hq : quiet st st1 := quiet_of_sameRegs (quiet_refl st) hs
  cases tok with
  | none =>
    simp only
    split
    · exact quiet_evolves hq
    · exact quiet_evolves ⟨hq.1, hq.2⟩
  | some t =>
    exact Res.sat_mono (exec_sat rnd _ sv st1)
      (fun _ h => ⟨h.1.trans hq.1, by rw [← hq.2]; exact h.2⟩) (fun _ h => h.trans hq.2)

theorem evolves_trans {s t u : State} (h1 : evolves s t) (h2 : evolves t u) : evolves s u :=
  ⟨h2.1.trans h1.1, h1.2.trans h2.2⟩

/-- A run of the loop of `run`: the dictionary keeps its size and stdout is only appended to,
whether the loop returns or the process dies. -/
theorem runLoop_sat (rand : Nat → Nat) : ∀ (fuel : Nat) (ip save : Ptr) (st : State),
    (runLoop rand fuel ip save st).sat (fun s => evolves st s) (fun d => st.out <+: d.out)
  | 0, _, _, _ => trivial
  | fuel + 1, ip, save, st => by
    have hs := step_sat (rand st.nrand) ip save st
    unfold runLoop
    generalize step (rand st.nrand) ip save st = x at hs
    cases x with
    | ok r =>
      cases r with
      | cont ip1 save1 st1 =>
        exact Res.sat_mono (runLoop_sat rand fuel ip1 save1 st1) (fun _ h => evolves_trans hs h)
          (fun _ h => hs.2.trans h)
      | ret st1 => exact hs
    | dead d =>
      have : d.out = st.out := hs
      simp only [Res.sat, this]
      exact List.prefix_refl _
    | crash => trivial
    | outOfFuel => trivial

/-! ## The random source, the fuel -/

/-- With a dictionary of size 1 the erased index is `rnd % 1`: the value of `rand()` is
irrelevant. -/
theorem vanish_one (rnd : Nat) (st : State) (h : st.dictlen = 1) : vanish rnd st = vanish 0 st := by
  unfold vanish
  simp [h, Nat.mod_one]

theorem compile_word_rnd (rnd : Nat) (st : State) (psave : Ptr) (h : st.dictlen = 0) :
    compile_word rnd st psave = compile_word 0 st psave := by
  have hd := compileDefine_sat st psave
  unfold compile_word
  generalize compileDefine st psave = x at hd
  cases x with
  | ok p =>
    have h1 : p.1.dictlen = 1 := by rw [hd.2.1, h]
    simp only [Res.ok_bind, vanish_one rnd p.1 h1]
  | dead d => rfl
  | crash => rfl
  | outOfFuel => rfl

theorem exec_rnd (rnd : Nat) (t : List Nat) (save : Ptr) (st : State) (h : st.dictlen = 0) :
    exec rnd t save st = exec 0 t save st := by
  unfold exec
  rw [compile_word_rnd rnd st save h]

/-- While the dictionary is empty, one iteration of `run` does not depend on `rand()`. -/
theorem step_rnd (rnd : Nat) (ip save : Ptr) (st : State) (h : st.dictlen = 0) :
    step rnd ip save st = step 0 ip save st := by
  have hs := strtok_r_sameRegs st ip DELIM save
  unfold step
  generalize strtok_r st ip DELIM save = x at hs
  obtain ⟨tok, sv, st1⟩ := x
  cases tok with
  | none => rfl
  | some t => exact exec_rnd rnd _ sv st1 (hs.2.2.1.trans h)

/-- While the dictionary is empty, `run` does not depend on the random source. -/
theorem runLoop_rnd (rand : Nat → Nat) : ∀ (fuel : Nat) (ip save : Ptr) (st : State),
    st.dictlen = 0 → runLoop rand fuel ip save st = runLoop (fun _ => 0) fuel ip save st
  | 0, _, _, _, _ => rfl
  | fuel + 1, ip, save, st, h => by
    have hs := step_sat 0 ip save st
    unfold runLoop
    rw [step_rnd (rand st.nrand) ip save st h]
    generalize step 0 ip save st = x at hs
    cases x with
    | ok r =>
      cases r with
      | cont ip1 save1 st1 => exact runLoop_rnd rand fuel ip1 save1 st1 (hs.1.trans h)
      | ret st1 => rfl
    | dead d => rfl
    | crash => rfl
    | outOfFuel => rfl

/-- More fuel does not change a run that ended. -/
theorem runLoop_fuel (rand : Nat → Nat) : ∀ (fuel k : Nat) (ip save : Ptr) (st : State),
    runLoop rand fuel ip save st ≠ .outOfFuel →
    runLoop rand (fuel + k) ip save st = runLoop rand fuel ip save st
  | 0, _, _, _, _, h => absurd rfl h
  | fuel + 1, k, ip, save, st, h => by
    rw [show fuel + 1 + k = (fuel + k) + 1 by omega]
    unfold runLoop at h ⊢
    generalize step (rand st.nrand) ip save st = x at h ⊢
    cases x with
    | ok r =>
      cases r with
      | cont ip1 save1 st1 => exact runLoop_fuel rand fuel k ip1 save1 st1 h
      | ret st1 => rfl
    | dead d => rfl
    | crash => rfl
    | outOfFuel => rfl

/-- A run from an empty dictionary that ends within `n` iterations for the random source that
always returns 0 ends in the same way for every random source and every larger fuel. -/
theorem run_of_eval (rand : Nat → Nat) (n k : Nat) (st : State) (r : Res State)
    (hd : st.dictlen = 0) (hr : run (fun _ => 0) n st = r) (hne : r ≠ .outOfFuel) :
    run rand (k + n) st = r := by
  unfold run at hr ⊢
  rw [runLoop_rnd rand _ _ _ st hd, Nat.add_comm, runLoop_fuel _ n k _ _ st (by rw [hr]; exact hne), hr]

/-! ## C1 and C2: the loop of the specification -/

/-- The line of C1, run with the random source that always returns 0. -/
theorem count_line_eval :
    run (fun _ => 0) 2
        (initial (bytes ": count 0 begin dup 5 < while dup . 1 + repeat ; count\n") [])
      = .dead ⟨bytes "unknown word: count\n", []⟩ := by
  decide

/-- The first iteration on the line of C1: the definition is compiled and erased at once. -/
theorem count_line_define (rnd : Nat) :
    ∃ sv s, step rnd (.line 0) .null
        (initial (bytes ": count 0 begin dup 5 < while dup . 1 + repeat ; count\n") [])
          = .ok (.cont .null sv s)
      ∧ s.dictlen = 0 ∧ s.nrand = 1 ∧ s.out = [] ∧ s.dstack = []
      ∧ find s (bytes "count") = -1 := by
  rw [step_rnd rnd _ _ _ rfl]
  exact ⟨_, _, rfl, rfl, rfl, rfl, rfl, rfl⟩

/-- C1, as the code has it: from the initial state, for every random source, the line
`: count 0 begin dup 5 < while dup . 1 + repeat ; count` prints nothing.  The definition of
`count` is compiled and erased at once by `vanish` (the dictionary holds one word, so the erased
index is 0 whatever `rand()` returns), the dictionary is empty again, and the token `count` ends
the run with the `unknown word: count` diagnostic and an empty stdout. -/
theorem count_line_unknown_word (rand : Nat → Nat) (fuel : Nat) :
    run rand (fuel + 2)
        (initial (bytes ": count 0 begin dup 5 < while dup . 1 + repeat ; count\n") [])
      = .dead ⟨bytes "unknown word: count\n", []⟩
    ∧ ∃ sv s, step (rand 0) (.line 0) .null
        (initial (bytes ": count 0 begin dup 5 < while dup . 1 + repeat ; count\n") [])
          = .ok (.cont .null sv s)
      ∧ s.dictlen = 0 ∧ s.nrand = 1 ∧ s.out = [] ∧ s.dstack = []
      ∧ find s (bytes "count") = -1 :=
  ⟨run_of_eval rand 2 fuel _ _ rfl count_line_eval (by simp), count_line_define (rand 0)⟩

/-- C1 as stated fails: with the random source that always returns 0 the line prints nothing
and the run does not return: it dies with `unknown word: count`. -/
theorem count_line_counterexample :
    run (fun _ => 0) 64
        (initial (bytes ": count 0 begin dup 5 < while dup . 1 + repeat ; count\n") [])
      = .dead ⟨bytes "unknown word: count\n", []⟩
    ∧ ¬ ∃ s, run (fun _ => 0) 64
        (initial (bytes ": count 0 begin dup 5 < while dup . 1 + repeat ; count\n") [])
          = .ok s ∧ s.out = bytes "0\n1\n2\n3\n4\n" ∧ s.dstack = [5] := by
  have h := run_of_eval (fun _ => 0) 2 62 _ _ rfl count_line_eval (by simp)
  refine ⟨h, ?_⟩
  rintro ⟨s, hs, -⟩
  rw [h] at hs
  cases hs

/-- The line of C2, run with the random source that always returns 0. -/
theorem loop_line_eval :
    run (fun _ => 0) 13 (initial (bytes "0 begin dup 5 < while dup . 1 + repeat\n") [])
      = .ok { dstack := [1, 1], dict := [], dictlen := 0, arena := [], nextb := 0, cstack := [],
              lstack := [Ptr.line 8], ltop := 1,
              line := bytes "0\x00begin\x00dup\x005\x00<\x00while\x00dup\x00.\x001\x00+\x00repeat\x00",
              out := bytes "0\n", inp := [], nrand := 0 } := by
  decide

/-- C2, what the code does: the line `0 begin dup 5 < while dup . 1 + repeat`, tokenised in
place, prints only the line `0`.  `repeat` restores the cursor saved by `begin`, but the
delimiter after the first token of the loop is NUL by then: `strtok_r` returns `dup` and then
reports the end of the stream.  The run returns with the data stack `1 1`, and the loop stack
still holds the marker of `begin` (depth 1). -/
theorem loop_line_runs_once (rand : Nat → Nat) (fuel : Nat) :
    run rand (fuel + 13) (initial (bytes "0 begin dup 5 < while dup . 1 + repeat\n") [])
      = .ok { dstack := [1, 1], dict := [], dictlen := 0, arena := [], nextb := 0, cstack := [],
              lstack := [Ptr.line 8], ltop := 1,
              line := bytes "0\x00begin\x00dup\x005\x00<\x00while\x00dup\x00.\x001\x00+\x00repeat\x00",
              out := bytes "0\n", inp := [], nrand := 0 } :=
  run_of_eval rand 13 fuel _ _ rfl loop_line_eval (by simp)

/-! ## C10: the size of the dictionary -/

/-- C10: the size of the dictionary across a definition.  For every state, cursor and value of
`rand()`: when the size `n` is below 256, a `compile_word` that returns first made the size
`n + 1` (at most 256) and then `vanish` erased one entry, so the size is `n` again; when the size
is 256 or more `compile_word` dies, with `dictionary full` whenever a name follows `:`; and no
iteration of `run`, and no run, takes the size from at most 256 to more than 256. -/
theorem dict_size_recurrence (rnd : Nat) (st : State) (psave : Ptr) :
    (st.dictlen < DICTSZ → ∀ r, compile_word rnd st psave = .ok r →
        ∃ st1, compileDefine st psave = .ok (st1, r.2) ∧ st1.dictlen = st.dictlen + 1
          ∧ st1.dictlen ≤ DICTSZ ∧ r.1 = vanish rnd st1 ∧ r.1.dictlen = st.dictlen)
    ∧ (DICTSZ ≤ st.dictlen →
        (∃ d, compile_word rnd st psave = .dead d)
        ∧ ∀ name save1 st1, strtok_r st .null DELIM psave = (some name, save1, st1) →
            compile_word rnd st psave = die "dictionary full" st)
    ∧ (st.dictlen ≤ DICTSZ →
        (∀ ip save r, step rnd ip save st = .ok r → r.state.dictlen ≤ DICTSZ)
        ∧ ∀ rand fuel s, run rand fuel st = .ok s → s.dictlen ≤ DICTSZ) := by
  refine ⟨?_, ?_, ?_⟩
  · intro hlt r hr
    have hd := compileDefine_sat st psave
    unfold compile_word at hr
    generalize compileDefine st psave = x at hd hr
    cases x with
    | ok p =>
      simp only [Res.ok_bind, Res.ok.injEq] at hr
      subst hr
      have hv := vanish_quiet rnd p.1
      exact ⟨p.1, rfl, hd.2.1, by rw [hd.2.1]; omega, rfl, by rw [hv.1, hd.2.1]; omega⟩
    | dead d => cases hr
    | crash => cases hr
    | outOfFuel => cases hr
  · intro hge
    have hs := strtok_r_sameRegs st .null DELIM psave
    unfold compile_word compileDefine
    generalize strtok_r st .null DELIM psave = x at hs
    obtain ⟨tok, sv, st1⟩ := x
    have hlen : DICTSZ ≤ st1.dictlen := by rw [hs.2.2.1]; exact hge
    cases tok with
    | none =>
      refine ⟨⟨_, rfl⟩, ?_⟩
      intro name save1 st2 h
      cases h
    | some t =>
      simp only [ge_iff_le, if_pos hlen]
      refine ⟨⟨_, rfl⟩, ?_⟩
      intro name save1 st2 _
      have ho : st1.out = st.out := hs.2.2.2.2.2.2.1
      simp only [die, Res.dead_bind, ho]
  · intro hle
    refine ⟨?_, ?_⟩
    · intro ip save r hr
      have := Res.sat_ok (step_sat rnd ip save st) hr
      rw [this.1]; exact hle
    · intro rand fuel s hr
      have := Res.sat_ok (runLoop_sat rand fuel _ _ st) hr
      rw [this.1]; exact hle

/-! ## `strtok_r` on a buffer -/

theorem peek_eq_headD (buf : List Nat) (o : Nat) : peek buf o = (buf.drop o).headD 0 := by
  unfold peek
  rw [List.getD_eq_getElem?_getD, List.headD_eq_head?_getD, List.head?_drop]

theorem drop_length_takeWhile {α : Type} (p : α → Bool) :
    ∀ l : List α, l.drop (l.takeWhile p).length = l.dropWhile p
  | [] => rfl
  | a :: l => by
    by_cases h : p a
    · simp [List.takeWhile_cons_of_pos h, List.dropWhile_cons_of_pos h, drop_length_takeWhile p l]
    · simp [List.takeWhile_cons_of_neg h, List.dropWhile_cons_of_neg h]

theorem dropWhile_head {α : Type} (p : α → Bool) :
    ∀ (l : List α) (c : α) (r : List α), l.dropWhile p = c :: r → p c = false
  | [], _, _, h => by simp at h
  | a :: l, c, r, h => by
    by_cases ha : p a
    · rw [List.dropWhile_cons_of_pos ha] at h
      exact dropWhile_head p l c r h
    · rw [List.dropWhile_cons_of_neg ha] at h
      cases h
      simpa using ha

theorem mem_takeWhile {α : Type} (p : α → Bool) :
    ∀ (l : List α) (c : α), c ∈ l.takeWhile p → p c = true
  | [], _, h => by simp at h
  | a :: l, c, h => by
    by_cases ha : p a
    · rw [List.takeWhile_cons_of_pos ha] at h
      rcases List.mem_cons.mp h with rfl | h
      · exact ha
      · exact mem_takeWhile p l c h
    · rw [List.takeWhile_cons_of_neg ha] at h
      simp at h

/-- The shape of the buffer at a byte that is neither NUL nor a delimiter: a non-empty token,
then the rest, which is empty or starts with NUL or with a delimiter. -/
theorem token_shape (buf : List Nat) (t : Nat) (d : List Nat) (hne : peek buf t ≠ 0)
    (hnd : d.contains (peek buf t) = false) :
    ∃ tk rest, buf.drop t = tk ++ rest ∧ tk ≠ [] ∧ (∀ c ∈ tk, c ≠ 0 ∧ c ∉ d)
      ∧ tk.length = strcspn buf t d ∧ t + tk.length ≤ buf.length
      ∧ peek buf (t + tk.length) = rest.headD 0
      ∧ (rest = [] ∨ (∃ r, rest = 0 :: r) ∨ ∃ c r, rest = c :: r ∧ c ≠ 0 ∧ c ∈ d) := by
  let P : Nat → Bool := fun c => c != 0 && !d.contains c
  refine ⟨(buf.drop t).takeWhile P, (buf.drop t).dropWhile P,
    (List.takeWhile_append_dropWhile P _).symm, ?_, ?_, rfl, ?_, ?_, ?_⟩
  · -- the token is not empty
    rw [peek_eq_headD] at hne hnd
    cases hl : buf.drop t with
    | nil => rw [hl] at hne; simp at hne
    | cons a l =>
      rw [hl] at hne hnd
      simp only [List.headD_cons] at hne hnd
      have hmem : a ∉ d := by simpa using hnd
      have hp : P a = true := by simp [P, hne, hmem]
      rw [List.takeWhile_cons_of_pos hp]
      simp
  · intro c hc
    have := mem_takeWhile P _ c hc
    simp only [P, Bool.and_eq_true, bne_iff_ne, ne_eq, Bool.not_eq_true', List.contains_eq_any_beq,
      List.any_eq_false, beq_iff_eq] at this
    refine ⟨this.1, ?_⟩
    intro hmem
    exact this.2 c hmem rfl
  · have h1 : ((buf.drop t).takeWhile P).length ≤ (buf.drop t).length :=
      (List.takeWhile_prefix P).length_le
    have h2 : t < buf.length := by
      by_contra hge
      apply hne
      unfold peek
      rw [List.getD_eq_getElem?_getD, List.getElem?_eq_none (by omega)]
      rfl
    rw [List.length_drop] at h1
    omega
  · rw [peek_eq_headD, ← List.drop_drop, drop_length_takeWhile]
  · cases hr : (buf.drop t).dropWhile P with
    | nil => exact Or.inl rfl
    | cons c r =>
      right
      by_cases hc : c = 0
      · exact Or.inl ⟨r, by rw [hc]⟩
      · refine Or.inr ⟨c, r, rfl, hc, ?_⟩
        have := dropWhile_head P _ c r hr
        simp only [P, Bool.and_eq_false_iff, bne_eq_false_iff_eq, Bool.not_eq_false'] at this
        rcases this with h | h
        · exact absurd h hc
        · simpa using h

theorem cstrBuf_token (pre tk rest : List Nat) (h1 : ∀ c ∈ tk, c ≠ 0)
    (h2 : rest = [] ∨ ∃ r, rest = 0 :: r) : cstrBuf (pre ++ tk ++ rest) pre.length = tk := by
  unfold cstrBuf
  rw [List.append_assoc, List.drop_left, List.takeWhile_append_of_pos (by simpa using h1)]
  rcases h2 with rfl | ⟨r, rfl⟩ <;> simp

/-- What `strtok_r` returns with a token: the token `tk` is a non-empty run of bytes that are
neither NUL nor delimiters, it starts at or after the cursor, and it is followed either by the
end of the string (the buffer is unchanged, the cursor is left on the end) or by a delimiter,
which is overwritten by NUL (the cursor is left after it). -/
theorem strtokBuf_some (buf : List Nat) (s : Nat) (d : List Nat) (t sv : Nat) (buf1 : List Nat)
    (h : strtokBuf buf s d = (some t, sv, buf1)) :
    ∃ tk rest, buf.drop t = tk ++ rest ∧ tk ≠ [] ∧ (∀ c ∈ tk, c ≠ 0 ∧ c ∉ d)
      ∧ s ≤ t ∧ t + tk.length ≤ buf.length ∧ cstrBuf buf1 t = tk ∧ buf1.length = buf.length
      ∧ (((rest = [] ∨ ∃ r, rest = 0 :: r) ∧ buf1 = buf ∧ sv = t + tk.length)
         ∨ (∃ c r, rest = c :: r ∧ c ≠ 0 ∧ c ∈ d ∧ buf1 = buf.take t ++ tk ++ 0 :: r
              ∧ sv = t + tk.length + 1)) := by
  unfold strtokBuf at h
  split at h
  · cases h
  · dsimp only at h
    split at h
    · cases h
    · rename_i h1 h2
      -- the byte at the start of the token is not a delimiter
      have hnd : d.contains (peek buf (s + strspn buf s d)) = false := by
        rw [peek_eq_headD, ← List.drop_drop]
        unfold strspn
        rw [drop_length_takeWhile]
        cases hl : (buf.drop s).dropWhile (fun c => d.contains c) with
        | nil =>
          exfalso; apply h2
          rw [peek_eq_headD, ← List.drop_drop]
          unfold strspn
          rw [drop_length_takeWhile, hl]
          rfl
        | cons c r =>
          exact dropWhile_head _ _ c r hl
      have hst : s ≤ s + strspn buf s d := Nat.le_add_right _ _
      generalize s + strspn buf s d = t0 at h h2 hnd hst
      obtain ⟨tk, rest, hdrop, hne, hall, hlen, hle, hpk, hrest⟩ := token_shape buf t0 d h2 hnd
      have hpre : (buf.take t0).length = t0 := by
        rw [List.length_take]; omega
      have hbuf : buf.take t0 ++ tk ++ rest = buf := by
        rw [List.append_assoc, ← hdrop, List.take_append_drop]
      rw [← hlen] at h
      split at h
      · rename_i h3
        simp only [Prod.mk.injEq, Option.some.injEq] at h
        obtain ⟨rfl, rfl, rfl⟩ := h
        have hr : rest = [] ∨ ∃ r, rest = 0 :: r := by
          rw [hpk] at h3
          rcases hrest with h | h | ⟨c, r, rfl, hc, -⟩
          · exact Or.inl h
          · exact Or.inr h
          · exact absurd h3 hc
        have key := cstrBuf_token (buf.take t0) tk rest (fun c hc => (hall c hc).1) hr
        rw [hpre, hbuf] at key
        exact ⟨tk, rest, hdrop, hne, hall, hst, hle, key, rfl, Or.inl ⟨hr, rfl, rfl⟩⟩
      · rename_i h3
        simp only [Prod.mk.injEq, Option.some.injEq] at h
        obtain ⟨rfl, rfl, rfl⟩ := h
        rw [hpk] at h3
        rcases hrest with rfl | ⟨r, rfl⟩ | ⟨c, r, rfl, hc, hcd⟩
        · exact absurd rfl h3
        · exact absurd rfl h3
        · have hset : (buf.take t0 ++ tk ++ c :: r).set (t0 + tk.length) 0
              = buf.take t0 ++ tk ++ 0 :: r := by
            rw [List.set_append_right _ _ (by simp [hpre])]
            simp [hpre]
          rw [hbuf] at hset
          have key := cstrBuf_token (buf.take t0) tk (0 :: r) (fun c hc => (hall c hc).1)
            (Or.inr ⟨r, rfl⟩)
          rw [hpre, ← hset] at key
          exact ⟨tk, c :: r, hdrop, hne, hall, hst, hle, key, by simp,
            Or.inr ⟨c, r, rfl, hc, hcd, hset, rfl⟩⟩

theorem strtokBuf_none (buf : List Nat) (s : Nat) (d : List Nat) (sv : Nat) (buf1 : List Nat)
    (h : strtokBuf buf s d = (none, sv, buf1)) : buf1 = buf ∧ s ≤ sv ∧ peek buf sv = 0 := by
  unfold strtokBuf at h
  split at h
  · simp only [Prod.mk.injEq, true_and] at h
    obtain ⟨rfl, rfl⟩ := h
    exact ⟨rfl, Nat.le_refl _, ‹_›⟩
  · dsimp only at h
    split at h
    · simp only [Prod.mk.injEq, true_and] at h
      obtain ⟨rfl, rfl⟩ := h
      exact ⟨rfl, Nat.le_add_right _ _, ‹_›⟩
    · split at h <;> simp at h

/-- The function `strtok_r` continuing in the line buffer. -/
theorem strtok_r_line (st : State) (d : List Nat) (o : Nat) :
    strtok_r st .null d (.line o)
      = ((strtokBuf st.line o d).1.map Ptr.line, .line (strtokBuf st.line o d).2.1,
          { st with line := (strtokBuf st.line o d).2.2 }) := rfl

theorem mem_drop_of_le {α : Type} (l : List α) (i j : Nat) (h : i ≤ j) (x : α)
    (hx : x ∈ l.drop j) : x ∈ l.drop i := by
  have : l.drop j = (l.drop i).drop (j - i) := by
    rw [List.drop_drop]
    congr 1
    omega
  rw [this] at hx
  exact List.mem_of_mem_drop hx

/-- A token read from the line buffer: the cursor moves forward by at least the length of the
token, which is at least 1, and stays within the line; only the line buffer changes, and it
keeps its length; the bytes of the token and the bytes left after the new cursor are bytes
that were after the old cursor. -/
theorem strtok_r_line_some (st : State) (o : Nat) (tok sv : Ptr) (st1 : State)
    (h : strtok_r st .null DELIM (.line o) = (some tok, sv, st1)) :
    ∃ o1, sv = .line o1 ∧ 1 ≤ (cstr st1 tok).length ∧ o + (cstr st1 tok).length ≤ o1
      ∧ o1 ≤ st.line.length ∧ st1.line.length = st.line.length
      ∧ st1 = { st with line := st1.line }
      ∧ (∀ x ∈ cstr st1 tok, x ∈ st.line.drop o)
      ∧ (∀ x ∈ st1.line.drop o1, x ∈ st.line.drop o) := by
  rw [strtok_r_line] at h
  generalize hx : strtokBuf st.line o DELIM = x at h
  obtain ⟨t, o1, buf1⟩ := x
  cases t with
  | none => simp at h
  | some t =>
    simp only [Option.map_some', Prod.mk.injEq, Option.some.injEq] at h
    obtain ⟨rfl, rfl, rfl⟩ := h
    obtain ⟨tk, rest, hdrop, hne, -, hst, hle, hc, hlen, hcase⟩ := strtokBuf_some _ _ _ _ _ _ hx
    have h1 : 1 ≤ tk.length := by
      cases tk with
      | nil => exact absurd rfl hne
      | cons a l => simp
    have hsub : ∀ x ∈ tk ++ rest, x ∈ st.line.drop o := by
      intro x hx
      rw [← hdrop] at hx
      exact mem_drop_of_le _ _ _ hst x hx
    have hpre : (st.line.take t).length = t := by
      rw [List.length_take]; omega
    refine ⟨o1, rfl, ?_, ?_, ?_, hlen, rfl, ?_, ?_⟩
    · simp only [cstr]; rw [hc]; exact h1
    · simp only [cstr]; rw [hc]
      rcases hcase with ⟨-, -, rfl⟩ | ⟨c, r, -, -, -, -, rfl⟩ <;> omega
    · rcases hcase with ⟨-, -, rfl⟩ | ⟨c, r, hr, -, -, -, rfl⟩
      · exact hle
      · have := congrArg List.length hdrop
        rw [hr] at this
        simp only [List.length_drop, List.length_append, List.length_cons] at this
        omega
    · intro x hx
      simp only [cstr] at hx
      rw [hc] at hx
      exact hsub x (List.mem_append_left _ hx)
    · intro x hx
      simp only at hx
      rcases hcase with ⟨-, rfl, rfl⟩ | ⟨c, r, hr, -, -, rfl, rfl⟩
      · rw [← List.drop_drop, hdrop, List.drop_left] at hx
        exact hsub x (List.mem_append_right _ hx)
      · have hd : (st.line.take t ++ tk ++ 0 :: r).drop (t + tk.length + 1) = r := by
          have hl : (st.line.take t ++ tk ++ [0]).length = t + tk.length + 1 := by
            simp only [List.length_append, hpre, List.length_singleton]
          rw [show st.line.take t ++ tk ++ 0 :: r = (st.line.take t ++ tk ++ [0]) ++ r by simp,
            ← hl, List.drop_left]
        rw [hd] at hx
        exact hsub x (List.mem_append_right _ (by rw [hr]; exact List.mem_cons_of_mem _ hx))

/-- A cursor on a NUL of the line buffer: the stream is exhausted. -/
theorem strtok_r_line_of_peek (st : State) (d : List Nat) (o : Nat) (h : peek st.line o = 0) :
    strtok_r st .null d (.line o) = (none, .line o, st) := by
  rw [strtok_r_line]
  simp only [strtokBuf, h, if_true, Option.map_none']

/-- The end of the stream in the line buffer: nothing changes, and the cursor is left on a
NUL. -/
theorem strtok_r_line_none (st : State) (o : Nat) (sv : Ptr) (st1 : State)
    (h : strtok_r st .null DELIM (.line o) = (none, sv, st1)) :
    ∃ o1, sv = .line o1 ∧ o ≤ o1 ∧ st1 = st ∧ peek st.line o1 = 0 := by
  rw [strtok_r_line] at h
  generalize hx : strtokBuf st.line o DELIM = x at h
  obtain ⟨t, o1, buf1⟩ := x
  cases t with
  | some t => simp at h
  | none =>
    simp only [Option.map_none', Prod.mk.injEq, true_and] at h
    obtain ⟨rfl, rfl⟩ := h
    obtain ⟨rfl, hle, hpk⟩ := strtokBuf_none _ _ _ _ _ hx
    exact ⟨o1, rfl, hle, rfl, hpk⟩

/-- On a cursor in the line buffer `skip_comment` returns: the cursor moves forward, within
the line, and only the line buffer changes, keeping its length; the bytes left after the new
cursor are bytes that were after the old cursor. -/
theorem skipLoop_line : ∀ (n : Nat) (st : State) (o : Nat), st.line.length - o < n →
    ∃ st1 o1, skipLoop n st (.line o) = .ok (st1, .line o1) ∧ o ≤ o1
      ∧ st1.line.length = st.line.length ∧ st1 = { st with line := st1.line }
      ∧ (∀ x ∈ st1.line.drop o1, x ∈ st.line.drop o)
  | 0, _, _, h => absurd h (Nat.not_lt_zero _)
  | n + 1, st, o, h => by
    unfold skipLoop
    generalize hx : strtok_r st .null DELIM (.line o) = x
    obtain ⟨tok, sv, st1⟩ := x
    cases tok with
    | none =>
      obtain ⟨o1, rfl, hle, rfl, -⟩ := strtok_r_line_none st o sv st1 hx
      exact ⟨_, o1, rfl, hle, rfl, rfl, fun x hx => mem_drop_of_le _ _ _ hle x hx⟩
    | some t =>
      obtain ⟨o1, rfl, h1, h2, h3, h4, h5, -, h7⟩ := strtok_r_line_some st o t sv st1 hx
      simp only
      split
      · exact ⟨st1, o1, rfl, by omega, h4, h5, h7⟩
      · obtain ⟨st2, o2, e1, e2, e3, e4, e5⟩ := skipLoop_line n st1 o1 (by omega)
        refine ⟨st2, o2, e1, by omega, by omega, ?_, fun x hx => h7 x (e5 x hx)⟩
        rw [e4, h5]

theorem skip_comment_line (st : State) (o : Nat) :
    ∃ st1 o1, skip_comment st (.line o) = .ok (st1, .line o1) ∧ o ≤ o1
      ∧ st1.line.length = st.line.length ∧ st1 = { st with line := st1.line }
      ∧ (∀ x ∈ st1.line.drop o1, x ∈ st.line.drop o) :=
  skipLoop_line _ st o (by unfold loopFuel; omega)

/-- On a cursor in the line buffer, with room in the arena for twice the bytes left on the
line, the token loop of `compile_word` returns: it ends at `;` or at the end of the line, and
when no `;` is left on the line it ends with the stream exhausted. -/
theorem compileLoop_line : ∀ (n : Nat) (st : State) (o : Nat), st.line.length - o < n →
    st.nextb + 2 * (st.line.length - o) + 2 < BUFSZ →
    ∃ st1 o1, compileLoop n st (.line o) = .ok (st1, .line o1) ∧ o ≤ o1
      ∧ st1.line.length = st.line.length
      ∧ (59 ∉ st.line.drop o → peek st1.line o1 = 0)
  | 0, _, _, h, _ => absurd h (Nat.not_lt_zero _)
  | n + 1, st, o, h, hroom => by
    unfold compileLoop
    generalize hx : strtok_r st .null DELIM (.line o) = x
    obtain ⟨tok, sv, st1⟩ := x
    cases tok with
    | none =>
      obtain ⟨o1, rfl, hle, rfl, hex⟩ := strtok_r_line_none st o sv st1 hx
      exact ⟨_, o1, rfl, hle, rfl, fun _ => hex⟩
    | some t =>
      obtain ⟨o1, rfl, h1, h2, h3, h4, h5, h6, h7⟩ := strtok_r_line_some st o t sv st1 hx
      have hn1 : st1.nextb = st.nextb := by rw [h5]
      simp only
      split
      · rename_i hsemi
        refine ⟨st1, o1, rfl, by omega, h4, ?_⟩
        intro hno
        exact absurd (h6 59 (by rw [hsemi]; decide)) hno
      · split
        · obtain ⟨st2, o2, e1, e2, e3, e4, e5⟩ := skip_comment_line st1 o1
          have hn2 : st2.nextb = st1.nextb := by rw [e4]
          obtain ⟨st3, o3, f1, f2, f3, f4⟩ := compileLoop_line n st2 o2 (by omega) (by omega)
          rw [e1]
          exact ⟨st3, o3, f1, by omega, by omega,
            fun hno => f4 (fun hmem => hno (h7 59 (e5 59 hmem)))⟩
        · rw [if_neg (by omega)]
          obtain ⟨st3, o3, f1, f2, f3, f4⟩ := compileLoop_line n
            { st1 with arena := blit st1.arena st1.nextb (cstr st1 t ++ [32]),
                       nextb := st1.nextb + (cstr st1 t).length + 1 } o1
            (by simp only; omega) (by simp only; omega)
          exact ⟨st3, o3, f1, by omega, by rw [f3]; exact h4,
            fun hno => f4 (fun hmem => hno (h7 59 hmem))⟩

/-- C7 as stated fails: on the line `: foo 1 2`, which ends before any `;`, `compile_word`
does not die.  The definition is taken as closed by the end of the line: the word `foo` is
appended to the dictionary with the body `1 2`. -/
theorem unterminated_definition_counterexample :
    compileDefine (initial (bytes ": foo 1 2\n") []) (.line 1)
      = .ok ({ initial (bytes ": foo\x001\x002\x00") [] with
                dict := [⟨0, 4⟩], dictlen := 1, arena := bytes "foo\x001 2 \x00", nextb := 9 },
             .line 10)
    ∧ compile_word 0 (initial (bytes ": foo 1 2\n") []) (.line 1)
      = .ok (vanish 0 { initial (bytes ": foo\x001\x002\x00") [] with
                dict := [⟨0, 4⟩], dictlen := 1, arena := bytes "foo\x001 2 \x00", nextb := 9 },
             .line 10)
    ∧ ¬ ∃ d, compile_word 0 (initial (bytes ": foo 1 2\n") []) (.line 1) = .dead d := by
  refine ⟨by decide, by decide, ?_⟩
  rintro ⟨d, h⟩
  have : compile_word 0 (initial (bytes ": foo 1 2\n") []) (.line 1)
      = .ok (vanish 0 { initial (bytes ": foo\x001\x002\x00") [] with
                dict := [⟨0, 4⟩], dictlen := 1, arena := bytes "foo\x001 2 \x00", nextb := 9 },
             .line 10) := by decide
  rw [this] at h
  cases h

/-- C10, at a concrete input: with one word in the dictionary, `: sq dup * ;` makes the size 2,
and `vanish` with `rand() = 2` erases slot 0 (the last word is moved there): the size is 1. -/
theorem dict_size_recurrence_witness :
    ∃ st1, compileDefine
        { initial (bytes ": sq dup * ;\n") [] with
            dict := [⟨0, 2⟩], dictlen := 1, arena := bytes "a\x001 \x00", nextb := 5 } (.line 1)
          = .ok (st1, .line 13)
      ∧ st1.dictlen = 2 ∧ st1.dictlen ≤ DICTSZ
      ∧ { initial (bytes ": sq\x00dup\x00*\x00;\x00") [] with
            dict := [⟨5, 8⟩, ⟨5, 8⟩], dictlen := 1, arena := bytes "a\x001 \x00sq\x00dup * \x00",
            nextb := 15, nrand := 1 } = vanish 2 st1
      ∧ (1 : Nat) = 1 :=
  (dict_size_recurrence 2
    { initial (bytes ": sq dup * ;\n") [] with
        dict := [⟨0, 2⟩], dictlen := 1, arena := bytes "a\x001 \x00", nextb := 5 } (.line 1)).1
    (by decide)
    ({ initial (bytes ": sq\x00dup\x00*\x00;\x00") [] with
        dict := [⟨5, 8⟩, ⟨5, 8⟩], dictlen := 1, arena := bytes "a\x001 \x00sq\x00dup * \x00",
        nextb := 15, nrand := 1 }, .line 13)
    (by decide)

/-! ## C9: unknown words -/

theorem findLoop_none (st : State) (s : List Nat) : ∀ (n i : Nat),
    (∀ j, i ≤ j → j < i + n → cstrBuf st.arena (aget st.dict j).name ≠ s) →
    findLoop st s n i = -1
  | 0, _, _ => rfl
  | n + 1, i, h => by
    unfold findLoop
    rw [if_neg (h i (Nat.le_refl _) (by omega))]
    exact findLoop_none st s n (i + 1) (fun j h1 h2 => h j (by omega) (by omega))

/-- C9: unknown words are fatal and lose no output.  In every state, a token that is not one of
the tokens the loop recognises (`/*`, the built-in words, `:` and `;`), not a numeral and not
the name of any of the `dictlen` dictionary entries ends the process with the diagnostic
`unknown word: ` followed by the token, and stdout holds exactly what it held before the token:
this holds for the token as such and for the iteration of `run` that reads it from the stream.
Moreover, whenever a run dies, stdout at death extends stdout at any earlier point of the run:
nothing printed by the tokens executed before is lost. -/
theorem unknown_word_fatal (rnd : Nat) (t : List Nat) (save : Ptr) (st : State)
    (hb : t ∉ builtins) (hn : isnum t = none)
    (hd : ∀ i, i < st.dictlen → cstrBuf st.arena (aget st.dict i).name ≠ t) :
    exec rnd t save st = .dead ⟨bytes "unknown word: " ++ t ++ [10], st.out⟩
    ∧ (∀ ip sv st0 tok, strtok_r st0 ip DELIM sv = (some tok, save, st) → cstr st tok = t →
        step rnd ip sv st0 = .dead ⟨bytes "unknown word: " ++ t ++ [10], st0.out⟩)
    ∧ (∀ rand fuel ip sv s0 d, runLoop rand fuel ip sv s0 = .dead d → s0.out <+: d.out) := by
  have hf : find st t = -1 := findLoop_none st t st.dictlen 0 (fun j _ h => hd j (by omega))
  have he : exec rnd t save st = .dead ⟨bytes "unknown word: " ++ t ++ [10], st.out⟩ := by
    simp only [builtins, List.mem_cons, List.mem_singleton, not_or, List.not_mem_nil,
      or_false] at hb
    obtain ⟨b1, b2, b3, b4, b5, b6, b7, b8, b9, b10, b11, b12, b13, b14, b15, b16, b17, b18,
      b19, b20, b21, b22, b23⟩ := hb
    unfold exec
    rw [if_neg b1, if_neg b2, if_neg b3, if_neg b4, if_neg b5, if_neg b6, if_neg b7, if_neg b8,
      if_neg b9, if_neg b10, if_neg b11, if_neg b12, if_neg b13, if_neg b14, if_neg b15,
      if_neg b16, if_neg b17, if_neg b18, if_neg b19, if_neg b20, if_neg b21, if_neg b22,
      if_neg b23, hn]
    simp only [hf]
    rfl
  refine ⟨he, ?_, ?_⟩
  · intro ip sv st0 tok hx ht
    have hs := strtok_r_sameRegs st0 ip DELIM sv
    unfold step
    rw [hx] at hs ⊢
    simp only [ht, he]
    have ho : st.out = st0.out := hs.2.2.2.2.2.2.1
    rw [ho]
  · intro rand fuel ip sv s0 d h
    exact Res.sat_dead (runLoop_sat rand fuel ip sv s0) h

/-- C9, at a concrete input: after `1 .` has printed a line, the token `foo` dies with
`unknown word: foo` and stdout still holds that line. -/
theorem unknown_word_fatal_witness :
    exec 0 (bytes "foo") .null { initial [] [] with out := bytes "1\n" }
      = .dead ⟨bytes "unknown word: foo\n", bytes "1\n"⟩ :=
  (unknown_word_fatal 0 (bytes "foo") .null { initial [] [] with out := bytes "1\n" }
    (by decide) (by decide) (fun i h => absurd h (Nat.not_lt_zero i))).1

/-! ## C8: numerals -/

theorem digitVal_digitChar (up : Bool) (d : Nat) (h : d < 36) :
    digitVal (digitChar up d) = some d := by
  unfold digitVal digitChar
  by_cases h10 : d < 10
  · rw [if_pos h10, if_pos (by omega)]
    congr 1
    omega
  · rw [if_neg h10]
    cases up with
    | true =>
      simp only [if_true]
      rw [if_neg (by omega), if_neg (by omega), if_pos (by omega)]
      congr 1
      omega
    | false =>
      simp only [Bool.false_eq_true, if_false]
      rw [if_neg (by omega), if_pos (by omega)]
      congr 1
      omega

/-- The function `strtol` consumes a run of digits of the base and accumulates their value. -/
theorem scanDigits_digits (up : Bool) (b : Nat) (hb : b ≤ 36) :
    ∀ (ds : List Nat) (rest : List Nat) (acc : Nat), (∀ d ∈ ds, d < b) →
      scanDigits b (ds.map (digitChar up) ++ rest) acc
        = scanDigits b rest (ds.foldl (fun a d => a * b + d) acc)
  | [], _, _, _ => rfl
  | d :: ds, rest, acc, h => by
    have hd : d < b := h d (List.mem_cons_self _ _)
    simp only [List.map_cons, List.cons_append, List.foldl_cons]
    rw [scanDigits, digitVal_digitChar up d (by omega)]
    simp only [if_pos hd]
    exact scanDigits_digits up b hb ds rest _ (fun x hx => h x (List.mem_cons_of_mem _ hx))

/-- The digits of `n`: each is below the base and their value is `n`. -/
theorem natDigits_spec (b : Nat) (hb : 2 ≤ b) : ∀ (fuel n : Nat), n < fuel →
    (∀ d ∈ natDigits b fuel n, d < b)
    ∧ (natDigits b fuel n).foldl (fun a d => a * b + d) 0 = n
    ∧ natDigits b fuel n ≠ []
    ∧ (0 < n → (natDigits b fuel n).head? ≠ some 0)
  | 0, _, h => absurd h (Nat.not_lt_zero _)
  | fuel + 1, n, h => by
    unfold natDigits
    by_cases hn : n < b
    · rw [if_pos hn]
      refine ⟨?_, by simp, by simp, ?_⟩
      · intro d hd
        rw [List.mem_singleton] at hd
        omega
      · intro h0
        simp only [List.head?_cons, ne_eq, Option.some.injEq]
        omega
    · rw [if_neg hn]
      have hdiv : n / b < n := Nat.div_lt_self (by omega) (by omega)
      have hpos : 0 < n / b := Nat.div_pos (by omega) (by omega)
      obtain ⟨h1, h2, h3, h4⟩ := natDigits_spec b hb fuel (n / b) (by omega)
      refine ⟨?_, ?_, by simp, ?_⟩
      · intro d hd
        rcases List.mem_append.mp hd with hd | hd
        · exact h1 d hd
        · rw [List.mem_singleton] at hd
          rw [hd]
          exact Nat.mod_lt _ (by omega)
      · rw [List.foldl_append, h2]
        simp only [List.foldl_cons, List.foldl_nil]
        rw [Nat.mul_comm]
        exact Nat.div_add_mod n b
      · intro _
        cases hl : natDigits b fuel (n / b) with
        | nil => exact absurd hl h3
        | cons a l =>
          have := h4 hpos
          rw [hl] at this
          simpa using this

/-- The function `strtol` reads back the digits of `n`. -/
theorem scanDigits_showNat (up : Bool) (b n : Nat) (hb : 2 ≤ b) (hb2 : b ≤ 36) :
    scanDigits b (showNat up b n) 0 = (n, []) := by
  obtain ⟨h1, h2, -, -⟩ := natDigits_spec b hb (n + 1) n (by omega)
  have := scanDigits_digits up b hb2 (natDigits b (n + 1) n) [] 0 h1
  rw [List.append_nil, h2] at this
  exact this

theorem showNat_cons (up : Bool) (b n : Nat) (hb : 2 ≤ b) :
    ∃ d r, showNat up b n = digitChar up d :: r ∧ d < b ∧ (0 < n → d ≠ 0) := by
  obtain ⟨h1, -, h3, h4⟩ := natDigits_spec b hb (n + 1) n (by omega)
  unfold showNat
  cases hl : natDigits b (n + 1) n with
  | nil => exact absurd hl h3
  | cons d r =>
    rw [hl] at h1 h4
    refine ⟨d, r.map (digitChar up), rfl, h1 d (List.mem_cons_self _ _), ?_⟩
    intro hn hd
    exact h4 hn (by rw [hd]; rfl)

theorem digitChar_ge (up : Bool) (d : Nat) : 48 ≤ digitChar up d := by
  unfold digitChar
  split
  · omega
  · split <;> omega

theorem isxdigitC_digitChar (up : Bool) (d : Nat) (h : d < 16) :
    isxdigitC (digitChar up d) = true := by
  unfold isxdigitC
  rw [digitVal_digitChar up d (by omega)]
  simpa using h

theorem scanSign_plain (c : Nat) (l : List Nat) (h : 48 ≤ c) :
    scanSign (c :: l) = (false, c :: l) := by
  unfold scanSign
  split
  · rename_i heq; cases heq; omega
  · rename_i heq; cases heq; omega
  · rfl

theorem scanBase_hex (x d : Nat) (r : List Nat) (hx : x = 120 ∨ x = 88)
    (hd : isxdigitC d = true) : scanBase (48 :: x :: d :: r) = (16, d :: r) := by
  simp [scanBase, hx, hd]

theorem scanBase_oct (l : List Nat) (h : ∀ x d r, l = x :: d :: r → x ≠ 120 ∧ x ≠ 88) :
    scanBase (48 :: l) = (8, 48 :: l) := by
  rcases l with _ | ⟨x, _ | ⟨d, r⟩⟩
  · rfl
  · rfl
  · have := h x d r rfl
    simp [scanBase, this.1, this.2]

theorem scanBase_dec (c : Nat) (l : List Nat) (hc : c ≠ 48) :
    scanBase (c :: l) = (10, c :: l) := by
  unfold scanBase
  split
  · rename_i heq; cases heq; exact absurd rfl hc
  · rename_i heq; cases heq; exact absurd rfl hc
  · rfl

theorem clamp_natAbs (n : Int) (hn : isCell n) : clamp (decide (n < 0)) n.natAbs = n := by
  unfold isCell LONG_MIN LONG_MAX at hn
  unfold clamp LONG_MIN LONG_MAX
  by_cases h : n < 0
  · simp only [h, decide_True, if_true]
    rw [if_neg (by omega)]
    omega
  · simp only [h, decide_False, Bool.false_eq_true, if_false]
    rw [if_neg (by omega)]
    omega

/-- The function `strtol` on a signed numeral: the sign, the base read off the body, the digits. -/
theorem strtol_signed (plus : Bool) (n : Int) (c : Nat) (l : List Nat) (base : Nat)
    (s3 : List Nat) (m : Nat) (hc : 48 ≤ c) (h2 : scanBase (c :: l) = (base, s3))
    (h3 : scanDigits base s3 0 = (m, [])) (h4 : s3 ≠ []) :
    strtol ((if n < 0 then [45] else if plus then [43] else []) ++ c :: l)
      = (clamp (decide (n < 0)) m, []) := by
  have hlen : ¬ ([] : List Nat).length = s3.length := by
    cases s3 with
    | nil => exact absurd rfl h4
    | cons a r => simp
  unfold strtol
  by_cases hn : n < 0
  · simp only [hn, if_true, List.singleton_append, decide_True]
    rw [List.dropWhile_cons_of_neg (by decide)]
    simp only [scanSign, h2, h3, if_neg hlen]
  · simp only [hn, if_false, decide_False]
    cases plus with
    | true =>
      simp only [if_true, List.singleton_append]
      rw [List.dropWhile_cons_of_neg (by decide)]
      simp only [scanSign, h2, h3, if_neg hlen]
    | false =>
      simp only [Bool.false_eq_true, if_false, List.nil_append]
      rw [List.dropWhile_cons_of_neg (by simp [isspaceC]; omega)]
      simp only [scanSign_plain c l hc, h2, h3, if_neg hlen]

theorem isnum_of_strtol (s : List Nat) (v : Int) (hs : s ≠ []) (h : strtol s = (v, [])) :
    isnum s = some v := by
  unfold isnum
  rw [h]
  simp [hs]

/-- A cell written in decimal is read back by `isnum`. -/
theorem isnum_decimal (plus up : Bool) (n : Int) (hn : isCell n) :
    isnum (numeral plus [] up 10 n) = some n := by
  unfold numeral
  rw [List.append_nil]
  by_cases h0 : n.natAbs = 0
  · have hs0 : showNat up 10 n.natAbs = [48] := by rw [h0]; rfl
    rw [hs0]
    refine isnum_of_strtol _ _ (by simp) ?_
    have key := strtol_signed plus n 48 [] 8 [48] 0 (by decide) rfl rfl (by simp)
    rw [← h0, clamp_natAbs n hn] at key
    exact key
  · obtain ⟨d, r, hs, hd, hnz⟩ := showNat_cons up 10 n.natAbs (by decide)
    have hscan := scanDigits_showNat up 10 n.natAbs (by decide) (by decide)
    rw [hs] at hscan ⊢
    refine isnum_of_strtol _ _ (by simp) ?_
    have hd0 : d ≠ 0 := hnz (by omega)
    have hc : digitChar up d ≠ 48 := by
      unfold digitChar
      rw [if_pos hd]
      omega
    have key := strtol_signed plus n _ r 10 _ _ (digitChar_ge up d) (scanBase_dec _ r hc) hscan
      (by simp)
    rw [clamp_natAbs n hn] at key
    exact key

/-- A cell written in hexadecimal, after `0x` or `0X`, is read back by `isnum`. -/
theorem isnum_hex (plus up : Bool) (x : Nat) (hx : x = 120 ∨ x = 88) (n : Int) (hn : isCell n) :
    isnum (numeral plus [48, x] up 16 n) = some n := by
  unfold numeral
  obtain ⟨d, r, hs, hd, -⟩ := showNat_cons up 16 n.natAbs (by decide)
  have hscan := scanDigits_showNat up 16 n.natAbs (by decide) (by decide)
  rw [hs] at hscan ⊢
  refine isnum_of_strtol _ _ (by simp) ?_
  have key := strtol_signed plus n 48 (x :: digitChar up d :: r) 16 _ _ (by decide)
    (scanBase_hex x _ r hx (isxdigitC_digitChar up d hd)) hscan (by simp)
  rw [clamp_natAbs n hn] at key
  rw [List.append_assoc]
  exact key

/-- A cell written in octal, after `0`, is read back by `isnum`. -/
theorem isnum_octal (plus up : Bool) (n : Int) (hn : isCell n) :
    isnum (numeral plus [48] up 8 n) = some n := by
  unfold numeral
  obtain ⟨d, r, hs, hd, -⟩ := showNat_cons up 8 n.natAbs (by decide)
  have hscan := scanDigits_showNat up 8 n.natAbs (by decide) (by decide)
  rw [hs] at hscan ⊢
  refine isnum_of_strtol _ _ (by simp) ?_
  have hb : scanBase (48 :: digitChar up d :: r) = (8, 48 :: digitChar up d :: r) := by
    refine scanBase_oct _ ?_
    intro x d1 r1 h
    cases h
    unfold digitChar
    rw [if_pos (by omega)]
    omega
  have hsc : scanDigits 8 (48 :: digitChar up d :: r) 0 = (n.natAbs, []) := by
    rw [scanDigits]
    exact hscan
  have key := strtol_signed plus n 48 (digitChar up d :: r) 8 _ _ (by decide) hb hsc (by simp)
  rw [clamp_natAbs n hn] at key
  rw [List.append_assoc]
  exact key

/-- A token that `isnum` accepts is none of the tokens the loop of `run` handles first. -/
theorem isnum_builtins : ∀ b ∈ builtins, isnum b = none := by decide

/-- A token that is none of the recognised tokens is a numeral or the name of a word. -/
theorem exec_other (rnd : Nat) (t : List Nat) (save : Ptr) (st : State) (hb : t ∉ builtins) :
    exec rnd t save st =
      match isnum t with
      | some v => (push v st).bind fun st => .ok (.cont .null save st)
      | none =>
        if find st t < 0 then .dead ⟨bytes "unknown word: " ++ t ++ [10], st.out⟩
        else if st.cstack.length = CALLSZ then die "call stack overflow" st
        else
          .ok (.cont (.arena (aget st.dict (find st t).toNat).body) .null
            { st with cstack := ⟨save, st.ltop⟩ :: st.cstack }) := by
  simp only [builtins, List.mem_cons, List.mem_singleton, not_or, List.not_mem_nil,
    or_false] at hb
  obtain ⟨b1, b2, b3, b4, b5, b6, b7, b8, b9, b10, b11, b12, b13, b14, b15, b16, b17, b18,
    b19, b20, b21, b22, b23⟩ := hb
  unfold exec
  rw [if_neg b1, if_neg b2, if_neg b3, if_neg b4, if_neg b5, if_neg b6, if_neg b7, if_neg b8,
    if_neg b9, if_neg b10, if_neg b11, if_neg b12, if_neg b13, if_neg b14, if_neg b15,
    if_neg b16, if_neg b17, if_neg b18, if_neg b19, if_neg b20, if_neg b21, if_neg b22,
    if_neg b23]

/-- A numeral token pushes its value. -/
theorem exec_numeral (rnd : Nat) (t : List Nat) (save : Ptr) (st : State) (v : Int)
    (h : isnum t = some v) (hcap : st.dstack.length < STACKSZ) :
    exec rnd t save st = .ok (.cont .null save { st with dstack := v :: st.dstack }) := by
  have hb : t ∉ builtins := by
    intro hmem
    have := isnum_builtins t hmem
    rw [h] at this
    cases this
  rw [exec_other rnd t save st hb, h]
  simp only [push, ge_iff_le, if_neg (Nat.not_le.mpr hcap), Res.ok_bind]

theorem scanDigits_nil (b : Nat) : ∀ (l : List Nat) (acc a : Nat),
    scanDigits b l acc = (a, []) → ∀ x ∈ l, ∃ d, digitVal x = some d ∧ d < b
  | [], _, _, _ => by simp
  | c :: cs, acc, a, h => by
    unfold scanDigits at h
    cases hd : digitVal c with
    | none => rw [hd] at h; simp at h
    | some d =>
      rw [hd] at h
      simp only at h
      split at h
      · intro x hx
        rcases List.mem_cons.mp hx with rfl | hx
        · exact ⟨d, hd, ‹d < b›⟩
        · exact scanDigits_nil b cs _ a h x hx
      · simp at h

theorem scanSign_suffix (s : List Nat) : (scanSign s).2 <:+ s := by
  unfold scanSign
  split
  · exact List.suffix_cons _ _
  · exact List.suffix_cons _ _
  · exact List.suffix_refl _

theorem scanBase_suffix (s : List Nat) :
    (scanBase s).2 <:+ s ∧ ((scanBase s).1 = 8 ∨ (scanBase s).1 = 10 ∨ (scanBase s).1 = 16) := by
  unfold scanBase
  split
  · split
    · exact ⟨⟨[48, _], rfl⟩, Or.inr (Or.inr rfl)⟩
    · exact ⟨List.suffix_refl _, Or.inl rfl⟩
  · exact ⟨List.suffix_refl _, Or.inl rfl⟩
  · exact ⟨List.suffix_refl _, Or.inr (Or.inl rfl)⟩

/-- The last byte of a numeral is a digit: a token that ends in another byte is not a
numeral. -/
theorem isnum_last (t : List Nat) (c : Nat) (v : Int) (h : isnum (t ++ [c]) = some v) :
    ∃ d, digitVal c = some d ∧ d < 16 := by
  unfold isnum strtol at h
  have h1 := scanSign_suffix ((t ++ [c]).dropWhile isspaceC)
  generalize scanSign ((t ++ [c]).dropWhile isspaceC) = x at h h1
  obtain ⟨neg, s2⟩ := x
  simp only at h h1
  have h2 := scanBase_suffix s2
  generalize scanBase s2 = y at h h2
  obtain ⟨base, s3⟩ := y
  simp only at h h2
  have h3 := scanDigits_nil base s3 0
  generalize scanDigits base s3 0 = z at h h3
  obtain ⟨acc, e⟩ := z
  simp only at h h3
  split at h
  · simp at h
  · rename_i hlen
    split at h
    · rename_i he
      obtain ⟨-, rfl⟩ := he
      have hsuf : s3 <:+ t ++ [c] := h2.1.trans (h1.trans (List.dropWhile_suffix _))
      have hne : s3 ≠ [] := by
        intro h0
        apply hlen
        rw [h0]
      obtain ⟨u, hu⟩ := hsuf
      have hmem : c ∈ s3 := by
        rcases List.eq_nil_or_concat s3 with h0 | ⟨s4, x, hx⟩
        · exact absurd h0 hne
        · rw [hx, List.concat_eq_append, ← List.append_assoc] at hu
          have := List.append_inj_right' hu rfl
          rw [hx, List.concat_eq_append]
          simp only [List.cons.injEq, and_true] at this
          rw [this]
          simp
      obtain ⟨d, hd, hlt⟩ := h3 acc rfl c hmem
      refine ⟨d, hd, ?_⟩
      rcases h2.2 with hb | hb | hb <;> omega
    · cases h

theorem scanDigits_stop (b : Nat) (c : Nat) (tail : List Nat) (acc : Nat)
    (hc : ∀ d, digitVal c = some d → b ≤ d) :
    scanDigits b (c :: tail) acc = (acc, c :: tail) := by
  unfold scanDigits
  cases hd : digitVal c with
  | none => rfl
  | some d =>
    simp only
    rw [if_neg (Nat.not_lt.mpr (hc d hd))]

/-- The digits of `n` followed by a byte that is not a digit of the base: `strtol` stops at that
byte. -/
theorem scanDigits_showNat_stop (up : Bool) (b n : Nat) (hb : 2 ≤ b) (hb2 : b ≤ 36) (c : Nat)
    (tail : List Nat) (hc : ∀ d, digitVal c = some d → b ≤ d) :
    scanDigits b (showNat up b n ++ c :: tail) 0 = (n, c :: tail) := by
  obtain ⟨h1, h2, -, -⟩ := natDigits_spec b hb (n + 1) n (by omega)
  have := scanDigits_digits up b hb2 (natDigits b (n + 1) n) (c :: tail) 0 h1
  rw [h2, scanDigits_stop b c tail n hc] at this
  exact this

/-- When `strtol` stops before the end of a signed token, the token is not a numeral. -/
theorem isnum_signed_stop (plus : Bool) (n : Int) (c : Nat) (l : List Nat) (base : Nat)
    (s3 : List Nat) (m : Nat) (e : List Nat) (hc : 48 ≤ c)
    (h2 : scanBase (c :: l) = (base, s3)) (h3 : scanDigits base s3 0 = (m, e)) (he : e ≠ []) :
    isnum ((if n < 0 then [45] else if plus then [43] else []) ++ c :: l) = none := by
  have key : ∀ s : List Nat, s ≠ [] → scanSign (s.dropWhile isspaceC) = (decide (n < 0), c :: l) →
      isnum s = none := by
    intro s hs h1
    unfold isnum strtol
    rw [h1]
    simp only [h2, h3]
    split
    · simp [hs]
    · simp [he]
  by_cases hn : n < 0
  · simp only [hn, if_true, List.singleton_append]
    apply key _ (by simp)
    rw [List.dropWhile_cons_of_neg (by decide)]
    simp [scanSign, hn]
  · simp only [hn, if_false]
    cases plus with
    | true =>
      simp only [if_true, List.singleton_append]
      apply key _ (by simp)
      rw [List.dropWhile_cons_of_neg (by decide)]
      simp [scanSign, hn]
    | false =>
      simp only [Bool.false_eq_true, if_false, List.nil_append]
      apply key _ (by simp)
      rw [List.dropWhile_cons_of_neg (by simp [isspaceC]; omega), scanSign_plain c l hc]
      simp [hn]

/-- A numeral followed by a byte that is not a digit of its base, and by anything, is not a
numeral.  (A decimal 0 followed by `x` or `X` is set apart: it may start a hexadecimal
numeral.) -/
theorem numeral_trailing (plus up : Bool) (n : Int) (c : Nat) (tail : List Nat) :
    ((∀ d, digitVal c = some d → 10 ≤ d) → (n ≠ 0 ∨ (c ≠ 120 ∧ c ≠ 88)) →
        isnum (numeral plus [] up 10 n ++ c :: tail) = none)
    ∧ ((∀ d, digitVal c = some d → 16 ≤ d) →
        isnum (numeral plus (bytes "0x") up 16 n ++ c :: tail) = none
        ∧ isnum (numeral plus (bytes "0X") up 16 n ++ c :: tail) = none)
    ∧ ((∀ d, digitVal c = some d → 8 ≤ d) →
        isnum (numeral plus (bytes "0") up 8 n ++ c :: tail) = none) := by
  refine ⟨?_, ?_, ?_⟩
  · intro hc hex
    unfold numeral
    rw [List.append_nil, List.append_assoc]
    by_cases h0 : n.natAbs = 0
    · have hs0 : showNat up 10 n.natAbs = [48] := by rw [h0]; rfl
      have hcx : c ≠ 120 ∧ c ≠ 88 := by
        rcases hex with h | h
        · exact absurd (Int.natAbs_eq_zero.mp h0) h
        · exact h
      rw [hs0]
      have hb : scanBase (48 :: c :: tail) = (8, 48 :: c :: tail) :=
        scanBase_oct _ (fun x d r h => by cases h; exact hcx)
      have hsc : scanDigits 8 (48 :: c :: tail) 0 = (0, c :: tail) := by
        rw [scanDigits]
        exact scanDigits_stop 8 c tail 0 (fun d hd => by have := hc d hd; omega)
      exact isnum_signed_stop plus n 48 (c :: tail) 8 _ 0 _ (by decide) hb hsc (by simp)
    · obtain ⟨d, r, hs, hd, hnz⟩ := showNat_cons up 10 n.natAbs (by decide)
      have hscan := scanDigits_showNat_stop up 10 n.natAbs (by decide) (by decide) c tail hc
      rw [hs] at hscan ⊢
      have hd0 : d ≠ 0 := hnz (by omega)
      have hch : digitChar up d ≠ 48 := by
        unfold digitChar
        rw [if_pos hd]
        omega
      exact isnum_signed_stop plus n _ (r ++ c :: tail) 10 _ _ _ (digitChar_ge up d)
        (scanBase_dec _ _ hch) hscan (by simp)
  · intro hc
    have hx : ∀ x, x = 120 ∨ x = 88 →
        isnum (numeral plus [48, x] up 16 n ++ c :: tail) = none := by
      intro x hx
      unfold numeral
      obtain ⟨d, r, hs, hd, -⟩ := showNat_cons up 16 n.natAbs (by decide)
      have hscan := scanDigits_showNat_stop up 16 n.natAbs (by decide) (by decide) c tail hc
      rw [hs] at hscan ⊢
      have := isnum_signed_stop plus n 48 (x :: digitChar up d :: (r ++ c :: tail)) 16 _ _ _
        (by decide) (scanBase_hex x _ _ hx (isxdigitC_digitChar up d hd)) hscan (by simp)
      simpa using this
    exact ⟨hx 120 (Or.inl rfl), hx 88 (Or.inr rfl)⟩
  · intro hc
    unfold numeral
    obtain ⟨d, r, hs, hd, -⟩ := showNat_cons up 8 n.natAbs (by decide)
    have hscan := scanDigits_showNat_stop up 8 n.natAbs (by decide) (by decide) c tail hc
    rw [hs] at hscan ⊢
    have hb : scanBase (48 :: digitChar up d :: (r ++ c :: tail))
        = (8, 48 :: digitChar up d :: (r ++ c :: tail)) := by
      refine scanBase_oct _ ?_
      intro x d1 r1 h
      have hx : digitChar up d = x := (List.cons.inj h).1
      rw [← hx]
      unfold digitChar
      rw [if_pos (by omega)]
      omega
    have hsc : scanDigits 8 (48 :: digitChar up d :: (r ++ c :: tail)) 0
        = (n.natAbs, c :: tail) := by
      rw [scanDigits]
      exact hscan
    have := isnum_signed_stop plus n 48 (digitChar up d :: (r ++ c :: tail)) 8 _ _ _
      (by decide) hb hsc (by simp)
    simpa using this

theorem fmt_ld_eq_numeral (v : Int) : fmt_ld v = numeral false [] false 10 v := by
  unfold fmt_ld numeral
  by_cases h : v < 0
  · simp [h]
  · simp [h]

/-- The line `42 . 0x2A . 052 .`, run with the random source that always returns 0. -/
theorem numeral_line_eval :
    run (fun _ => 0) 7 (initial (bytes "42 . 0x2A . 052 .\n") [])
      = .ok { initial (bytes "42\x00.\x000x2A\x00.\x00052\x00.\x00") [] with
                out := bytes "42\n42\n42\n" } := by
  decide

/-- C8: the numeral round trip.  For every cell `n`: the token that is `n` written in decimal,
in hexadecimal after `0x` or `0X` (digits in either case) or in octal after `0`, with `-` for a
negative number and an optional `+` for another, is accepted by `isnum` with the value `n`.  A
token that `isnum` accepts with value `n` pushes `n` when the stack has room, and `.` after it
prints `n` in decimal and a newline and leaves the stack as it was before the token.  The line
`42 . 0x2A . 052 .` prints `42` three times.  Finally a trailing byte that cannot continue the
numeral makes the token no numeral: such a written numeral followed by a byte that is not a
digit of its base, and by anything, is rejected (a decimal 0 before `x` or `X` apart, which may
start a hexadecimal numeral); the last byte of every numeral is a digit (of value below 16);
`0x` and `12a` are not numerals. -/
theorem numeral_round_trip (n : Int) (hn : isCell n) (plus up : Bool) :
    (isnum (numeral plus [] up 10 n) = some n
      ∧ isnum (numeral plus (bytes "0x") up 16 n) = some n
      ∧ isnum (numeral plus (bytes "0X") up 16 n) = some n
      ∧ isnum (numeral plus (bytes "0") up 8 n) = some n)
    ∧ (∀ rnd t save st, isnum t = some n → st.dstack.length < STACKSZ →
        exec rnd t save st = .ok (.cont .null save { st with dstack := n :: st.dstack })
        ∧ exec rnd (bytes ".") save { st with dstack := n :: st.dstack }
            = .ok (.cont .null save
                { st with out := st.out ++ numeral false [] false 10 n ++ [10] }))
    ∧ (∀ rand fuel, run rand (fuel + 7) (initial (bytes "42 . 0x2A . 052 .\n") [])
        = .ok { initial (bytes "42\x00.\x000x2A\x00.\x00052\x00.\x00") [] with
                  out := bytes "42\n42\n42\n" })
    ∧ (∀ c tail,
        ((∀ d, digitVal c = some d → 10 ≤ d) → (n ≠ 0 ∨ (c ≠ 120 ∧ c ≠ 88)) →
          isnum (numeral plus [] up 10 n ++ c :: tail) = none)
        ∧ ((∀ d, digitVal c = some d → 16 ≤ d) →
          isnum (numeral plus (bytes "0x") up 16 n ++ c :: tail) = none
          ∧ isnum (numeral plus (bytes "0X") up 16 n ++ c :: tail) = none)
        ∧ ((∀ d, digitVal c = some d → 8 ≤ d) →
          isnum (numeral plus (bytes "0") up 8 n ++ c :: tail) = none))
    ∧ (∀ t c v, isnum (t ++ [c]) = some v → ∃ d, digitVal c = some d ∧ d < 16)
    ∧ isnum (bytes "0x") = none ∧ isnum (bytes "12a") = none := by
  refine ⟨⟨isnum_decimal plus up n hn, isnum_hex plus up 120 (Or.inl rfl) n hn,
    isnum_hex plus up 88 (Or.inr rfl) n hn, isnum_octal plus up n hn⟩, ?_, ?_,
    numeral_trailing plus up n, isnum_last, by decide, by decide⟩
  · intro rnd t save st ht hcap
    refine ⟨exec_numeral rnd t save st n ht hcap, ?_⟩
    rw [← fmt_ld_eq_numeral]
    simp [exec, bytes, pop]
  · intro rand fuel
    exact run_of_eval rand 7 fuel _ _ rfl numeral_line_eval (by simp)

/-- C8, at a concrete input: -42 in the four notations (`-42`, `-0x2A`, `-0X2A`, `-052`),
pushed and printed by `.`. -/
theorem numeral_round_trip_witness :
    (numeral false [] true 10 (-42) = bytes "-42"
      ∧ numeral false (bytes "0x") true 16 (-42) = bytes "-0x2A"
      ∧ numeral false (bytes "0X") true 16 (-42) = bytes "-0X2A"
      ∧ numeral false (bytes "0") true 8 (-42) = bytes "-052")
    ∧ (isnum (numeral false [] true 10 (-42)) = some (-42)
      ∧ isnum (numeral false (bytes "0x") true 16 (-42)) = some (-42)
      ∧ isnum (numeral false (bytes "0X") true 16 (-42)) = some (-42)
      ∧ isnum (numeral false (bytes "0") true 8 (-42)) = some (-42))
    ∧ exec 0 (bytes "-0x2A") .null (initial [] [])
        = .ok (.cont .null .null { initial [] [] with dstack := [-42] })
    ∧ exec 0 (bytes ".") .null { initial [] [] with dstack := [-42] }
        = .ok (.cont .null .null
            { initial [] [] with out := [] ++ numeral false [] false 10 (-42) ++ [10] }) :=
  have h := numeral_round_trip (-42) (by decide) false true
  ⟨by decide, h.1, h.2.1 0 (bytes "-0x2A") .null (initial [] []) (by decide) (by decide)⟩

/-! ## C12: the comparison words -/

/-- C12: the comparison words.  In every state whose data stack is within capacity and has `b`
on top of `a`, each of `=`, `<` and `>` replaces the two cells by one cell that is 1 or 0: `=`
leaves 1 exactly when `a = b`, `<` exactly when `a < b`, `>` exactly when `a > b`.  The cells
below and every other component of the state are unchanged, and the cursor is not moved. -/
theorem comparison_words (rnd : Nat) (save : Ptr) (st : State) (a b : Int) (rest : List Int)
    (h : st.dstack = b :: a :: rest) (hcap : st.dstack.length ≤ STACKSZ) :
    exec rnd (bytes "=") save st
        = .ok (.cont .null save { st with dstack := (if a = b then 1 else 0) :: rest })
    ∧ exec rnd (bytes "<") save st
        = .ok (.cont .null save { st with dstack := (if a < b then 1 else 0) :: rest })
    ∧ exec rnd (bytes ">") save st
        = .ok (.cont .null save { st with dstack := (if a > b then 1 else 0) :: rest }) := by
  cases st
  simp only at h hcap
  subst h
  have hl2 : ¬ STACKSZ ≤ rest.length := by simp at hcap; omega
  refine ⟨?_, ?_, ?_⟩
  · by_cases hab : a = b
    · simp [exec, bytes, pop, push, hl2, hab]
    · have hba : ¬ b = a := fun h => hab h.symm
      simp [exec, bytes, pop, push, hl2, hab, hba]
  · simp [exec, bytes, pop, push, hl2]
  · simp [exec, bytes, pop, push, hl2]

/-- C12, at a concrete input: `3 5 =`, `3 5 <` and `3 5 >` leave 0, 1 and 0 above an untouched
9. -/
theorem comparison_words_witness :
    exec 0 (bytes "=") .null { initial [] [] with dstack := [5, 3, 9] }
        = .ok (.cont .null .null { initial [] [] with dstack := [0, 9] })
    ∧ exec 0 (bytes "<") .null { initial [] [] with dstack := [5, 3, 9] }
        = .ok (.cont .null .null { initial [] [] with dstack := [1, 9] })
    ∧ exec 0 (bytes ">") .null { initial [] [] with dstack := [5, 3, 9] }
        = .ok (.cont .null .null { initial [] [] with dstack := [0, 9] }) :=
  comparison_words 0 .null { initial [] [] with dstack := [5, 3, 9] } 3 5 [9] rfl (by decide)

/-! ## C11: `find` -/

/-- The loop of `find` from slot `k` over `n` slots: it returns the first slot of the range
whose name is `s`, or -1 when the range has none. -/
theorem findLoop_spec (st : State) (s : List Nat) : ∀ (n k : Nat),
    (findLoop st s n k = -1
      ∧ ∀ j, k ≤ j → j < k + n → cstrBuf st.arena (aget st.dict j).name ≠ s)
    ∨ ∃ i : Nat, findLoop st s n k = (i : Int) ∧ k ≤ i ∧ i < k + n
        ∧ cstrBuf st.arena (aget st.dict i).name = s
        ∧ ∀ j, k ≤ j → j < i → cstrBuf st.arena (aget st.dict j).name ≠ s
  | 0, k => Or.inl ⟨rfl, fun j h1 h2 => absurd h2 (by omega)⟩
  | n + 1, k => by
    unfold findLoop
    by_cases hk : cstrBuf st.arena (aget st.dict k).name = s
    · rw [if_pos hk]
      exact Or.inr ⟨k, rfl, Nat.le_refl _, by omega, hk, fun j h1 h2 => absurd h2 (by omega)⟩
    · rw [if_neg hk]
      rcases findLoop_spec st s n (k + 1) with ⟨h1, h2⟩ | ⟨i, h1, h2, h3, h4, h5⟩
      · refine Or.inl ⟨h1, fun j hj1 hj2 => ?_⟩
        by_cases hjk : j = k
        · rw [hjk]; exact hk
        · exact h2 j (by omega) (by omega)
      · refine Or.inr ⟨i, h1, by omega, by omega, h4, fun j hj1 hj2 => ?_⟩
        by_cases hjk : j = k
        · rw [hjk]; exact hk
        · exact h5 j (by omega) hj2

/-- C11: `find` returns the first match.  For every state and name: when `find` returns an
index, that index is below `dictlen`, the name of its entry is the argument, and no entry at a
smaller index has that name; every index with these properties is the one `find` returns; `find`
returns -1 exactly when no entry below `dictlen` has that name; and `find` returns nothing else,
so a slot at or beyond `dictlen` is never returned. -/
theorem find_first_match (st : State) (s : List Nat) :
    (∀ i : Nat, find st s = (i : Int) →
        i < st.dictlen ∧ cstrBuf st.arena (aget st.dict i).name = s
        ∧ ∀ j, j < i → cstrBuf st.arena (aget st.dict j).name ≠ s)
    ∧ (∀ i : Nat, i < st.dictlen → cstrBuf st.arena (aget st.dict i).name = s →
        (∀ j, j < i → cstrBuf st.arena (aget st.dict j).name ≠ s) → find st s = (i : Int))
    ∧ (find st s = -1 ↔ ∀ i, i < st.dictlen → cstrBuf st.arena (aget st.dict i).name ≠ s)
    ∧ (find st s = -1 ∨ ∃ i : Nat, i < st.dictlen ∧ find st s = (i : Int)) := by
  unfold find
  rcases findLoop_spec st s st.dictlen 0 with ⟨h1, h2⟩ | ⟨i, h1, h2, h3, h4, h5⟩
  · refine ⟨?_, ?_, ?_, Or.inl h1⟩
    · intro i hi
      rw [h1] at hi
      omega
    · intro i hi hn _
      exact absurd hn (h2 i (Nat.zero_le _) (by omega))
    · exact ⟨fun _ i hi => h2 i (Nat.zero_le _) (by omega), fun _ => h1⟩
  · have hlt : i < st.dictlen := by omega
    refine ⟨?_, ?_, ?_, Or.inr ⟨i, hlt, h1⟩⟩
    · intro k hk
      rw [h1] at hk
      have : i = k := by omega
      subst this
      exact ⟨hlt, h4, fun j hj => h5 j (Nat.zero_le _) hj⟩
    · intro k hk hn hfirst
      rw [h1]
      have : i = k := by
        rcases Nat.lt_trichotomy i k with h | h | h
        · exact absurd h4 (hfirst i h)
        · exact h
        · exact absurd hn (h5 k (Nat.zero_le _) h)
      rw [this]
    · constructor
      · intro h
        rw [h1] at h
        omega
      · intro h
        exact absurd h4 (h i hlt)

/-- C11, at a concrete input: with the names `a`, `b`, `a` in slots 0 to 2 and `dictlen = 2`,
`find` returns 0 for `a` (the first of the two), 1 for `b`, and -1 for `c`; with `dictlen = 1`
the entry `b` in slot 1 is not found. -/
theorem find_first_match_witness :
    find { initial [] [] with dict := [⟨0, 0⟩, ⟨2, 0⟩, ⟨0, 0⟩], dictlen := 2,
                              arena := bytes "a\x00b\x00" } (bytes "a") = 0
    ∧ find { initial [] [] with dict := [⟨0, 0⟩, ⟨2, 0⟩, ⟨0, 0⟩], dictlen := 2,
                                arena := bytes "a\x00b\x00" } (bytes "b") = 1
    ∧ find { initial [] [] with dict := [⟨0, 0⟩, ⟨2, 0⟩, ⟨0, 0⟩], dictlen := 2,
                                arena := bytes "a\x00b\x00" } (bytes "c") = -1
    ∧ find { initial [] [] with dict := [⟨0, 0⟩, ⟨2, 0⟩, ⟨0, 0⟩], dictlen := 1,
                                arena := bytes "a\x00b\x00" } (bytes "b") = -1 :=
  ⟨(find_first_match _ _).2.1 0 (by decide) (by decide) (fun j hj => absurd hj (by omega)),
   (find_first_match _ _).2.1 1 (by decide) (by decide)
      (fun j hj => by have : j = 0 := by omega
                      subst this; decide),
   (find_first_match _ _).2.2.1.mpr (by decide),
   (find_first_match _ _).2.2.1.mpr (by decide)⟩

/-! ## C15: `vanish` -/

theorem aget_aset_same {α : Type} [Inhabited α] (a : List α) (i : Nat) (v : α) :
    aget (aset a i v) i = v := by
  unfold aget aset
  split
  · rename_i h
    simp [List.getD_eq_getElem?_getD, List.getElem?_set, h]
  · rename_i h
    have hl : (a ++ List.replicate (i - a.length) default).length = i := by
      simp; omega
    rw [List.getD_eq_getElem?_getD, List.getElem?_append_right (by omega), hl]
    simp

theorem aget_aset_other {α : Type} [Inhabited α] (a : List α) (i j : Nat) (v : α) (h : j ≠ i) :
    aget (aset a i v) j = aget a j := by
  unfold aget aset
  split
  · simp [List.getD_eq_getElem?_getD, List.getElem?_set, Ne.symm h]
  · rename_i hi
    simp only [List.getD_eq_getElem?_getD, List.append_assoc]
    by_cases hj : j < a.length
    · rw [List.getElem?_append_left hj]
    · rw [List.getElem?_append_right (by omega), List.getElem?_eq_none (l := a) (by omega)]
      by_cases hj2 : j < i
      · rw [List.getElem?_append_left (by simp; omega), List.getElem?_replicate]
        split <;> rfl
      · rw [List.getElem?_eq_none (by simp; omega)]

/-- C15: `vanish` is a swap-remove.  On the empty dictionary it changes nothing.  On a
dictionary of size `n > 0`, with the chosen index `r = rand() % n` (which is below `n`): the
size becomes `n - 1`; slot `r` holds the former last entry (of slot `n - 1`); every other slot
holds what it held before; so the surviving entries, slots `0` to `n - 2`, are the former entries
of the slots other than `r`, each exactly once; nothing else of the state changes but the count
of calls of `rand()`. -/
theorem vanish_swap_remove (rnd : Nat) (st : State) :
    (st.dictlen = 0 → vanish rnd st = st)
    ∧ (0 < st.dictlen →
        rnd % st.dictlen < st.dictlen
        ∧ (vanish rnd st).dictlen = st.dictlen - 1
        ∧ aget (vanish rnd st).dict (rnd % st.dictlen) = aget st.dict (st.dictlen - 1)
        ∧ (∀ i, i ≠ rnd % st.dictlen → aget (vanish rnd st).dict i = aget st.dict i)
        ∧ (∀ i, i < st.dictlen - 1 → aget (vanish rnd st).dict i
              = aget st.dict (if i = rnd % st.dictlen then st.dictlen - 1 else i))
        ∧ (∀ j, j < st.dictlen → j ≠ rnd % st.dictlen →
              ∃ i, i < st.dictlen - 1 ∧ (if i = rnd % st.dictlen then st.dictlen - 1 else i) = j
                ∧ ∀ k, k < st.dictlen - 1 →
                    (if k = rnd % st.dictlen then st.dictlen - 1 else k) = j → k = i)
        ∧ vanish rnd st = { st with dictlen := (vanish rnd st).dictlen,
                                    dict := (vanish rnd st).dict, nrand := st.nrand + 1 }) := by
  refine ⟨?_, ?_⟩
  · intro h
    unfold vanish
    rw [if_pos h]
  · intro hpos
    have hr : rnd % st.dictlen < st.dictlen := Nat.mod_lt _ hpos
    have hv : vanish rnd st =
        { st with dict := aset st.dict (rnd % st.dictlen) (aget st.dict (st.dictlen - 1)),
                  dictlen := st.dictlen - 1, nrand := st.nrand + 1 } := by
      unfold vanish
      rw [if_neg (by omega)]
    refine ⟨hr, by rw [hv], ?_, ?_, ?_, ?_, by rw [hv]⟩
    · rw [hv]
      exact aget_aset_same _ _ _
    · intro i hi
      rw [hv]
      exact aget_aset_other _ _ _ _ hi
    · intro i hi
      rw [hv]
      by_cases hir : i = rnd % st.dictlen
      · rw [if_pos hir, hir]
        exact aget_aset_same _ _ _
      · rw [if_neg hir]
        exact aget_aset_other _ _ _ _ hir
    · intro j hj hjr
      by_cases hlast : j = st.dictlen - 1
      · refine ⟨rnd % st.dictlen, by omega, by rw [if_pos rfl, hlast], ?_⟩
        intro k hk hkj
        by_cases hkr : k = rnd % st.dictlen
        · exact hkr
        · rw [if_neg hkr] at hkj
          omega
      · refine ⟨j, by omega, by rw [if_neg hjr], ?_⟩
        intro k hk hkj
        by_cases hkr : k = rnd % st.dictlen
        · rw [if_pos hkr] at hkj
          omega
        · rw [if_neg hkr] at hkj
          exact hkj

/-- C15, at a concrete input: on the entries `A B C D` (size 4) `vanish` with `rand() = 5`
chooses slot 1: the size is 3 and the slots hold `A D C`. -/
theorem vanish_swap_remove_witness :
    5 % 4 < 4
    ∧ (vanish 5 { initial [] [] with dict := [⟨0, 1⟩, ⟨2, 3⟩, ⟨4, 5⟩, ⟨6, 7⟩], dictlen := 4 }).dictlen
        = 3
    ∧ aget (vanish 5 { initial [] [] with dict := [⟨0, 1⟩, ⟨2, 3⟩, ⟨4, 5⟩, ⟨6, 7⟩],
                                          dictlen := 4 }).dict 1 = ⟨6, 7⟩
    ∧ aget (vanish 5 { initial [] [] with dict := [⟨0, 1⟩, ⟨2, 3⟩, ⟨4, 5⟩, ⟨6, 7⟩],
                                          dictlen := 4 }).dict 0 = ⟨0, 1⟩
    ∧ aget (vanish 5 { initial [] [] with dict := [⟨0, 1⟩, ⟨2, 3⟩, ⟨4, 5⟩, ⟨6, 7⟩],
                                          dictlen := 4 }).dict 2 = ⟨4, 5⟩ :=
  have h := (vanish_swap_remove 5
    { initial [] [] with dict := [⟨0, 1⟩, ⟨2, 3⟩, ⟨4, 5⟩, ⟨6, 7⟩], dictlen := 4 }).2 (by decide)
  ⟨h.1, h.2.1, h.2.2.1, h.2.2.2.1 0 (by decide), h.2.2.2.1 2 (by decide)⟩

/-! ## Token streams and `strtok_r` -/

theorem length_dropWhile_le {α : Type} (p : α → Bool) (l : List α) :
    (l.dropWhile p).length ≤ l.length :=
  (List.dropWhile_suffix p).length_le

/-- Enough fuel: the tokens do not depend on it. -/
theorem tokensFuel_eq : ∀ (n m : Nat) (l : List Nat), l.length < n → l.length < m →
    tokensFuel n l = tokensFuel m l
  | 0, _, _, h, _ => absurd h (Nat.not_lt_zero _)
  | _, 0, _, _, h => absurd h (Nat.not_lt_zero _)
  | n + 1, m + 1, l, hn, hm => by
    unfold tokensFuel
    have h1 := length_dropWhile_le isDelim l
    cases hl : l.dropWhile isDelim with
    | nil => rfl
    | cons c r =>
      rw [hl] at h1
      simp only
      split
      · rfl
      · have h2 := length_dropWhile_le isTok (c :: r)
        cases hr : (c :: r).dropWhile isTok with
        | nil => rfl
        | cons d r2 =>
          rw [hr] at h2
          simp only [List.length_cons] at h1 h2
          simp only
          split
          · rfl
          · rw [tokensFuel_eq n m r2 (by omega) (by omega)]

/-- The defining equation of `tokens`. -/
theorem tokens_eq (l : List Nat) :
    tokens l =
      match l.dropWhile isDelim with
      | [] => []
      | c :: r =>
        if c = 0 then []
        else
          (c :: r).takeWhile isTok ::
            (match (c :: r).dropWhile isTok with
             | [] => []
             | d :: r2 => if d = 0 then [] else tokens r2) := by
  unfold tokens
  rw [tokensFuel]
  have h1 := length_dropWhile_le isDelim l
  cases hl : l.dropWhile isDelim with
  | nil => rfl
  | cons c r =>
    rw [hl] at h1
    simp only
    split
    · rfl
    · have h2 := length_dropWhile_le isTok (c :: r)
      cases hr : (c :: r).dropWhile isTok with
      | nil => rfl
      | cons d r2 =>
        rw [hr] at h2
        simp only [List.length_cons] at h1 h2
        simp only
        split
        · rfl
        · rw [tokensFuel_eq l.length (r2.length + 1) r2 (by omega) (by omega)]

theorem tokens_nil_of_headD (l : List Nat) (h : l.headD 0 = 0) : tokens l = [] := by
  rw [tokens_eq]
  cases l with
  | nil => rfl
  | cons a r =>
    simp only [List.headD_cons] at h
    subst h
    rw [List.dropWhile_cons_of_neg (by decide)]
    rfl

/-- The tokens are words: not empty, and made of bytes that are neither NUL nor delimiters. -/
theorem tokensFuel_words : ∀ (n : Nat) (l : List Nat), ∀ t ∈ tokensFuel n l,
    t ≠ [] ∧ ∀ c ∈ t, isTok c = true
  | 0, _, t, h => by simp [tokensFuel] at h
  | n + 1, l, t, h => by
    unfold tokensFuel at h
    cases hl : l.dropWhile isDelim with
    | nil => rw [hl] at h; simp at h
    | cons c r =>
      rw [hl] at h
      simp only at h
      split at h
      · simp at h
      · rename_i hc
        have hc2 : isTok c = true := by
          have := dropWhile_head isDelim l c r hl
          simp only [isTok, Bool.and_eq_true, bne_iff_ne, ne_eq, Bool.not_eq_true']
          exact ⟨hc, this⟩
        rcases List.mem_cons.mp h with rfl | h
        · refine ⟨?_, fun x hx => mem_takeWhile isTok _ x hx⟩
          rw [List.takeWhile_cons_of_pos hc2]
          simp
        · cases hr : (c :: r).dropWhile isTok with
          | nil => rw [hr] at h; simp at h
          | cons d r2 =>
            rw [hr] at h
            simp only at h
            split at h
            · simp at h
            · exact tokensFuel_words n r2 t h

theorem tokens_words (l : List Nat) : ∀ t ∈ tokens l, t ≠ [] ∧ ∀ c ∈ t, isTok c = true :=
  tokensFuel_words _ l

/-- There are at most as many tokens as bytes. -/
theorem tokensFuel_length : ∀ (n : Nat) (l : List Nat), (tokensFuel n l).length ≤ l.length
  | 0, _ => by simp [tokensFuel]
  | n + 1, l => by
    unfold tokensFuel
    have h1 := length_dropWhile_le isDelim l
    cases hl : l.dropWhile isDelim with
    | nil => simp
    | cons c r =>
      rw [hl] at h1
      simp only
      split
      · simp
      · have h2 := length_dropWhile_le isTok (c :: r)
        cases hr : (c :: r).dropWhile isTok with
        | nil => simp only [List.length_cons, List.length_nil] at h1 ⊢; omega
        | cons d r2 =>
          rw [hr] at h2
          simp only [List.length_cons] at h1 h2
          simp only
          split
          · simp only [List.length_cons, List.length_nil]; omega
          · have := tokensFuel_length n r2
            simp only [List.length_cons]
            omega

theorem stream_length_lt (st : State) (p : Ptr) : (stream st p).length < loopFuel st := by
  have h := tokensFuel_length ((rest st p).length + 1) (rest st p)
  have h2 : (rest st p).length ≤ st.line.length + st.arena.length := by
    cases p with
    | null => simp [rest]
    | line o => simp only [rest, List.length_drop]; omega
    | arena o => simp only [rest, List.length_drop]; omega
  unfold stream tokens loopFuel
  omega

theorem strspn_eq (buf : List Nat) (s : Nat) :
    strspn buf s DELIM = ((buf.drop s).takeWhile isDelim).length := rfl

theorem strcspn_eq (buf : List Nat) (s : Nat) :
    strcspn buf s DELIM = ((buf.drop s).takeWhile isTok).length := rfl

theorem cstr_of_split (l tk rs : List Nat) (hl : l = tk ++ rs) (htk : ∀ c ∈ tk, isTok c = true)
    (hrs : rs.headD 0 = 0) : l.takeWhile (fun c => c != 0) = tk := by
  subst hl
  rw [List.takeWhile_append_of_pos]
  · cases rs with
    | nil => simp
    | cons a r =>
      simp only [List.headD_cons] at hrs
      subst hrs
      simp
  · intro c hc
    have := htk c hc
    simp only [isTok, Bool.and_eq_true, bne_iff_ne, ne_eq] at this
    simpa using this.1

/-- The call of `strtok_r` at an exhausted stream: no token, the buffer is unchanged and the
cursor is left on a NUL. -/
theorem strtokBuf_tokens_nil (buf : List Nat) (o : Nat) (h : tokens (buf.drop o) = []) :
    ∃ sv, strtokBuf buf o DELIM = (none, sv, buf) ∧ o ≤ sv ∧ peek buf sv = 0 := by
  unfold strtokBuf
  by_cases h1 : peek buf o = 0
  · rw [if_pos h1]
    exact ⟨o, rfl, Nat.le_refl _, h1⟩
  · rw [if_neg h1]
    simp only
    have hd : buf.drop (o + strspn buf o DELIM) = (buf.drop o).dropWhile isDelim := by
      rw [← List.drop_drop, strspn_eq, drop_length_takeWhile]
    by_cases h2 : peek buf (o + strspn buf o DELIM) = 0
    · rw [if_pos h2]
      exact ⟨_, rfl, Nat.le_add_right _ _, h2⟩
    · exfalso
      rw [peek_eq_headD, hd] at h2
      rw [tokens_eq] at h
      cases hl : (buf.drop o).dropWhile isDelim with
      | nil => rw [hl] at h2; exact h2 rfl
      | cons c r =>
        rw [hl] at h h2
        simp only [List.headD_cons] at h2
        simp only [if_neg h2] at h
        cases h

/-- The call of `strtok_r` at a stream that is not exhausted: it returns the first token of
the stream and leaves the cursor on the rest of the stream; the buffer keeps its length and
is unchanged from the new cursor on. -/
theorem strtokBuf_tokens_cons (buf : List Nat) (o : Nat) (t : List Nat) (ts : List (List Nat))
    (h : tokens (buf.drop o) = t :: ts) :
    ∃ s1 sv buf1, strtokBuf buf o DELIM = (some s1, sv, buf1) ∧ cstrBuf buf1 s1 = t
      ∧ tokens (buf1.drop sv) = ts ∧ buf1.length = buf.length ∧ o < sv
      ∧ buf1.drop sv = buf.drop sv := by
  unfold strtokBuf
  by_cases h1 : peek buf o = 0
  · rw [peek_eq_headD] at h1
    rw [tokens_nil_of_headD _ h1] at h
    cases h
  · rw [if_neg h1]
    simp only
    have hd : buf.drop (o + strspn buf o DELIM) = (buf.drop o).dropWhile isDelim := by
      rw [← List.drop_drop, strspn_eq, drop_length_takeWhile]
    have hos : o ≤ o + strspn buf o DELIM := Nat.le_add_right _ _
    generalize o + strspn buf o DELIM = s1 at hd hos
    rw [tokens_eq, ← hd] at h
    by_cases h2 : peek buf s1 = 0
    · exfalso
      rw [peek_eq_headD] at h2
      cases hl : buf.drop s1 with
      | nil => rw [hl] at h; cases h
      | cons c r =>
        rw [hl] at h h2
        simp only [List.headD_cons] at h2
        simp only [if_pos h2] at h
        cases h
    · rw [if_neg h2]
      rw [peek_eq_headD] at h2
      cases hl : buf.drop s1 with
      | nil => rw [hl] at h2; exact absurd rfl h2
      | cons c r =>
        rw [hl] at h h2
        simp only [List.headD_cons] at h2
        simp only [if_neg h2, List.cons.injEq] at h
        obtain ⟨ht, hts⟩ := h
        have hk : strcspn buf s1 DELIM = t.length := by rw [strcspn_eq, hl, ht]
        have hde : buf.drop (s1 + t.length) = (c :: r).dropWhile isTok := by
          rw [← List.drop_drop, hl, ← ht, drop_length_takeWhile]
        have hsplit : c :: r = t ++ (c :: r).dropWhile isTok := by
          rw [← ht, List.takeWhile_append_dropWhile]
        have hall : ∀ x ∈ t, isTok x = true := by
          intro x hx
          rw [← ht] at hx
          exact mem_takeWhile isTok _ x hx
        have htlen : 1 ≤ t.length := by
          have hc : isTok c = true := by
            have hdw := hd
            rw [hl] at hdw
            have := dropWhile_head isDelim _ c r hdw.symm
            simp only [isTok, Bool.and_eq_true, bne_iff_ne, ne_eq, Bool.not_eq_true']
            exact ⟨h2, this⟩
          rw [← ht, List.takeWhile_cons_of_pos hc]
          simp
        have hs1lt : s1 < buf.length := by
          by_contra hge
          rw [List.drop_eq_nil_of_le (by omega)] at hl
          cases hl
        rw [hk]
        by_cases h3 : peek buf (s1 + t.length) = 0
        · rw [if_pos h3]
          rw [peek_eq_headD, hde] at h3
          refine ⟨s1, s1 + t.length, buf, rfl, ?_, ?_, rfl, by omega, rfl⟩
          · unfold cstrBuf
            rw [hl]
            exact cstr_of_split _ t _ hsplit hall h3
          · rw [hde, tokens_nil_of_headD _ h3, ← hts]
            cases hr : (c :: r).dropWhile isTok with
            | nil => rfl
            | cons d r2 =>
              rw [hr] at h3
              simp only [List.headD_cons] at h3
              simp only [if_pos h3]
        · rw [if_neg h3]
          rw [peek_eq_headD, hde] at h3
          cases hr : (c :: r).dropWhile isTok with
          | nil => rw [hr] at h3; exact absurd rfl h3
          | cons d r2 =>
            rw [hr] at h3 hts hsplit hde
            simp only [List.headD_cons] at h3
            simp only [if_neg h3] at hts
            have hdrop : (buf.set (s1 + t.length) 0).drop (s1 + t.length + 1)
                = buf.drop (s1 + t.length + 1) := List.drop_set_of_lt 0 buf (by omega)
            have hr2 : buf.drop (s1 + t.length + 1) = r2 := by
              rw [← List.drop_drop, hde]
              rfl
            refine ⟨s1, s1 + t.length + 1, _, rfl, ?_, ?_, by simp, by omega, hdrop⟩
            · unfold cstrBuf
              rw [List.drop_set, if_neg (by omega), hl, hsplit,
                List.set_append_right _ _ (by omega)]
              refine cstr_of_split _ t (0 :: r2) ?_ hall rfl
              congr 1
              rw [show s1 + t.length - s1 - t.length = 0 by omega]
              rfl
            · rw [hdrop, hr2, hts]

theorem strtok_r_cursor (st : State) (ip save : Ptr) :
    strtok_r st ip DELIM save = strtok_r st .null DELIM (cursor ip save) := by
  unfold strtok_r cursor
  simp

/-- The call of `strtok_r` at an exhausted stream: no token, the state is unchanged and the
stream stays exhausted at the cursor that is left. -/
theorem strtok_r_stream_nil (st : State) (ip save : Ptr)
    (h : stream st (cursor ip save) = []) :
    ∃ p1, strtok_r st ip DELIM save = (none, p1, st) ∧ stream st p1 = []
      ∧ p1.isLine = (cursor ip save).isLine := by
  rw [strtok_r_cursor]
  generalize cursor ip save = c at h
  cases c with
  | null => exact ⟨.null, rfl, rfl, rfl⟩
  | line o =>
    obtain ⟨sv, h1, -, h3⟩ := strtokBuf_tokens_nil st.line o h
    refine ⟨.line sv, ?_, ?_, rfl⟩
    · simp only [strtok_r, if_true, h1, Option.map_none']
    · unfold stream rest
      simp only
      exact tokens_nil_of_headD _ (by rw [← peek_eq_headD]; exact h3)
  | arena o =>
    obtain ⟨sv, h1, -, h3⟩ := strtokBuf_tokens_nil st.arena o h
    refine ⟨.arena sv, ?_, ?_, rfl⟩
    · simp only [strtok_r, if_true, h1, Option.map_none']
    · unfold stream rest
      simp only
      exact tokens_nil_of_headD _ (by rw [← peek_eq_headD]; exact h3)

/-- The call of `strtok_r` at a stream that is not exhausted: it returns the first token and
leaves the cursor on the rest of the stream, in the same buffer.  Only that buffer changes, and
it keeps its length. -/
theorem strtok_r_stream_cons (st : State) (ip save : Ptr) (t : List Nat) (ts : List (List Nat))
    (h : stream st (cursor ip save) = t :: ts) :
    ∃ tok p1 st1, strtok_r st ip DELIM save = (some tok, p1, st1) ∧ cstr st1 tok = t
      ∧ stream st1 p1 = ts ∧ sameRegs st st1 ∧ st1.nextb = st.nextb
      ∧ p1.isLine = (cursor ip save).isLine
      ∧ ((cursor ip save).isLine = true → st1.arena = st.arena)
      ∧ ((cursor ip save).isLine = false → st1.line = st.line)
      ∧ st1.line.length = st.line.length ∧ st1.arena.length = st.arena.length := by
  rw [strtok_r_cursor]
  generalize cursor ip save = c at h
  cases c with
  | null => simp [stream, rest, tokens, tokensFuel] at h
  | line o =>
    obtain ⟨s1, sv, buf1, h1, h2, h3, h4, -, -⟩ := strtokBuf_tokens_cons st.line o t ts h
    refine ⟨.line s1, .line sv, { st with line := buf1 }, ?_, h2, h3, by simp [sameRegs], rfl,
      rfl, fun _ => rfl, fun hf => by simp [Ptr.isLine] at hf, h4, rfl⟩
    simp only [strtok_r, if_true, h1, Option.map_some']
  | arena o =>
    obtain ⟨s1, sv, buf1, h1, h2, h3, h4, -, -⟩ := strtokBuf_tokens_cons st.arena o t ts h
    refine ⟨.arena s1, .arena sv, { st with arena := buf1 }, ?_, h2, h3, by simp [sameRegs], rfl,
      rfl, fun hf => by simp [Ptr.isLine] at hf, fun _ => rfl, rfl, h4⟩
    simp only [strtok_r, if_true, h1, Option.map_some']

/-- The stream at a cursor of the line buffer depends on the line buffer only, the stream at a
cursor of the arena on the arena only. -/
theorem stream_congr (s t : State) (p : Ptr) (hl : p.isLine = true → t.line = s.line)
    (ha : p.isLine = false → t.arena = s.arena) : stream t p = stream s p := by
  cases p with
  | null => rfl
  | line o => simp only [stream, rest, hl rfl]
  | arena o => simp only [stream, rest, ha rfl]

theorem tokenised_refl (p : Ptr) (st : State) : tokenised p st st :=
  ⟨sameRegs_refl st, rfl, fun _ => rfl, fun _ => rfl, rfl, rfl⟩

theorem tokenised_trans {p q : Ptr} {s t u : State} (hpq : q.isLine = p.isLine)
    (h1 : tokenised p s t) (h2 : tokenised q t u) : tokenised p s u := by
  obtain ⟨a1, a2, a3, a4, a5, a6⟩ := h1
  obtain ⟨b1, b2, b3, b4, b5, b6⟩ := h2
  rw [hpq] at b3 b4
  exact ⟨sameRegs_trans a1 b1, b2.trans a2, fun h => (b3 h).trans (a3 h),
    fun h => (b4 h).trans (a4 h), b5.trans a5, b6.trans a6⟩

/-- Reading a token, in terms of `tokenised`. -/
theorem strtok_r_next (st : State) (p : Ptr) (t : List Nat) (ts : List (List Nat))
    (h : stream st p = t :: ts) :
    ∃ tok p1 st1, strtok_r st .null DELIM p = (some tok, p1, st1) ∧ cstr st1 tok = t
      ∧ stream st1 p1 = ts ∧ tokenised p st st1 ∧ p1.isLine = p.isLine := by
  obtain ⟨tok, p1, st1, h1, h2, h3, h4, h5, h6, h7, h8, h9, h10⟩ :=
    strtok_r_stream_cons st .null p t ts h
  exact ⟨tok, p1, st1, h1, h2, h3, ⟨h4, h5, h7, h8, h9, h10⟩, h6⟩

theorem strtok_r_end (st : State) (p : Ptr) (h : stream st p = []) :
    ∃ p1, strtok_r st .null DELIM p = (none, p1, st) ∧ stream st p1 = []
      ∧ p1.isLine = p.isLine :=
  strtok_r_stream_nil st .null p h

theorem dropComment_cons (t : List Nat) (ts : List (List Nat)) :
    dropComment (t :: ts) = if t = bytes "*/" then ts else dropComment ts := by
  unfold dropComment
  by_cases h : t = bytes "*/"
  · rw [if_pos h, List.dropWhile_cons_of_neg (by simp [h])]
    rfl
  · rw [if_neg h, List.dropWhile_cons_of_pos (by simp [h])]

theorem dropComment_append (pre post : List (List Nat)) (h : bytes "*/" ∉ pre) :
    dropComment (pre ++ bytes "*/" :: post) = post := by
  induction pre with
  | nil => rw [List.nil_append, dropComment_cons, if_pos rfl]
  | cons a l ih =>
    rw [List.cons_append, dropComment_cons, if_neg, ih]
    · exact fun hm => h (List.mem_cons_of_mem _ hm)
    · exact fun ha => h (by rw [ha]; exact List.mem_cons_self _ _)

theorem dropComment_none (ts : List (List Nat)) (h : bytes "*/" ∉ ts) : dropComment ts = [] := by
  induction ts with
  | nil => rfl
  | cons a l ih =>
    rw [dropComment_cons, if_neg, ih]
    · exact fun hm => h (List.mem_cons_of_mem _ hm)
    · exact fun ha => h (by rw [ha]; exact List.mem_cons_self _ _)

/-- The loop of `skip_comment` on a token stream: it returns, with the cursor after the first
`*/` of the stream, or at the end of the stream when there is none. -/
theorem skipLoop_stream : ∀ (n : Nat) (st : State) (p : Ptr), (stream st p).length < n →
    ∃ st1 p1, skipLoop n st p = .ok (st1, p1) ∧ stream st1 p1 = dropComment (stream st p)
      ∧ tokenised p st st1 ∧ p1.isLine = p.isLine
  | 0, _, _, h => absurd h (Nat.not_lt_zero _)
  | n + 1, st, p, h => by
    unfold skipLoop
    cases hs : stream st p with
    | nil =>
      obtain ⟨p1, h1, h2, h3⟩ := strtok_r_end st p hs
      rw [h1]
      exact ⟨st, p1, rfl, h2, tokenised_refl p st, h3⟩
    | cons t ts =>
      obtain ⟨tok, p1, st1, h1, h2, h3, h4, h5⟩ := strtok_r_next st p t ts hs
      rw [h1]
      simp only [h2]
      rw [dropComment_cons]
      by_cases ht : t = bytes "*/"
      · rw [if_pos ht, if_pos ht]
        exact ⟨st1, p1, rfl, h3, h4, h5⟩
      · rw [if_neg ht, if_neg ht]
        rw [hs] at h
        obtain ⟨st2, p2, e1, e2, e3, e4⟩ := skipLoop_stream n st1 p1
          (by rw [h3]; simp only [List.length_cons] at h; omega)
        rw [h3] at e2
        exact ⟨st2, p2, e1, e2, tokenised_trans h5 h4 e3, e4.trans h5⟩

/-- C16: `skip_comment` is not nesting-aware.  For every state and cursor it returns without
an error, having only tokenised the buffer of the cursor, and the stream at the cursor it leaves
is the stream after the first token equal to `*/`: when the stream is `pre`, `*/`, `post` with no
`*/` in `pre` (whatever `/*` tokens `pre` holds), the cursor is left on `post`; when the stream
has no `*/`, every token is consumed and the cursor is left on the exhausted stream. -/
theorem skip_comment_first_close (st : State) (p : Ptr) :
    ∃ st1 p1, skip_comment st p = .ok (st1, p1) ∧ tokenised p st st1
      ∧ stream st1 p1 = dropComment (stream st p)
      ∧ (∀ pre post, stream st p = pre ++ bytes "*/" :: post → bytes "*/" ∉ pre →
          stream st1 p1 = post)
      ∧ (bytes "*/" ∉ stream st p → stream st1 p1 = []) := by
  obtain ⟨st1, p1, h1, h2, h3, -⟩ := skipLoop_stream (loopFuel st) st p (stream_length_lt st p)
  refine ⟨st1, p1, h1, h3, h2, ?_, ?_⟩
  · intro pre post hs hpre
    rw [h2, hs, dropComment_append pre post hpre]
  · intro hno
    rw [h2, dropComment_none _ hno]

/-- C16, at a concrete input: after the opener of `/* a /* b */ c */ d`, `skip_comment` stops
at the first `*/`: the stream left is `c */ d`; on `a b` without `*/` it leaves nothing. -/
theorem skip_comment_first_close_witness :
    (∃ st1 p1, skip_comment (initial (bytes "/* a /* b */ c */ d\n") []) (.line 2)
          = .ok (st1, p1)
        ∧ stream st1 p1 = [bytes "c", bytes "*/", bytes "d"])
    ∧ (∃ st1 p1, skip_comment (initial (bytes "/* a b\n") []) (.line 2) = .ok (st1, p1)
        ∧ stream st1 p1 = []) :=
  ⟨match skip_comment_first_close (initial (bytes "/* a /* b */ c */ d\n") []) (.line 2) with
    | ⟨st1, p1, h1, _, _, h4, _⟩ =>
      ⟨st1, p1, h1, h4 [bytes "a", bytes "/*", bytes "b"] [bytes "c", bytes "*/", bytes "d"]
        (by decide) (by decide)⟩,
   match skip_comment_first_close (initial (bytes "/* a b\n") []) (.line 2) with
    | ⟨st1, p1, h1, _, _, _, h5⟩ => ⟨st1, p1, h1, h5 (by decide)⟩⟩

/-! ## C13: a false `while` -/

theorem skip_comment_stream (st : State) (p : Ptr) :
    ∃ st1 p1, skip_comment st p = .ok (st1, p1) ∧ stream st1 p1 = dropComment (stream st p)
      ∧ tokenised p st st1 ∧ p1.isLine = p.isLine :=
  skipLoop_stream (loopFuel st) st p (stream_length_lt st p)

theorem dropComment_length_le : ∀ ts : List (List Nat), (dropComment ts).length ≤ ts.length
  | [] => Nat.le_refl _
  | t :: ts => by
    rw [dropComment_cons]
    have := dropComment_length_le ts
    split <;> simp only [List.length_cons] <;> omega

theorem seekRepeat_comment (d : Int) : ∀ ts : List (List Nat),
    seekRepeat true d ts = seekRepeat false d (dropComment ts)
  | [] => rfl
  | t :: ts => by
    rw [dropComment_cons, seekRepeat.eq_2]
    by_cases h : t = bytes "*/"
    · rw [if_pos h, if_pos h]
    · rw [if_neg h, if_neg h]
      exact seekRepeat_comment d ts

/-- The scan of a false `while` on a token stream: it returns, and the cursor it finds is the
one `seekRepeat` gives. -/
theorem scanLoop_stream : ∀ (n : Nat) (st : State) (p : Ptr) (d : Int),
    (stream st p).length < n →
    ∃ st1 r, scanLoop n st p d = .ok (st1, r) ∧ tokenised p st st1
      ∧ r.map (stream st1) = seekRepeat false d (stream st p)
      ∧ ∀ p1, r = some p1 → p1.isLine = p.isLine
  | 0, _, _, _, h => absurd h (Nat.not_lt_zero _)
  | n + 1, st, p, d, h => by
    unfold scanLoop
    cases hs : stream st p with
    | nil =>
      obtain ⟨p1, h1, -, -⟩ := strtok_r_end st p hs
      rw [h1]
      exact ⟨st, none, rfl, tokenised_refl p st, rfl, fun _ hp => by cases hp⟩
    | cons t ts =>
      obtain ⟨tok, p1, st1, h1, h2, h3, h4, h5⟩ := strtok_r_next st p t ts hs
      rw [h1]
      simp only [h2]
      rw [hs] at h
      simp only [List.length_cons] at h
      by_cases hc : t = bytes "/*"
      · rw [if_pos hc]
        obtain ⟨st2, p2, e1, e2, e3, e4⟩ := skip_comment_stream st1 p1
        rw [e1, Res.ok_bind]
        rw [h3] at e2
        obtain ⟨st3, r, f1, f2, f3, f4⟩ := scanLoop_stream n st2 p2 d
          (by rw [e2]; have := dropComment_length_le ts; omega)
        refine ⟨st3, r, f1, tokenised_trans h5 h4 (tokenised_trans e4 e3 f2), ?_, ?_⟩
        · rw [f3, e2, seekRepeat, if_pos hc, seekRepeat_comment]
        · intro q hq
          rw [f4 q hq, e4, h5]
      · rw [if_neg hc]
        by_cases hb : t = bytes "begin"
        · rw [if_pos hb]
          obtain ⟨st3, r, f1, f2, f3, f4⟩ := scanLoop_stream n st1 p1 (d + 1)
            (by rw [h3]; omega)
          refine ⟨st3, r, f1, tokenised_trans h5 h4 f2, ?_, ?_⟩
          · rw [f3, h3, seekRepeat.eq_3, if_neg hc, if_pos hb]
          · intro q hq
            rw [f4 q hq, h5]
        · rw [if_neg hb]
          by_cases hr : t = bytes "repeat"
          · rw [if_pos hr]
            by_cases hd : d - 1 = 0
            · rw [if_pos hd]
              refine ⟨st1, some p1, rfl, h4, ?_, ?_⟩
              · rw [seekRepeat.eq_3, if_neg hc, if_neg hb, if_pos hr, if_pos hd, Option.map_some',
                  h3]
              · intro q hq
                cases hq
                exact h5
            · rw [if_neg hd]
              obtain ⟨st3, r, f1, f2, f3, f4⟩ := scanLoop_stream n st1 p1 (d - 1)
                (by rw [h3]; omega)
              refine ⟨st3, r, f1, tokenised_trans h5 h4 f2, ?_, ?_⟩
              · rw [f3, h3, seekRepeat.eq_3, if_neg hc, if_neg hb, if_pos hr, if_neg hd]
              · intro q hq
                rw [f4 q hq, h5]
          · rw [if_neg hr]
            obtain ⟨st3, r, f1, f2, f3, f4⟩ := scanLoop_stream n st1 p1 d
              (by rw [h3]; omega)
            refine ⟨st3, r, f1, tokenised_trans h5 h4 f2, ?_, ?_⟩
            · rw [f3, h3, seekRepeat.eq_3, if_neg hc, if_neg hb, if_neg hr]
            · intro q hq
              rw [f4 q hq, h5]

/-- A balanced body: the scan that starts with `k + 1` open loops stops right after the
`repeat` that follows the body. -/
theorem seekRepeat_balanced (rest : List (List Nat)) : ∀ (B : List (List Nat)) (inc : Bool)
    (k : Nat), balanced inc k B = true →
    seekRepeat inc ((k : Int) + 1) (B ++ bytes "repeat" :: rest) = some rest
  | [], inc, k, h => by
    cases inc with
    | true => simp [balanced] at h
    | false =>
      have hk : k = 0 := by simpa [balanced] using h
      subst hk
      rw [List.nil_append, seekRepeat.eq_3, if_neg (by decide), if_neg (by decide), if_pos rfl,
        if_pos (by simp)]
  | t :: B, true, k, h => by
    rw [List.cons_append, seekRepeat.eq_2]
    rw [balanced.eq_2] at h
    by_cases hc : t = bytes "*/"
    · rw [if_pos hc] at h ⊢
      exact seekRepeat_balanced rest B false k h
    · rw [if_neg hc] at h ⊢
      exact seekRepeat_balanced rest B true k h
  | t :: B, false, k, h => by
    rw [List.cons_append, seekRepeat.eq_3]
    rw [balanced.eq_3] at h
    by_cases hc : t = bytes "/*"
    · rw [if_pos hc] at h ⊢
      exact seekRepeat_balanced rest B true k h
    · rw [if_neg hc] at h ⊢
      by_cases hb : t = bytes "begin"
      · rw [if_pos hb] at h ⊢
        have := seekRepeat_balanced rest B false (k + 1) h
        rw [Nat.cast_add, Nat.cast_one] at this
        exact this
      · rw [if_neg hb] at h ⊢
        by_cases hr : t = bytes "repeat"
        · rw [if_pos hr] at h ⊢
          by_cases hk : k = 0
          · rw [if_pos hk] at h
            cases h
          · rw [if_neg hk] at h
            rw [if_neg (by omega)]
            have := seekRepeat_balanced rest B false (k - 1) h
            rw [show ((k - 1 : Nat) : Int) + 1 = (k : Int) + 1 - 1 by omega] at this
            exact this
        · rw [if_neg hr] at h ⊢
          exact seekRepeat_balanced rest B false k h

/-- An iteration of `run` at a stream that has a token executes that token, with the cursor on
the tokens that follow. -/
theorem step_stream_cons (rnd : Nat) (ip save : Ptr) (st : State) (t : List Nat)
    (ts : List (List Nat)) (h : stream st (cursor ip save) = t :: ts) :
    ∃ p1 st1, step rnd ip save st = exec rnd t p1 st1 ∧ stream st1 p1 = ts
      ∧ tokenised (cursor ip save) st st1 ∧ p1.isLine = (cursor ip save).isLine := by
  obtain ⟨tok, p1, st1, h1, h2, h3, h4, h5, h6, h7, h8, h9, h10⟩ :=
    strtok_r_stream_cons st ip save t ts h
  refine ⟨p1, st1, ?_, h3, ⟨h4, h5, h7, h8, h9, h10⟩, h6⟩
  unfold step
  rw [h1]
  simp only [h2]

/-- An iteration of `run` at an exhausted stream returns from the word, or from `run`. -/
theorem step_stream_nil (rnd : Nat) (ip save : Ptr) (st : State)
    (h : stream st (cursor ip save) = []) :
    step rnd ip save st =
      match st.cstack with
      | [] => .ok (.ret st)
      | f :: fs => .ok (.cont .null f.save { st with ltop := f.loopbase, cstack := fs }) := by
  obtain ⟨p1, h1, -, -⟩ := strtok_r_stream_nil st ip save h
  unfold step
  rw [h1]
  try rfl

theorem runLoop_cont (rand : Nat → Nat) (fuel : Nat) (ip save : Ptr) (st : State)
    (ip1 save1 : Ptr) (st1 : State)
    (h : step (rand st.nrand) ip save st = .ok (.cont ip1 save1 st1)) :
    runLoop rand (fuel + 1) ip save st = runLoop rand fuel ip1 save1 st1 := by
  rw [runLoop, h]

theorem runLoop_dead (rand : Nat → Nat) (fuel : Nat) (ip save : Ptr) (st : State) (d : Dead)
    (h : step (rand st.nrand) ip save st = .dead d) :
    runLoop rand (fuel + 1) ip save st = .dead d := by
  rw [runLoop, h]

theorem runLoop_ret (rand : Nat → Nat) (fuel : Nat) (ip save : Ptr) (st st1 : State)
    (h : step (rand st.nrand) ip save st = .ok (.ret st1)) :
    runLoop rand (fuel + 1) ip save st = .ok st1 := by
  rw [runLoop, h]

theorem exec_begin (rnd : Nat) (save : Ptr) (st : State) (h : st.ltop < LOOPSZ) :
    exec rnd (bytes "begin") save st
      = .ok (.cont .null save
          { st with lstack := aset st.lstack st.ltop save, ltop := st.ltop + 1 }) := by
  simp [exec, bytes, Nat.not_le.mpr h]

/-- The word `while` on a false flag, in terms of the scan. -/
theorem exec_while_false (rnd : Nat) (save : Ptr) (st : State) (ds : List Int)
    (hd : st.dstack = 0 :: ds) (hl : 0 < st.ltop) :
    exec rnd (bytes "while") save st
      = (scanLoop (loopFuel st) { st with dstack := ds, ltop := st.ltop - 1 } save 1).bind
          fun p =>
            match p.2 with
            | none => die "while: missing matching 'repeat'" p.1
            | some tmp => .ok (.cont .null tmp p.1) := by
  cases st
  simp only at hd hl
  subst hd
  simp [exec, bytes, pop, Nat.not_le.mpr hl, loopFuel]
  try rfl

/-- The three iterations of `run` for `begin 0 while`: the scan is run from the state before
the `begin`, in which only the slot above the top of the loop stack was written. -/
theorem begin_zero_while (rand : Nat → Nat) (ip save : Ptr) (st : State)
    (S : List (List Nat))
    (hroom : st.dstack.length < STACKSZ) (hl : st.ltop < LOOPSZ)
    (hs : stream st (cursor ip save) = bytes "begin" :: bytes "0" :: bytes "while" :: S) :
    ∃ st1 r, tokenised (cursor ip save) st { st1 with lstack := st.lstack }
      ∧ r.map (stream st1) = seekRepeat false 1 S
      ∧ (∀ p1, r = some p1 → p1.isLine = (cursor ip save).isLine)
      ∧ ∀ fuel, runLoop rand (fuel + 3) ip save st =
          match r with
          | none => die "while: missing matching 'repeat'" st1
          | some tmp => runLoop rand fuel .null tmp st1 := by
  obtain ⟨p1, st1, e1, s1, t1, l1⟩ := step_stream_cons (rand st.nrand) ip save st _ _ hs
  have hl1 : st1.ltop < LOOPSZ := by rw [t1.1.2.2.2.2.2.1]; exact hl
  rw [exec_begin _ _ _ hl1] at e1
  obtain ⟨p2, st2, e2, s2, t2, l2⟩ := step_stream_cons
    (rand st1.nrand) .null p1
    { st1 with lstack := aset st1.lstack st1.ltop p1, ltop := st1.ltop + 1 } _ _ s1
  have hd2 : st2.dstack = st.dstack := t2.1.1.trans t1.1.1
  rw [exec_numeral _ (bytes "0") p2 st2 0 (by decide) (by rw [hd2]; exact hroom)] at e2
  obtain ⟨p3, st3, e3, s3, t3, l3⟩ := step_stream_cons
    (rand st2.nrand) .null p2 { st2 with dstack := 0 :: st2.dstack } _ _ s2
  have hd3 : st3.dstack = 0 :: st.dstack := by rw [t3.1.1]; simp only [hd2]
  have hl3 : st3.ltop = st.ltop + 1 := by
    rw [t3.1.2.2.2.2.2.1]
    simp only
    rw [t2.1.2.2.2.2.2.1]
    simp only
    rw [t1.1.2.2.2.2.2.1]
  rw [exec_while_false _ p3 st3 st.dstack hd3 (by omega)] at e3
  obtain ⟨st4, r, f1, f2, f3, f4⟩ := scanLoop_stream (loopFuel st3)
    { st3 with dstack := st.dstack, ltop := st3.ltop - 1 } p3 1 (stream_length_lt st3 p3)
  rw [f1, Res.ok_bind] at e3
  have c1 : cursor Ptr.null p1 = p1 := rfl
  have c2 : cursor Ptr.null p2 = p2 := rfl
  rw [c1] at t2 l2
  rw [c2] at t3 l3
  refine ⟨st4, r, ?_, ?_, ?_, ?_⟩
  · simp only [tokenised, sameRegs] at t1 t2 t3 f2 ⊢
    rw [l3, l2, l1] at f2
    rw [l2, l1] at t3
    rw [l1] at t2
    obtain ⟨⟨a1, a2, a3, a4, a5, a6, a7, a8, a9⟩, a10, a11, a12, a13, a14⟩ := t1
    obtain ⟨⟨b1, b2, b3, b4, b5, b6, b7, b8, b9⟩, b10, b11, b12, b13, b14⟩ := t2
    obtain ⟨⟨c1, c2, c3, c4, c5, c6, c7, c8, c9⟩, c10, c11, c12, c13, c14⟩ := t3
    obtain ⟨⟨d1, d2, d3, d4, d5, d6, d7, d8, d9⟩, d10, d11, d12, d13, d14⟩ := f2
    refine ⟨⟨d1, ?_, ?_, ?_, trivial, ?_, ?_, ?_, ?_⟩, ?_, ?_, ?_, ?_, ?_⟩
    · rw [d2, c2, b2, a2]
    · rw [d3, c3, b3, a3]
    · rw [d4, c4, b4, a4]
    · rw [d6, hl3]
      omega
    · rw [d7, c7, b7, a7]
    · rw [d8, c8, b8, a8]
    · rw [d9, c9, b9, a9]
    · rw [d10, c10, b10, a10]
    · intro hb
      rw [d11 hb, c11 hb, b11 hb, a11 hb]
    · intro hb
      rw [d12 hb, c12 hb, b12 hb, a12 hb]
    · rw [d13, c13, b13, a13]
    · rw [d14, c14, b14, a14]
  · rw [f3]
    exact congrArg _ s3
  · intro q hq
    rw [f4 q hq, l3, l2, l1]
  · intro fuel
    rw [runLoop_cont rand (fuel + 2) ip save st _ _ _ e1,
      runLoop_cont rand (fuel + 1) .null p1 _ _ _ _ e2]
    cases r with
    | none => exact runLoop_dead rand fuel .null p2 _ _ e3
    | some tmp => exact runLoop_cont rand fuel .null p2 _ _ _ _ e3

/-- C13: a false `while` skips to its matching `repeat`, with nesting.  Take a state with room
for one more cell on the data stack and one more entry on the loop stack, whose token stream is
`begin 0 while B repeat rest`, where `begin` and `repeat` are balanced in `B` (counting only the
tokens outside comments, every comment closed; balanced as brackets are: every `repeat` of `B`
closes a `begin` of `B` that precedes it, and every `begin` of `B` is closed).  Then three iterations of `run` (one for each of
`begin`, `0` and `while`) lead to a state whose token stream is `rest` and that has the same data
stack, loop stack depth, dictionary, output, input, call stack and arena offset as the state
before the `begin`: only the buffer was tokenised, and the slot above the top of the loop stack
was written.  No token of `B` is executed.  When no `repeat` brings the depth of the scan back to
0 before the stream ends (`seekRepeat` gives none), the process dies with
`while: missing matching 'repeat'`, and stdout is as it was. -/
theorem false_while_skips (rand : Nat → Nat) (ip save : Ptr) (st : State)
    (B rest : List (List Nat))
    (hroom : st.dstack.length < STACKSZ) (hl : st.ltop < LOOPSZ) :
    (balanced false 0 B = true →
      stream st (cursor ip save)
        = bytes "begin" :: bytes "0" :: bytes "while" :: (B ++ bytes "repeat" :: rest) →
      ∃ st1 p1, stream st1 p1 = rest
        ∧ tokenised (cursor ip save) st { st1 with lstack := st.lstack }
        ∧ st1.dstack = st.dstack ∧ st1.ltop = st.ltop ∧ st1.dict = st.dict
        ∧ st1.dictlen = st.dictlen ∧ st1.out = st.out
        ∧ ∀ fuel, runLoop rand (fuel + 3) ip save st = runLoop rand fuel .null p1 st1)
    ∧ (seekRepeat false 1 B = none →
      stream st (cursor ip save) = bytes "begin" :: bytes "0" :: bytes "while" :: B →
      ∀ fuel, runLoop rand (fuel + 3) ip save st
        = .dead ⟨bytes "while: missing matching 'repeat'\n", st.out⟩) := by
  constructor
  · intro hB hs
    obtain ⟨st1, r, h1, h2, -, h4⟩ := begin_zero_while rand ip save st _ hroom hl hs
    have hk := seekRepeat_balanced rest B false 0 hB
    rw [show ((0 : Nat) : Int) + 1 = 1 from rfl] at hk
    rw [hk] at h2
    cases r with
    | none => cases h2
    | some p1 =>
      simp only [Option.map_some', Option.some.injEq] at h2
      have hr := h1.1
      exact ⟨st1, p1, h2, h1, hr.1, hr.2.2.2.2.2.1, hr.2.1, hr.2.2.1, hr.2.2.2.2.2.2.1, h4⟩
  · intro hB hs fuel
    obtain ⟨st1, r, h1, h2, -, h4⟩ := begin_zero_while rand ip save st _ hroom hl hs
    rw [hB] at h2
    cases r with
    | some p1 => cases h2
    | none =>
      rw [h4 fuel]
      have ho : st1.out = st.out := h1.1.2.2.2.2.2.2.1
      simp only [die, ho]
      rfl

/-- C13, at a concrete input: in `begin 0 while 1 . begin /* repeat */ repeat 2 . repeat 7 .`
the false `while` resumes at `7 .` with the stack and the output empty, and in
`begin 0 while begin 1 . repeat` it dies. -/
theorem false_while_skips_witness :
    (∃ st1 p1, stream st1 p1 = [bytes "7", bytes "."]
        ∧ st1.dstack = [] ∧ st1.ltop = 0 ∧ st1.dictlen = 0 ∧ st1.out = []
        ∧ ∀ fuel, run (fun _ => 0) (fuel + 3)
            (initial (bytes "begin 0 while 1 . begin /* repeat */ repeat 2 . repeat 7 .\n") [])
          = runLoop (fun _ => 0) fuel .null p1 st1)
    ∧ run (fun _ => 0) 3 (initial (bytes "begin 0 while begin 1 . repeat\n") [])
        = .dead ⟨bytes "while: missing matching 'repeat'\n", []⟩ :=
  ⟨match (false_while_skips (fun _ => 0) (.line 0) .null
        (initial (bytes "begin 0 while 1 . begin /* repeat */ repeat 2 . repeat 7 .\n") [])
        [bytes "1", bytes ".", bytes "begin", bytes "/*", bytes "repeat", bytes "*/",
          bytes "repeat", bytes "2", bytes "."]
        [bytes "7", bytes "."] (by decide) (by decide)).1 (by decide) (by decide) with
    | ⟨st1, p1, h1, _, h3, h4, _, h6, h7, h8⟩ => ⟨st1, p1, h1, h3, h4, h6, h7, h8⟩,
   (false_while_skips (fun _ => 0) (.line 0) .null
      (initial (bytes "begin 0 while begin 1 . repeat\n") [])
      [bytes "begin", bytes "1", bytes ".", bytes "repeat"] []
      (by decide) (by decide)).2 (by decide) (by decide) 0⟩

/-! ## Token streams and the C string at the cursor -/

theorem takeWhile_dropWhile_comm {α : Type} (p q : α → Bool) (hpq : ∀ c, p c = true → q c = true) :
    ∀ l : List α, (l.takeWhile q).dropWhile p = (l.dropWhile p).takeWhile q
  | [] => rfl
  | a :: l => by
    by_cases hp : p a = true
    · rw [List.takeWhile_cons_of_pos (hpq a hp), List.dropWhile_cons_of_pos hp,
        List.dropWhile_cons_of_pos hp]
      exact takeWhile_dropWhile_comm p q hpq l
    · rw [List.dropWhile_cons_of_neg hp]
      by_cases hq : q a = true
      · rw [List.takeWhile_cons_of_pos hq, List.dropWhile_cons_of_neg hp]
      · rw [List.takeWhile_cons_of_neg hq]
        rfl

theorem takeWhile_takeWhile_of_imp {α : Type} (p q : α → Bool)
    (hpq : ∀ c, p c = true → q c = true) :
    ∀ l : List α, (l.takeWhile q).takeWhile p = l.takeWhile p
  | [] => rfl
  | a :: l => by
    by_cases hp : p a = true
    · rw [List.takeWhile_cons_of_pos (hpq a hp), List.takeWhile_cons_of_pos hp,
        List.takeWhile_cons_of_pos hp, takeWhile_takeWhile_of_imp p q hpq l]
    · rw [List.takeWhile_cons_of_neg hp]
      by_cases hq : q a = true
      · rw [List.takeWhile_cons_of_pos hq, List.takeWhile_cons_of_neg hp]
      · rw [List.takeWhile_cons_of_neg hq]
        rfl

theorem isDelim_ne_zero (c : Nat) (h : isDelim c = true) : (c != 0) = true := by
  simp only [isDelim, DELIM, List.contains_cons, List.contains_nil, Bool.or_false,
    Bool.or_eq_true, beq_iff_eq] at h
  simp only [bne_iff_ne, ne_eq]
  omega

theorem isTok_ne_zero (c : Nat) (h : isTok c = true) : (c != 0) = true := by
  simp only [isTok, Bool.and_eq_true] at h
  exact h.1

/-- The tokens of a buffer are those of the C string it starts with. -/
theorem tokens_takeWhile : ∀ (n : Nat) (l : List Nat), l.length ≤ n →
    tokens l = tokens (l.takeWhile (fun c => c != 0))
  | n, l, hn => by
    rw [tokens_eq l, tokens_eq (l.takeWhile (fun c => c != 0)),
      takeWhile_dropWhile_comm isDelim _ isDelim_ne_zero]
    have h1 := length_dropWhile_le isDelim l
    cases hm : l.dropWhile isDelim with
    | nil => rfl
    | cons c r =>
      rw [hm] at h1
      by_cases hc : c = 0
      · subst hc
        rfl
      · rw [List.takeWhile_cons_of_pos (by simpa using hc)]
        simp only [if_neg hc]
        rw [← List.takeWhile_cons_of_pos (p := fun c => c != 0) (a := c) (l := r)
          (by simpa using hc)]
        rw [takeWhile_takeWhile_of_imp isTok _ isTok_ne_zero,
          takeWhile_dropWhile_comm isTok _ isTok_ne_zero]
        have h2 := length_dropWhile_le isTok (c :: r)
        cases hm2 : (c :: r).dropWhile isTok with
        | nil => rfl
        | cons d r2 =>
          rw [hm2] at h2
          simp only [List.length_cons] at h1 h2
          by_cases hd : d = 0
          · subst hd
            rfl
          · have e : List.takeWhile (fun c => c != 0) (d :: r2)
                = d :: List.takeWhile (fun c => c != 0) r2 :=
              List.takeWhile_cons_of_pos (by simpa using hd)
            rw [e]
            simp only [if_neg hd]
            cases n with
            | zero => omega
            | succ n => rw [tokens_takeWhile n r2 (by omega)]

/-- The token stream at a cursor is that of the C string at the cursor. -/
theorem stream_eq_cstr (st : State) (p : Ptr) : stream st p = tokens (cstr st p) := by
  cases p with
  | null => rfl
  | line o => exact tokens_takeWhile _ _ (Nat.le_refl _)
  | arena o => exact tokens_takeWhile _ _ (Nat.le_refl _)

/-! ## Writing to the arena -/

theorem blit_prefix_length (a : List Nat) (off : Nat) :
    (a.take off ++ List.replicate (off - a.length) 0).length = off := by
  simp only [List.length_append, List.length_take, List.length_replicate]
  omega

theorem blit_drop_self (a : List Nat) (off : Nat) (bs : List Nat) :
    (blit a off bs).drop off = bs ++ a.drop (off + bs.length) := by
  unfold blit
  rw [List.append_assoc, List.drop_left' (blit_prefix_length a off)]

/-- Two writes that follow each other are one write. -/
theorem blit_blit (a : List Nat) (off : Nat) (b1 b2 : List Nat) :
    blit (blit a off b1) (off + b1.length) b2 = blit a off (b1 ++ b2) := by
  have hp := blit_prefix_length a off
  have e1 : blit a off b1
      = (a.take off ++ List.replicate (off - a.length) 0 ++ b1) ++ a.drop (off + b1.length) := rfl
  have hl : (a.take off ++ List.replicate (off - a.length) 0 ++ b1).length = off + b1.length := by
    rw [List.length_append, hp]
  have hlen : off + b1.length ≤ (blit a off b1).length := by
    rw [e1, List.length_append, hl]
    omega
  have e2 : (blit a off b1).take (off + b1.length)
      = a.take off ++ List.replicate (off - a.length) 0 ++ b1 := by
    rw [e1, List.take_left' hl]
  have e3 : (blit a off b1).drop (off + b1.length + b2.length)
      = a.drop (off + (b1 ++ b2).length) := by
    rw [e1, ← List.drop_drop, List.drop_left' hl, List.drop_drop, List.length_append,
      Nat.add_assoc]
  show (blit a off b1).take (off + b1.length)
      ++ List.replicate (off + b1.length - (blit a off b1).length) 0 ++ b2
      ++ (blit a off b1).drop (off + b1.length + b2.length) = _
  rw [e2, e3, Nat.sub_eq_zero_of_le hlen]
  simp only [blit, List.replicate_zero, List.append_nil, List.append_assoc]

/-- A write at `off` commutes with dropping the bytes before an offset `k ≤ off`. -/
theorem blit_drop (a : List Nat) (off k : Nat) (bs : List Nat) (h : k ≤ off) :
    (blit a off bs).drop k = blit (a.drop k) (off - k) bs := by
  unfold blit
  have e1 : (a.take off ++ List.replicate (off - a.length) 0).drop k
      = (a.drop k).take (off - k) ++ List.replicate (off - k - (a.drop k).length) 0 := by
    rw [List.drop_append_eq_append_drop, List.drop_take, List.drop_replicate]
    congr 2
    simp only [List.length_take, List.length_drop]
    omega
  have hk : k ≤ (a.take off ++ List.replicate (off - a.length) 0).length := by
    rw [blit_prefix_length]
    exact h
  rw [List.append_assoc (a.take off ++ List.replicate (off - a.length) 0) bs,
    List.drop_append_of_le_length hk, e1, List.drop_drop,
    show k + (off - k + bs.length) = off + bs.length by omega]
  simp only [List.append_assoc]

theorem takeWhile_prefix_zero (c x : List Nat) (hc : ∀ b ∈ c, (b != 0) = true) :
    (c ++ 0 :: x).takeWhile (fun b => b != 0) = c := by
  rw [List.takeWhile_append_of_pos hc, List.takeWhile_cons_of_neg (by simp), List.append_nil]

theorem take_pad_split : ∀ (l : List Nat) (m : Nat), (l.takeWhile (fun b => b != 0)).length < m →
    ∃ x, l.take m ++ List.replicate (m - l.length) 0 = l.takeWhile (fun b => b != 0) ++ 0 :: x
  | [], m, h => by
    cases m with
    | zero => simp at h
    | succ m => exact ⟨List.replicate m 0, by simp [List.replicate_succ]⟩
  | a :: l, m, h => by
    cases m with
    | zero => exact absurd h (Nat.not_lt_zero _)
    | succ m =>
      by_cases ha : (a != 0) = true
      · rw [List.takeWhile_cons_of_pos (p := fun b => b != 0) ha] at h ⊢
        obtain ⟨x, hx⟩ := take_pad_split l m (by simpa using h)
        refine ⟨x, ?_⟩
        rw [List.take_succ_cons, List.length_cons, Nat.add_sub_add_right, List.cons_append, hx,
          List.cons_append]
      · rw [List.takeWhile_cons_of_neg (p := fun b => b != 0) ha]
        have h0 : a = 0 := by simpa using ha
        subst h0
        exact ⟨l.take m ++ List.replicate (m + 1 - (l.length + 1)) 0, by
          rw [List.take_succ_cons, List.length_cons, List.cons_append, List.nil_append]⟩

/-- A write at or above the NUL that ends a C string does not change the string. -/
theorem cstrBuf_blit (a : List Nat) (nb o : Nat) (bs : List Nat) (h : strEnd a o < nb) :
    cstrBuf (blit a nb bs) o = cstrBuf a o := by
  unfold strEnd at h
  unfold cstrBuf at h ⊢
  rw [blit_drop a nb o bs (by omega)]
  obtain ⟨x, hx⟩ := take_pad_split (a.drop o) (nb - o) (by omega)
  unfold blit
  rw [hx, List.append_assoc, List.append_assoc, List.cons_append]
  exact takeWhile_prefix_zero _ _ (fun b hb => mem_takeWhile _ _ b hb)

theorem strEnd_blit (a : List Nat) (nb o : Nat) (bs : List Nat) (h : strEnd a o < nb) :
    strEnd (blit a nb bs) o = strEnd a o := by
  unfold strEnd
  rw [cstrBuf_blit a nb o bs h]

/-! ## The cursor stays below the free part of the arena -/

theorem takeWhile_length_mono {α : Type} (p q : α → Bool) (hpq : ∀ c, p c = true → q c = true) :
    ∀ l : List α, (l.takeWhile p).length ≤ (l.takeWhile q).length
  | [] => Nat.le_refl _
  | a :: l => by
    by_cases hp : p a = true
    · rw [List.takeWhile_cons_of_pos hp, List.takeWhile_cons_of_pos (hpq a hp)]
      exact Nat.succ_le_succ (takeWhile_length_mono p q hpq l)
    · rw [List.takeWhile_cons_of_neg hp]
      exact Nat.zero_le _

theorem takeWhile_drop {α : Type} (p : α → Bool) : ∀ (l : List α) (k : Nat),
    k ≤ (l.takeWhile p).length → (l.drop k).takeWhile p = (l.takeWhile p).drop k
  | _, 0, _ => rfl
  | [], _ + 1, _ => rfl
  | a :: l, k + 1, h => by
    by_cases hp : p a = true
    · rw [List.takeWhile_cons_of_pos hp] at h ⊢
      exact takeWhile_drop p l k (by simpa using h)
    · rw [List.takeWhile_cons_of_neg hp] at h
      exact absurd h (by simp)

theorem peek_strEnd (buf : List Nat) (o : Nat) : peek buf (strEnd buf o) = 0 := by
  unfold strEnd cstrBuf
  rw [peek_eq_headD, ← List.drop_drop, drop_length_takeWhile]
  cases h : (buf.drop o).dropWhile (fun c => c != 0) with
  | nil => rfl
  | cons c r =>
    have := dropWhile_head _ _ c r h
    simpa using this

/-- Inside a C string, the string that starts later ends at the same NUL. -/
theorem strEnd_mid (buf : List Nat) (o s : Nat) (h1 : o ≤ s) (h2 : s ≤ strEnd buf o) :
    strEnd buf s = strEnd buf o := by
  unfold strEnd cstrBuf at h2 ⊢
  have e : buf.drop s = (buf.drop o).drop (s - o) := by
    rw [List.drop_drop]
    congr 1
    omega
  rw [e, takeWhile_drop _ _ _ (by omega), List.length_drop]
  omega

/-- The call of `strtok_r` on a buffer leaves the cursor inside the C string it was in, and
writes only inside that string. -/
theorem strtokBuf_strEnd (buf : List Nat) (o : Nat) (t : Option Nat) (sv : Nat)
    (buf1 : List Nat) (h : strtokBuf buf o DELIM = (t, sv, buf1)) :
    o ≤ sv ∧ strEnd buf1 sv = strEnd buf o ∧ ∀ b, strEnd buf o < b → buf1.drop b = buf.drop b := by
  have hA : o + strspn buf o DELIM ≤ strEnd buf o := by
    rw [strspn_eq]
    unfold strEnd cstrBuf
    exact Nat.add_le_add_left (takeWhile_length_mono _ _ isDelim_ne_zero _) _
  have hB : ∀ s, o ≤ s → s ≤ strEnd buf o → s + strcspn buf s DELIM ≤ strEnd buf o := by
    intro s h1 h2
    rw [← strEnd_mid buf o s h1 h2, strcspn_eq]
    unfold strEnd cstrBuf
    exact Nat.add_le_add_left (takeWhile_length_mono _ _ isTok_ne_zero _) _
  unfold strtokBuf at h
  by_cases h1 : peek buf o = 0
  · rw [if_pos h1] at h
    simp only [Prod.mk.injEq] at h
    obtain ⟨-, rfl, rfl⟩ := h
    exact ⟨Nat.le_refl _, rfl, fun _ _ => rfl⟩
  · rw [if_neg h1] at h
    simp only at h
    by_cases h2 : peek buf (o + strspn buf o DELIM) = 0
    · rw [if_pos h2] at h
      simp only [Prod.mk.injEq] at h
      obtain ⟨-, rfl, rfl⟩ := h
      exact ⟨Nat.le_add_right _ _, strEnd_mid buf o _ (Nat.le_add_right _ _) hA,
        fun _ _ => rfl⟩
    · rw [if_neg h2] at h
      have hC := hB _ (Nat.le_add_right _ _) hA
      by_cases h3 : peek buf (o + strspn buf o DELIM
          + strcspn buf (o + strspn buf o DELIM) DELIM) = 0
      · rw [if_pos h3] at h
        simp only [Prod.mk.injEq] at h
        obtain ⟨-, rfl, rfl⟩ := h
        exact ⟨by omega, strEnd_mid buf o _ (by omega) hC, fun _ _ => rfl⟩
      · rw [if_neg h3] at h
        simp only [Prod.mk.injEq] at h
        obtain ⟨-, rfl, rfl⟩ := h
        have hne : o + strspn buf o DELIM + strcspn buf (o + strspn buf o DELIM) DELIM
            ≠ strEnd buf o := by
          intro he
          rw [he, peek_strEnd] at h3
          exact h3 rfl
        refine ⟨by omega, ?_, ?_⟩
        · rw [← strEnd_mid buf o (o + strspn buf o DELIM
            + strcspn buf (o + strspn buf o DELIM) DELIM + 1) (by omega) (by omega)]
          unfold strEnd cstrBuf
          rw [List.drop_set_of_lt _ _ (by omega)]
        · intro b hb
          rw [List.drop_set_of_lt _ _ (by omega)]

theorem strtok_r_below (b : Nat) (st : State) (ip save : Ptr) (tok : Option Ptr) (p1 : Ptr)
    (st1 : State) (hb : below b st (cursor ip save))
    (h : strtok_r st ip DELIM save = (tok, p1, st1)) :
    below b st1 p1 ∧ st1.arena.drop b = st.arena.drop b := by
  rw [strtok_r_cursor] at h
  generalize cursor ip save = c at hb h
  unfold strtok_r at h
  cases c with
  | null =>
    simp only [if_true, Prod.mk.injEq] at h
    obtain ⟨-, rfl, rfl⟩ := h
    exact ⟨trivial, rfl⟩
  | line o =>
    simp only [if_true, Prod.mk.injEq] at h
    obtain ⟨-, rfl, rfl⟩ := h
    exact ⟨trivial, rfl⟩
  | arena o =>
    rcases hx : strtokBuf st.arena o DELIM with ⟨t, sv, buf1⟩
    simp only [if_true, hx, Prod.mk.injEq] at h
    obtain ⟨-, rfl, rfl⟩ := h
    have hy := strtokBuf_strEnd st.arena o t sv buf1 hx
    simp only [below] at hb ⊢
    exact ⟨by rw [hy.2.1]; exact hb, hy.2.2 b hb⟩

theorem skipLoop_below (b : Nat) : ∀ (n : Nat) (st : State) (p : Ptr), below b st p →
    (skipLoop n st p).sat (fun r => below b r.1 r.2 ∧ r.1.arena.drop b = st.arena.drop b)
      (fun _ => True)
  | 0, _, _, _ => trivial
  | n + 1, st, p, hb => by
    unfold skipLoop
    have hk := fun tok p1 st1 => strtok_r_below b st .null p tok p1 st1 hb
    generalize strtok_r st .null DELIM p = x at hk
    obtain ⟨tok, p1, st1⟩ := x
    have hk1 := hk tok p1 st1 rfl
    cases tok with
    | none => exact hk1
    | some t =>
      simp only
      split
      · exact hk1
      · exact Res.sat_mono (skipLoop_below b n st1 p1 hk1.1)
          (fun r hr => ⟨hr.1, hr.2.trans hk1.2⟩) (fun _ h => h)

theorem skip_comment_below (b : Nat) (st : State) (p : Ptr) (st1 : State) (p1 : Ptr)
    (hb : below b st p) (h : skip_comment st p = .ok (st1, p1)) :
    below b st1 p1 ∧ st1.arena.drop b = st.arena.drop b := by
  have := skipLoop_below b (loopFuel st) st p hb
  unfold skip_comment at h
  rw [h] at this
  exact this

/-- A write to the arena at or above `b` keeps the token stream at a cursor that is below
`b`. -/
theorem stream_blit (b : Nat) (st : State) (p : Ptr) (nb nb1 : Nat) (bs : List Nat)
    (d : List Word) (hb : below b st p) (hnb : b ≤ nb) :
    stream { st with arena := blit st.arena nb bs, nextb := nb1, dict := d } p = stream st p
    ∧ below b { st with arena := blit st.arena nb bs, nextb := nb1, dict := d } p := by
  cases p with
  | null => exact ⟨rfl, trivial⟩
  | line o => exact ⟨rfl, trivial⟩
  | arena o =>
    simp only [below] at hb ⊢
    refine ⟨?_, ?_⟩
    · rw [stream_eq_cstr, stream_eq_cstr]
      simp only [cstr]
      rw [cstrBuf_blit _ _ _ _ (by omega)]
    · rw [strEnd_blit _ _ _ _ (by omega)]
      exact hb

theorem bodyOf_comment : ∀ ts : List (List Nat), bodyOf true ts = bodyOf false (dropComment ts)
  | [] => rfl
  | t :: ts => by
    rw [dropComment_cons, bodyOf.eq_2]
    by_cases h : t = bytes "*/"
    · rw [if_pos h, if_pos h]
    · rw [if_neg h, if_neg h]
      exact bodyOf_comment ts

theorem afterDef_comment : ∀ ts : List (List Nat),
    afterDef true ts = afterDef false (dropComment ts)
  | [] => rfl
  | t :: ts => by
    rw [dropComment_cons, afterDef.eq_2]
    by_cases h : t = bytes "*/"
    · rw [if_pos h, if_pos h]
    · rw [if_neg h, if_neg h]
      exact afterDef_comment ts

theorem blit_nil (a : List Nat) (off : Nat) (h : off ≤ a.length) : blit a off [] = a := by
  unfold blit
  rw [Nat.sub_eq_zero_of_le h]
  simp

theorem blit_length_ge (a : List Nat) (off : Nat) (bs : List Nat) :
    off + bs.length ≤ (blit a off bs).length := by
  unfold blit
  rw [List.length_append, List.length_append, blit_prefix_length]
  omega

theorem render_length_cons (t : List Nat) (ts : List (List Nat)) :
    (render (t :: ts)).length = t.length + 1 + (render ts).length := by
  simp only [render, List.length_append, List.length_cons]
  omega

theorem render_cons (t : List Nat) (ts : List (List Nat)) :
    render (t :: ts) = (t ++ [32]) ++ render ts := by
  simp [render]

/-- The token loop of `compile_word` on a token stream, read at a cursor below `b` while the
arena is written from `nextb ≥ b` on.  When every token to store passes the arena check, the
loop returns: the tokens of `bodyOf` are stored at `nextb`, each followed by a space, and the
cursor is left on `afterDef`.  Otherwise the process dies of a full arena. -/
theorem compileLoop_stream (b : Nat) : ∀ (n : Nat) (st : State) (p : Ptr),
    (stream st p).length < n → below b st p → b ≤ st.nextb → st.nextb ≤ st.arena.length →
    (fits st.nextb (bodyOf false (stream st p)) = true →
      ∃ st1 p1, compileLoop n st p = .ok (st1, p1)
        ∧ stream st1 p1 = afterDef false (stream st p)
        ∧ sameRegs st st1
        ∧ st1.nextb = st.nextb + (render (bodyOf false (stream st p))).length
        ∧ st1.arena.drop b
            = blit (st.arena.drop b) (st.nextb - b) (render (bodyOf false (stream st p)))
        ∧ below b st1 p1 ∧ st1.nextb ≤ st1.arena.length)
    ∧ (fits st.nextb (bodyOf false (stream st p)) = false →
      compileLoop n st p = die "compile arena full" st)
  | 0, _, _, h, _, _, _ => absurd h (Nat.not_lt_zero _)
  | n + 1, st, p, h, hb, hnb, hlen => by
    unfold compileLoop
    have hU : st.nextb - b ≤ (st.arena.drop b).length := by
      rw [List.length_drop]
      omega
    cases hs : stream st p with
    | nil =>
      obtain ⟨p1, h1, h2, -⟩ := strtok_r_end st p hs
      have hk := strtok_r_below b st .null p _ _ _ hb h1
      rw [h1]
      refine ⟨fun _ => ⟨st, p1, rfl, h2, sameRegs_refl st, rfl, ?_, hk.1, hlen⟩, fun hf => ?_⟩
      · exact (blit_nil _ _ hU).symm
      · cases hf
    | cons t ts =>
      obtain ⟨tok, p1, st1, h1, h2, h3, h4, h5⟩ := strtok_r_next st p t ts hs
      have hk := strtok_r_below b st .null p _ _ _ hb h1
      obtain ⟨hreg, hnx, -, -, -, hal⟩ := h4
      have hout : st1.out = st.out := hreg.2.2.2.2.2.2.1
      rw [h1]
      simp only [h2]
      rw [hs] at h
      simp only [List.length_cons] at h
      by_cases hsemi : t = bytes ";"
      · rw [if_pos hsemi, bodyOf.eq_3, if_pos hsemi, afterDef.eq_3, if_pos hsemi]
        refine ⟨fun _ => ⟨st1, p1, rfl, h3, hreg, by rw [hnx]; rfl, ?_, hk.1,
          by rw [hnx, hal]; exact hlen⟩, fun hf => ?_⟩
        · rw [hk.2]
          exact (blit_nil _ _ hU).symm
        · cases hf
      · rw [if_neg hsemi, bodyOf.eq_3, if_neg hsemi, afterDef.eq_3, if_neg hsemi]
        by_cases hc : t = bytes "/*"
        · rw [if_pos hc, if_pos hc, if_pos hc]
          obtain ⟨st2, p2, e1, e2, e3, e4⟩ := skip_comment_stream st1 p1
          have hk2 := skip_comment_below b st1 p1 st2 p2 hk.1 e1
          obtain ⟨greg, gnx, -, -, -, gal⟩ := e3
          rw [e1, Res.ok_bind]
          rw [h3] at e2
          have ih := compileLoop_stream b n st2 p2
            (by rw [e2]; have := dropComment_length_le ts; omega) hk2.1
            (by rw [gnx, hnx]; exact hnb) (by rw [gnx, hnx, gal, hal]; exact hlen)
          rw [e2, gnx, hnx, ← bodyOf_comment, ← afterDef_comment, hk2.2, hk.2] at ih
          refine ⟨fun hf => ?_, fun hf => ?_⟩
          · obtain ⟨st3, p3, f1, f2, f3, f4, f5, f6, f7⟩ := ih.1 hf
            exact ⟨st3, p3, f1, f2, sameRegs_trans hreg (sameRegs_trans greg f3), f4, f5, f6, f7⟩
          · rw [ih.2 hf]
            simp only [die, greg.2.2.2.2.2.2.1, hout]
        · rw [if_neg hc, if_neg hc, if_neg hc, fits, hnx]
          by_cases hfull : st.nextb + t.length + 2 ≥ BUFSZ
          · rw [if_pos hfull]
            refine ⟨fun hf => ?_, fun _ => ?_⟩
            · simp only [Bool.and_eq_true, decide_eq_true_eq] at hf
              omega
            · simp only [die, hout]
          · rw [if_neg hfull]
            have hsb := stream_blit b st1 p1 st.nextb (st.nextb + t.length + 1) (t ++ [32])
              st1.dict hk.1 hnb
            have ih := compileLoop_stream b n
              { st1 with arena := blit st1.arena st.nextb (t ++ [32]),
                         nextb := st.nextb + t.length + 1 } p1
              (by rw [hsb.1, h3]; omega) hsb.2 (by simp only; omega)
              (by
                have := blit_length_ge st1.arena st.nextb (t ++ [32])
                simp only [List.length_append, List.length_singleton] at this ⊢
                omega)
            rw [hsb.1, h3] at ih
            simp only at ih
            rw [blit_drop _ _ _ _ hnb, hk.2] at ih
            have hdec : decide (st.nextb + t.length + 2 < BUFSZ) = true := by
              simp only [decide_eq_true_eq]
              omega
            rw [hdec, Bool.true_and]
            refine ⟨fun hf => ?_, fun hf => ?_⟩
            · obtain ⟨st3, p3, f1, f2, f3, f4, f5, f6, f7⟩ := ih.1 hf
              refine ⟨st3, p3, f1, f2, ?_, ?_, ?_, f6, f7⟩
              · exact sameRegs_trans hreg f3
              · rw [f4, render_length_cons]
                omega
              · rw [f5, render_cons, ← blit_blit (st.arena.drop b) (st.nextb - b) (t ++ [32])
                  (render (bodyOf false ts))]
                congr 1
                simp only [List.length_append, List.length_singleton]
                omega
            · rw [ih.2 hf]
              simp only [die, hout]

/-! ## What `compile_word` stores -/

theorem isTok_not_isDelim (c : Nat) (h : isTok c = true) : isDelim c = false := by
  simp only [isTok, Bool.and_eq_true, Bool.not_eq_true'] at h
  exact h.2

/-- The tokens of a stored body are the tokens that were stored. -/
theorem tokens_render (x : List Nat) : ∀ ts : List (List Nat),
    (∀ t ∈ ts, t ≠ [] ∧ ∀ c ∈ t, isTok c = true) → tokens (render ts ++ 0 :: x) = ts
  | [], _ => tokens_nil_of_headD _ rfl
  | t :: ts, h => by
    have ht := h t (List.mem_cons_self _ _)
    have ih := tokens_render x ts (fun u hu => h u (List.mem_cons_of_mem _ hu))
    cases t with
    | nil => exact absurd rfl ht.1
    | cons c t1 =>
      have hc := ht.2 c (List.mem_cons_self _ _)
      have e0 : render ((c :: t1) :: ts) ++ 0 :: x
          = c :: (t1 ++ 32 :: (render ts ++ 0 :: x)) := by
        simp [render]
      have e1 : (c :: t1 ++ 32 :: (render ts ++ 0 :: x)).takeWhile isTok = c :: t1 := by
        rw [List.takeWhile_append_of_pos ht.2, List.takeWhile_cons_of_neg (by decide),
          List.append_nil]
      have e2 : (c :: t1 ++ 32 :: (render ts ++ 0 :: x)).dropWhile isTok
          = 32 :: (render ts ++ 0 :: x) := by
        rw [List.dropWhile_append_of_pos ht.2, List.dropWhile_cons_of_neg (by decide)]
      rw [e0, tokens_eq, List.dropWhile_cons_of_neg (by rw [isTok_not_isDelim c hc]; simp)]
      have hc0 : c ≠ 0 := by simpa using isTok_ne_zero c hc
      simp only [if_neg hc0]
      rw [← List.cons_append, e1, e2]
      simp only [ih]
      rfl

theorem render_ne_zero : ∀ ts : List (List Nat),
    (∀ t ∈ ts, t ≠ [] ∧ ∀ c ∈ t, isTok c = true) → ∀ c ∈ render ts, (c != 0) = true
  | [], _, c, hc => by simp [render] at hc
  | t :: ts, h, c, hc => by
    simp only [render, List.mem_append, List.mem_cons] at hc
    rcases hc with hc | rfl | hc
    · exact isTok_ne_zero c ((h t (List.mem_cons_self _ _)).2 c hc)
    · rfl
    · exact render_ne_zero ts (fun u hu => h u (List.mem_cons_of_mem _ hu)) c hc

theorem mem_bodyOf : ∀ (inc : Bool) (ts : List (List Nat)) (t : List Nat),
    t ∈ bodyOf inc ts → t ∈ ts
  | _, [], _, h => by simp [bodyOf] at h
  | true, a :: ts, t, h => by
    rw [bodyOf.eq_2] at h
    split at h
    · exact List.mem_cons_of_mem _ (mem_bodyOf false ts t h)
    · exact List.mem_cons_of_mem _ (mem_bodyOf true ts t h)
  | false, a :: ts, t, h => by
    rw [bodyOf.eq_3] at h
    split at h
    · cases h
    · split at h
      · exact List.mem_cons_of_mem _ (mem_bodyOf true ts t h)
      · rcases List.mem_cons.mp h with rfl | h
        · exact List.mem_cons_self _ _
        · exact List.mem_cons_of_mem _ (mem_bodyOf false ts t h)

theorem stream_words (st : State) (p : Ptr) :
    ∀ t ∈ stream st p, t ≠ [] ∧ ∀ c ∈ t, isTok c = true :=
  tokens_words _

theorem blit_zero (a bs : List Nat) : blit a 0 bs = bs ++ a.drop bs.length := by
  simp [blit]

/-- The body of `compile_word` before `vanish()`, on a token stream `name S` read at a cursor
below `nextb`, with room in the dictionary.  When the name or a token to store fails the arena
check the process dies of a full arena.  Otherwise the name, a NUL, the tokens of `bodyOf S`
each followed by a space, and a NUL are stored at `nextb`; slot `dictlen` of the dictionary
points to the name and to the body; the cursor is left on `afterDef S`. -/
theorem compileDefine_stream (st : State) (p : Ptr) (name : List Nat) (S : List (List Nat))
    (hs : stream st p = name :: S) (hb : below st.nextb st p) (hd : st.dictlen < DICTSZ) :
    ((st.nextb + (name.length + 1) ≥ BUFSZ
        ∨ fits (st.nextb + (name.length + 1)) (bodyOf false S) = false) →
      compileDefine st p = die "compile arena full" st)
    ∧ (st.nextb + (name.length + 1) < BUFSZ →
        fits (st.nextb + (name.length + 1)) (bodyOf false S) = true →
      ∃ st1 p1, compileDefine st p = .ok (st1, p1)
        ∧ stream st1 p1 = afterDef false S
        ∧ st1.nextb = st.nextb + (name.length + 1) + (render (bodyOf false S)).length + 1
        ∧ st1.dictlen = st.dictlen + 1
        ∧ aget st1.dict st.dictlen = ⟨st.nextb, st.nextb + (name.length + 1)⟩
        ∧ (∀ i, i ≠ st.dictlen → aget st1.dict i = aget st.dict i)
        ∧ st1.arena.drop st.nextb
            = blit (st.arena.drop st.nextb) 0 (name ++ [0] ++ render (bodyOf false S) ++ [0])
        ∧ st1.dstack = st.dstack ∧ st1.cstack = st.cstack ∧ st1.lstack = st.lstack
        ∧ st1.ltop = st.ltop ∧ st1.out = st.out ∧ st1.inp = st.inp ∧ st1.nrand = st.nrand
        ∧ below st.nextb st1 p1) := by
  obtain ⟨tok, p1, st1, h1, h2, h3, h4, h5⟩ := strtok_r_next st p name S hs
  have hk := strtok_r_below st.nextb st .null p _ _ _ hb h1
  obtain ⟨hreg, hnx, -, -, -, hal⟩ := h4
  have hout : st1.out = st.out := hreg.2.2.2.2.2.2.1
  have hdl : st1.dictlen = st.dictlen := hreg.2.2.1
  unfold compileDefine
  rw [h1]
  simp only [h2, hnx]
  rw [if_neg (by rw [hdl]; exact Nat.not_le.mpr hd)]
  by_cases hnm : st.nextb + (name.length + 1) ≥ BUFSZ
  · rw [if_pos hnm]
    refine ⟨fun _ => by simp only [die, hout], fun h => absurd hnm (Nat.not_le.mpr h)⟩
  · rw [if_neg hnm]
    have hsb := stream_blit st.nextb st1 p1 st.nextb (st.nextb + (name.length + 1))
      (name ++ [0]) (aset st1.dict st1.dictlen ⟨st.nextb, (aget st1.dict st1.dictlen).body⟩)
      hk.1 (Nat.le_refl _)
    have ih := compileLoop_stream st.nextb (loopFuel st1)
      { st1 with dict := aset st1.dict st1.dictlen ⟨st.nextb, (aget st1.dict st1.dictlen).body⟩,
                 arena := blit st1.arena st.nextb (name ++ [0]),
                 nextb := st.nextb + (name.length + 1) } p1
      (by rw [hsb.1]; exact stream_length_lt st1 p1) hsb.2 (by simp only; omega)
      (by
        have := blit_length_ge st1.arena st.nextb (name ++ [0])
        simp only [List.length_append, List.length_singleton] at this ⊢
        omega)
    rw [hsb.1, h3] at ih
    simp only at ih
    rw [blit_drop _ _ _ _ (Nat.le_refl _), hk.2, Nat.sub_self] at ih
    refine ⟨fun hf => ?_, fun _ hf => ?_⟩
    · rcases hf with hf | hf
      · exact absurd hf hnm
      · rw [ih.2 hf]
        simp only [Res.dead_bind, die, hout]
    · obtain ⟨st3, p3, f1, f2, f3, f4, f5, f6, f7⟩ := ih.1 hf
      rw [f1, Res.ok_bind]
      obtain ⟨r1, r2, r3, r4, r5, r6, r7, r8, r9⟩ := f3
      obtain ⟨q1, q2, q3, q4, q5, q6, q7, q8, q9⟩ := hreg
      simp only at r1 r2 r3 r4 r5 r6 r7 r8 r9
      have hsb2 := stream_blit st.nextb st3 p3 st3.nextb (st3.nextb + 1) [0]
        (aset st3.dict st3.dictlen
          ⟨(aget st3.dict st3.dictlen).name, st.nextb + (name.length + 1)⟩)
        f6 (by omega)
      have hd3 : st3.dictlen = st.dictlen := r3.trans q3
      refine ⟨_, _, rfl, ?_, ?_, ?_, ?_, ?_, ?_, r1.trans q1, r4.trans q4, r5.trans q5,
        r6.trans q6, r7.trans q7, r8.trans q8, r9.trans q9, ?_⟩
      · exact hsb2.1.trans f2
      · simp only
        rw [f4]
      · simp only
        rw [hd3]
      · simp only
        rw [hd3, r2, hdl, aget_aset_same, aget_aset_same]
      · intro i hi
        simp only
        rw [hd3, r2, hdl, aget_aset_other _ _ _ _ hi, aget_aset_other _ _ _ _ hi, q2]
      · simp only
        rw [blit_drop _ _ _ _ (by omega), f5,
          show st.nextb + (name.length + 1) - st.nextb = 0 + (name ++ [0]).length by
            simp only [List.length_append, List.length_singleton]
            omega,
          blit_blit,
          show st3.nextb - st.nextb = 0 + (name ++ [0] ++ render (bodyOf false S)).length by
            rw [f4]
            simp only [List.length_append, List.length_singleton]
            omega,
          blit_blit]
      · exact hsb2.2

/-- A body in which every comment is closed and no `;` stands outside a comment: the loop of
`compile_word` stores the body without its comments and stops after the `;` that follows. -/
theorem bodyOf_terminated (rest : List (List Nat)) : ∀ (inc : Bool) (T : List (List Nat)),
    semiFree inc T = true → commentsClosed inc T = true →
    bodyOf inc (T ++ bytes ";" :: rest) = stripComments inc T
      ∧ afterDef inc (T ++ bytes ";" :: rest) = rest
  | true, [], _, h => by cases h
  | false, [], _, _ => by
    rw [List.nil_append, bodyOf.eq_3, afterDef.eq_3, if_pos rfl, if_pos rfl]
    exact ⟨rfl, rfl⟩
  | true, t :: T, h1, h2 => by
    rw [List.cons_append, bodyOf.eq_2, afterDef.eq_2, stripComments.eq_2]
    rw [semiFree.eq_2] at h1
    rw [commentsClosed.eq_2] at h2
    by_cases hc : t = bytes "*/"
    · rw [if_pos hc] at h1 h2 ⊢
      rw [if_pos hc, if_pos hc]
      exact bodyOf_terminated rest false T h1 h2
    · rw [if_neg hc] at h1 h2 ⊢
      rw [if_neg hc, if_neg hc]
      exact bodyOf_terminated rest true T h1 h2
  | false, t :: T, h1, h2 => by
    rw [List.cons_append, bodyOf.eq_3, afterDef.eq_3, stripComments.eq_3]
    rw [semiFree.eq_3] at h1
    rw [commentsClosed.eq_3] at h2
    by_cases hc : t = bytes "/*"
    · have hs : t ≠ bytes ";" := by rw [hc]; decide
      rw [if_pos hc] at h1 h2 ⊢
      rw [if_neg hs, if_neg hs, if_pos hc, if_pos hc]
      exact bodyOf_terminated rest true T h1 h2
    · rw [if_neg hc] at h1 h2 ⊢
      simp only [Bool.and_eq_true, bne_iff_ne, ne_eq] at h1
      rw [if_neg h1.1, if_neg h1.1, if_neg hc, if_neg hc]
      have ih := bodyOf_terminated rest false T h1.2 h2
      rw [ih.1, ih.2]
      exact ⟨rfl, rfl⟩

/-- The arena checks of `compile_word` all pass exactly when nothing is stored or the last
byte stored, with the NUL that follows, is below the end of the arena. -/
theorem fits_iff : ∀ (B : List (List Nat)) (nb : Nat),
    fits nb B = true ↔ B = [] ∨ nb + (render B).length + 1 < BUFSZ
  | [], _ => by simp [fits]
  | t :: ts, nb => by
    rw [fits, Bool.and_eq_true, decide_eq_true_eq, fits_iff ts (nb + t.length + 1),
      render_length_cons]
    constructor
    · rintro ⟨h1, h2 | h2⟩
      · subst h2
        right
        simp only [render, List.length_nil]
        omega
      · right
        omega
    · rintro (h | h)
      · cases h
      · exact ⟨by omega, Or.inr (by omega)⟩

theorem vanish_arena (rnd : Nat) (st : State) : (vanish rnd st).arena = st.arena := by
  unfold vanish
  split <;> rfl

theorem vanish_line (rnd : Nat) (st : State) : (vanish rnd st).line = st.line := by
  unfold vanish
  split <;> rfl

theorem vanish_nextb (rnd : Nat) (st : State) : (vanish rnd st).nextb = st.nextb := by
  unfold vanish
  split <;> rfl

theorem stream_vanish (rnd : Nat) (st : State) (p : Ptr) :
    stream (vanish rnd st) p = stream st p :=
  stream_congr st (vanish rnd st) p (fun _ => vanish_line rnd st) (fun _ => vanish_arena rnd st)

/-- The strings a definition leaves in the arena, read back. -/
theorem stored_strings (a U : List Nat) (nb : Nat) (name : List Nat) (B : List (List Nat))
    (ha : a.drop nb = blit U 0 (name ++ [0] ++ render B ++ [0]))
    (hn : ∀ c ∈ name, isTok c = true)
    (hB : ∀ t ∈ B, t ≠ [] ∧ ∀ c ∈ t, isTok c = true) :
    cstrBuf a nb = name ∧ cstrBuf a (nb + (name.length + 1)) = render B
      ∧ tokens (a.drop (nb + (name.length + 1))) = B := by
  rw [blit_zero] at ha
  generalize U.drop (name ++ [0] ++ render B ++ [0]).length = tl at ha
  have e1 : a.drop nb = name ++ 0 :: (render B ++ 0 :: tl) := by
    rw [ha]
    simp
  have e2 : a.drop (nb + (name.length + 1)) = render B ++ 0 :: tl := by
    rw [← List.drop_drop, e1, List.drop_append]
    rfl
  refine ⟨?_, ?_, ?_⟩
  · unfold cstrBuf
    rw [e1]
    exact takeWhile_prefix_zero _ _ (fun c hc => isTok_ne_zero c (hn c hc))
  · unfold cstrBuf
    rw [e2]
    exact takeWhile_prefix_zero _ _ (render_ne_zero B hB)
  · rw [e2]
    exact tokens_render _ B hB

/-- C14: the compiled body is the tokens of the definition without comments and without the
terminator.  Take a token stream `name t1 ... tk ; rest` after a `:`, read at a cursor in the
line buffer or in the arena below `nextb`, in which no `ti` outside a comment is `;` and the `;`
shown is the terminator, that is, it stands outside every comment: each comment opened among the
`ti` is closed among them.  With room in the dictionary and in the arena, `compile_word`
returns.  Before its final `vanish()` the dictionary has one more entry, in slot `dictlen`: its
name is the string `name`, its body is the string made of the tokens of `stripComments` (the
`ti` without each span from a `/*` through the first following `*/`), in their order, each
followed by a space, so that the tokens of the body are exactly those; the cursor is left on
`rest`.  The final `vanish()` touches neither the arena nor the cursor: it moves the new entry
to the slot it erases, or erases the new entry itself when it draws the last slot. -/
theorem compiled_body (rnd : Nat) (st : State) (p : Ptr) (name : List Nat)
    (T rest : List (List Nat))
    (hs : stream st p = name :: (T ++ bytes ";" :: rest))
    (hsemi : semiFree false T = true) (hclosed : commentsClosed false T = true)
    (hb : below st.nextb st p) (hd : st.dictlen < DICTSZ)
    (hroom : st.nextb + (name.length + 1) + (render (stripComments false T)).length + 1
      < BUFSZ) :
    ∃ st1 p1, compileDefine st p = .ok (st1, p1)
      ∧ compile_word rnd st p = .ok (vanish rnd st1, p1)
      ∧ st1.dictlen = st.dictlen + 1
      ∧ cstrBuf st1.arena (aget st1.dict st.dictlen).name = name
      ∧ cstrBuf st1.arena (aget st1.dict st.dictlen).body = render (stripComments false T)
      ∧ tokens (st1.arena.drop (aget st1.dict st.dictlen).body) = stripComments false T
      ∧ stream st1 p1 = rest
      ∧ (vanish rnd st1).arena = st1.arena
      ∧ stream (vanish rnd st1) p1 = rest
      ∧ (vanish rnd st1).dictlen = st.dictlen
      ∧ (rnd % (st.dictlen + 1) < st.dictlen →
          aget (vanish rnd st1).dict (rnd % (st.dictlen + 1)) = aget st1.dict st.dictlen) := by
  obtain ⟨hB, hA⟩ := bodyOf_terminated rest false T hsemi hclosed
  have hw := stream_words st p
  rw [hs] at hw
  have hfit : fits (st.nextb + (name.length + 1)) (bodyOf false (T ++ bytes ";" :: rest))
      = true := by
    rw [hB, fits_iff]
    exact Or.inr (by omega)
  obtain ⟨st1, p1, h1, h2, h3, h4, h5, h6, h7, -, -, -, -, -, -, -, -⟩ :=
    (compileDefine_stream st p name _ hs hb hd).2 (by omega) hfit
  rw [hB] at h7
  rw [hA] at h2
  have hstr := stored_strings st1.arena _ st.nextb name (stripComments false T) h7
    (hw name (List.mem_cons_self _ _)).2
    (fun t ht => hw t (List.mem_cons_of_mem _ (by
      rw [← hB] at ht
      exact mem_bodyOf false _ t ht)))
  have hv : vanish rnd st1
      = { st1 with dictlen := st.dictlen,
                   dict := aset st1.dict (rnd % (st.dictlen + 1)) (aget st1.dict st.dictlen),
                   nrand := st1.nrand + 1 } := by
    unfold vanish
    rw [if_neg (by omega)]
    simp only [h4, Nat.add_sub_cancel]
  refine ⟨st1, p1, h1, ?_, h4, ?_, ?_, ?_, h2, vanish_arena rnd st1, ?_, ?_, ?_⟩
  · unfold compile_word
    rw [h1, Res.ok_bind]
  · rw [h5]
    exact hstr.1
  · rw [h5]
    exact hstr.2.1
  · rw [h5]
    exact hstr.2.2
  · rw [stream_vanish, h2]
  · rw [hv]
  · intro _
    rw [hv]
    exact aget_aset_same _ _ _

/-- C14, at a concrete input: in `: f /* 2 ; 3 */ 4 ; 5` the first `;` is inside a comment, the
terminator is the second one: `t1 ... tk` is `/* 2 ; 3 */ 4` and `rest` is `5`.  The body stored
under `f` is `4 `, and the cursor is left on `5`. -/
theorem compiled_body_witness :
    ∃ st1 p1, compileDefine (initial (bytes ": f /* 2 ; 3 */ 4 ; 5\n") []) (.line 1)
        = .ok (st1, p1)
      ∧ cstrBuf st1.arena (aget st1.dict 0).name = bytes "f"
      ∧ cstrBuf st1.arena (aget st1.dict 0).body = bytes "4 "
      ∧ tokens (st1.arena.drop (aget st1.dict 0).body) = [bytes "4"]
      ∧ stream st1 p1 = [bytes "5"] :=
  match compiled_body 0 (initial (bytes ": f /* 2 ; 3 */ 4 ; 5\n") []) (.line 1)
      (bytes "f") [bytes "/*", bytes "2", bytes ";", bytes "3", bytes "*/", bytes "4"]
      [bytes "5"] (by decide) (by decide) (by decide) trivial (by decide)
      (by decide) with
  | ⟨st1, p1, h1, _, _, h4, h5, h6, h7, _⟩ => ⟨st1, p1, h1, h4, h5, h6, h7⟩

/-! ## The tokens of `run`, one by one -/

/-- Every token is one of the words that work on the data stack and the streams only, one of
the six tokens of comments, loops and definitions, or a token `run` takes for a numeral or the
name of a word. -/
theorem token_cases (t : List Nat) :
    t ∈ simpleWords ∨ t = bytes "/*" ∨ t = bytes "begin" ∨ t = bytes "while"
      ∨ t = bytes "repeat" ∨ t = bytes ":" ∨ t = bytes ";" ∨ t ∉ builtins := by
  by_cases h : t ∈ builtins
  · simp only [builtins, List.mem_cons, List.mem_singleton, List.not_mem_nil, or_false] at h
    simp only [simpleWords, List.mem_cons, List.mem_singleton, List.not_mem_nil, or_false]
    tauto
  · exact Or.inr (Or.inr (Or.inr (Or.inr (Or.inr (Or.inr (Or.inr h))))))

theorem exec_comment (rnd : Nat) (save : Ptr) (st : State) :
    exec rnd (bytes "/*") save st
      = (skip_comment st save).bind (fun p => .ok (.cont .null p.2 p.1)) := by
  simp [exec, bytes]

theorem exec_colon (rnd : Nat) (save : Ptr) (st : State) :
    exec rnd (bytes ":") save st
      = (compile_word rnd st save).bind (fun p => .ok (.cont .null p.2 p.1)) := by
  simp [exec, bytes]

theorem exec_semi (rnd : Nat) (save : Ptr) (st : State) :
    exec rnd (bytes ";") save st = die "';' outside definition" st := by
  simp [exec, bytes]

theorem exec_repeat (rnd : Nat) (save : Ptr) (st : State) :
    exec rnd (bytes "repeat") save st
      = if st.ltop ≤ 0 then die "repeat without begin" st
        else .ok (.cont .null (aget st.lstack (st.ltop - 1)) st) := by
  simp [exec, bytes]

theorem exec_begin_eq (rnd : Nat) (save : Ptr) (st : State) :
    exec rnd (bytes "begin") save st
      = if st.ltop ≥ LOOPSZ then die "loop stack overflow" st
        else .ok (.cont .null save
          { st with lstack := aset st.lstack st.ltop save, ltop := st.ltop + 1 }) := by
  simp [exec, bytes]

theorem exec_while (rnd : Nat) (save : Ptr) (st : State) :
    exec rnd (bytes "while") save st
      = if st.ltop ≤ 0 then die "while without begin" st
        else
          (pop st).bind fun c =>
            if c.1 ≠ 0 then .ok (.cont .null save c.2)
            else
              (scanLoop (loopFuel c.2) { c.2 with ltop := c.2.ltop - 1 } save 1).bind fun p =>
                match p.2 with
                | none => die "while: missing matching 'repeat'" p.1
                | some tmp => .ok (.cont .null tmp p.1) := by
  simp [exec, bytes]
  try rfl

theorem memSame_refl (s : State) : memSame s s := ⟨rfl, rfl, rfl, rfl, rfl, rfl, rfl, rfl, rfl⟩

theorem pop_bind_keep {β : Type} (st0 st : State) (f : Int × State → Res β) (p : β → Prop)
    (h : memSame st0 st) (hf : ∀ a, memSame st0 a.2 → (f a).sat p simpleErr) :
    ((pop st).bind f).sat p simpleErr := by
  unfold pop
  split
  · exact Or.inl rfl
  · exact hf _ h

theorem push_bind_keep {β : Type} (st0 st : State) (v : Int) (f : State → Res β)
    (p : β → Prop) (h : memSame st0 st) (hf : ∀ a, memSame st0 a → (f a).sat p simpleErr) :
    ((push v st).bind f).sat p simpleErr := by
  unfold push
  split
  · exact Or.inr (Or.inl rfl)
  · exact hf _ h

/-- A word of `simpleWords` changes the data stack and the standard streams only, leaves the
cursor where it is, and dies only of a stack error or a division by zero. -/
theorem exec_simple (rnd : Nat) (t : List Nat) (save : Ptr) (st : State)
    (ht : t ∈ simpleWords) :
    (exec rnd t save st).sat (fun s => ∃ st1, s = .cont .null save st1 ∧ memSame st st1)
      simpleErr := by
  have h0 := memSame_refl st
  unfold exec
  iterate 23 (apply Res.sat_ite <;> intro _; swap)
  · simp only [simpleWords, List.mem_cons, List.mem_singleton, List.not_mem_nil, or_false] at ht
    tauto
  all_goals try (subst_vars; exact absurd ht (by decide))
  all_goals try (repeat' (first
    | refine pop_bind_keep st _ _ _ (by assumption) (fun _ _ => ?_)
    | refine push_bind_keep st _ _ _ _ (by assumption) (fun _ _ => ?_)
    | (apply Res.sat_ite <;> intro _)
    | exact Or.inr (Or.inr rfl)
    | exact Or.inl rfl
    | exact ⟨_, rfl, by assumption⟩
    | exact True.intro))
  all_goals (split <;> repeat' (first
    | refine pop_bind_keep st _ _ _ (by assumption) (fun _ _ => ?_)
    | refine push_bind_keep st _ _ _ _ (by assumption) (fun _ _ => ?_)
    | exact Or.inl rfl
    | exact ⟨_, rfl, by assumption⟩))

/-! ## C19: the arena offset -/

theorem strtok_r_nextb (st : State) (ip : Ptr) (save : Ptr) :
    (strtok_r st ip DELIM save).2.2.nextb = st.nextb := by
  unfold strtok_r
  split <;> rfl

theorem skip_comment_nextb (st : State) (p : Ptr) :
    (skip_comment st p).sat (fun r => r.1.nextb = st.nextb) (fun _ => True) := by
  obtain ⟨st1, p1, h1, -, h3, -⟩ := skip_comment_stream st p
  rw [h1]
  exact h3.2.1

theorem compileLoop_nextb_le : ∀ (n : Nat) (st : State) (p : Ptr),
    (compileLoop n st p).sat (fun r => st.nextb ≤ r.1.nextb) (fun _ => True)
  | 0, _, _ => trivial
  | n + 1, st, p => by
    have hs := strtok_r_nextb st .null p
    unfold compileLoop
    generalize strtok_r st .null DELIM p = x at hs
    obtain ⟨tok, sv, st1⟩ := x
    simp only at hs
    cases tok with
    | none => exact Nat.le_of_eq hs.symm
    | some t =>
      simp only
      split
      · exact Nat.le_of_eq hs.symm
      · split
        · refine Res.sat_bind (skip_comment_nextb st1 sv) (fun r hr => ?_)
          exact Res.sat_mono (compileLoop_nextb_le n r.1 r.2)
            (fun _ h => by rw [← hs, ← hr]; exact h) (fun _ h => h)
        · split
          · trivial
          · exact Res.sat_mono (compileLoop_nextb_le n _ sv)
              (fun _ h => by simp only at h; omega) (fun _ h => h)

theorem compileDefine_nextb_lt (st : State) (p : Ptr) :
    (compileDefine st p).sat (fun r => st.nextb < r.1.nextb) (fun _ => True) := by
  have hs := strtok_r_nextb st .null p
  unfold compileDefine
  generalize strtok_r st .null DELIM p = x at hs
  obtain ⟨tok, sv, st1⟩ := x
  simp only at hs
  cases tok with
  | none => trivial
  | some t =>
    simp only
    split
    · trivial
    · split
      · trivial
      · refine @Res.sat_bind _ _ _ _ (fun (r : State × Ptr) => st.nextb < r.1.nextb) _ _
          (Res.sat_mono (compileLoop_nextb_le _ _ sv) (fun r h => ?_) (fun _ h => h))
          (fun r hr => ?_)
        · simp only at h ⊢
          omega
        · simp only [Res.sat]
          omega

theorem compile_word_nextb_lt (rnd : Nat) (st : State) (p : Ptr) :
    (compile_word rnd st p).sat (fun r => st.nextb < r.1.nextb) (fun _ => True) := by
  unfold compile_word
  refine Res.sat_bind (compileDefine_nextb_lt st p) (fun r hr => ?_)
  simp only [Res.sat, vanish_nextb]
  exact hr

theorem render_length : ∀ B : List (List Nat),
    (render B).length = (B.map (fun t => t.length + 1)).sum
  | [] => rfl
  | t :: ts => by
    rw [render_length_cons, render_length ts, List.map_cons, List.sum_cons]

/-- A token other than `:` leaves the arena offset as it is; `:` moves it up. -/
theorem exec_nextb (rnd : Nat) (t : List Nat) (save : Ptr) (st : State) :
    (exec rnd t save st).sat
      (fun s => (t ≠ bytes ":" → s.state.nextb = st.nextb)
        ∧ (t = bytes ":" → st.nextb < s.state.nextb))
      (fun _ => True) := by
  rcases token_cases t with h | h | h | h | h | h | h | h
  · have hne : t ≠ bytes ":" := by
      intro he
      rw [he] at h
      exact absurd h (by decide)
    refine Res.sat_mono (exec_simple rnd t save st h) (fun s hs => ?_) (fun _ _ => trivial)
    obtain ⟨st1, rfl, hm⟩ := hs
    exact ⟨fun _ => hm.2.2.1, fun he => absurd he hne⟩
  · subst h
    rw [exec_comment]
    refine Res.sat_bind (skip_comment_nextb st save) (fun r hr => ?_)
    exact ⟨fun _ => hr, fun he => absurd he (by decide)⟩
  · subst h
    rw [exec_begin_eq]
    split
    · trivial
    · exact ⟨fun _ => rfl, fun he => absurd he (by decide)⟩
  · subst h
    rw [exec_while]
    split
    · trivial
    · unfold pop
      split
      · trivial
      · rename_i v ds hds
        simp only [Res.ok_bind]
        split
        · exact ⟨fun _ => rfl, fun he => absurd he (by decide)⟩
        · obtain ⟨st1, r, h1, h2, -, -⟩ := scanLoop_stream
            (loopFuel { st with dstack := ds })
            { st with dstack := ds, ltop := st.ltop - 1 } save 1
            (stream_length_lt { st with dstack := ds, ltop := st.ltop - 1 } save)
          rw [h1, Res.ok_bind]
          cases r with
          | none => trivial
          | some q => exact ⟨fun _ => h2.2.1, fun he => absurd he (by decide)⟩
  · subst h
    rw [exec_repeat]
    split
    · trivial
    · exact ⟨fun _ => rfl, fun he => absurd he (by decide)⟩
  · subst h
    rw [exec_colon]
    refine Res.sat_bind (compile_word_nextb_lt rnd st save) (fun r hr => ?_)
    exact ⟨fun hne => absurd rfl hne, fun _ => hr⟩
  · subst h
    rw [exec_semi]
    trivial
  · have hne : t ≠ bytes ":" := by
      intro he
      rw [he] at h
      exact absurd (by decide) h
    rw [exec_other rnd t save st h]
    split
    · unfold push
      split
      · trivial
      · exact ⟨fun _ => rfl, fun he => absurd he hne⟩
    · split
      · trivial
      · split
        · trivial
        · exact ⟨fun _ => rfl, fun he => absurd he hne⟩

/-- One iteration of `run` leaves the arena offset as it is unless its token is `:`, and never
moves it down. -/
theorem step_nextb (rnd : Nat) (ip save : Ptr) (st : State) :
    (step rnd ip save st).sat
      (fun s => st.nextb ≤ s.state.nextb
        ∧ ((stream st (cursor ip save)).head? ≠ some (bytes ":") → s.state.nextb = st.nextb))
      (fun _ => True) := by
  cases hs : stream st (cursor ip save) with
  | nil =>
    rw [step_stream_nil rnd ip save st hs]
    split
    · exact ⟨Nat.le_refl _, fun _ => rfl⟩
    · exact ⟨Nat.le_refl _, fun _ => rfl⟩
  | cons t ts =>
    obtain ⟨p1, st1, h1, -, h3, -⟩ := step_stream_cons rnd ip save st t ts hs
    rw [h1]
    refine Res.sat_mono (exec_nextb rnd t p1 st1) (fun s h => ?_) (fun _ _ => trivial)
    rw [← h3.2.1]
    refine ⟨?_, fun hne => h.1 (fun he => hne (by rw [he]; rfl))⟩
    by_cases he : t = bytes ":"
    · exact Nat.le_of_lt (h.2 he)
    · exact Nat.le_of_eq (h.1 he).symm

theorem runLoop_nextb (rand : Nat → Nat) : ∀ (fuel : Nat) (ip save : Ptr) (st : State),
    (runLoop rand fuel ip save st).sat (fun s => st.nextb ≤ s.nextb) (fun _ => True)
  | 0, _, _, _ => trivial
  | fuel + 1, ip, save, st => by
    have hs := step_nextb (rand st.nrand) ip save st
    unfold runLoop
    generalize step (rand st.nrand) ip save st = x at hs
    cases x with
    | ok r =>
      cases r with
      | cont ip1 save1 st1 =>
        exact Res.sat_mono (runLoop_nextb rand fuel ip1 save1 st1)
          (fun _ h => Nat.le_trans hs.1 h) (fun _ h => h)
      | ret st1 => exact hs.1
    | dead d => trivial
    | crash => trivial
    | outOfFuel => trivial

/-- What a definition does to the arena offset, on a token stream `name S` read at a cursor
below `nextb`, with room in the dictionary: it dies of a full arena, or returns with the offset
moved up by the bytes of the name, of the stored tokens, and of the two NUL. -/
theorem compile_word_stream (rnd : Nat) (st : State) (p : Ptr) (name : List Nat)
    (S : List (List Nat)) (hs : stream st p = name :: S) (hb : below st.nextb st p)
    (hd : st.dictlen < DICTSZ) :
    ((BUFSZ < st.nextb
          + ((name.length + 1) + ((bodyOf false S).map (fun t => t.length + 1)).sum + 1)
        ∨ (BUFSZ = st.nextb
          + ((name.length + 1) + ((bodyOf false S).map (fun t => t.length + 1)).sum + 1)
            ∧ bodyOf false S ≠ [])) →
      compile_word rnd st p = die "compile arena full" st)
    ∧ ((st.nextb + ((name.length + 1) + ((bodyOf false S).map (fun t => t.length + 1)).sum + 1)
          < BUFSZ
        ∨ (st.nextb
          + ((name.length + 1) + ((bodyOf false S).map (fun t => t.length + 1)).sum + 1) = BUFSZ
            ∧ bodyOf false S = [])) →
      ∃ st1 p1, compile_word rnd st p = .ok (st1, p1)
        ∧ st1.nextb = st.nextb
          + ((name.length + 1) + ((bodyOf false S).map (fun t => t.length + 1)).sum + 1)
        ∧ st1.dictlen = st.dictlen) := by
  have hcd := compileDefine_stream st p name S hs hb hd
  have hfit := fits_iff (bodyOf false S) (st.nextb + (name.length + 1))
  rw [← render_length]
  have hnil : bodyOf false S = [] → (render (bodyOf false S)).length = 0 := by
    intro h
    rw [h]
    rfl
  constructor
  · intro h
    unfold compile_word
    rw [hcd.1 ?_]
    · rfl
    · by_cases hk : st.nextb + (name.length + 1) ≥ BUFSZ
      · exact Or.inl hk
      · right
        cases hf : fits (st.nextb + (name.length + 1)) (bodyOf false S) with
        | false => rfl
        | true =>
          exfalso
          rcases hfit.mp hf with h1 | h1
          · have := hnil h1
            rcases h with h | h
            · omega
            · exact h.2 h1
          · omega
  · intro h
    have hk : st.nextb + (name.length + 1) < BUFSZ := by
      rcases h with h | h
      · omega
      · have := hnil h.2
        omega
    have hf : fits (st.nextb + (name.length + 1)) (bodyOf false S) = true := by
      rw [hfit]
      rcases h with h | h
      · exact Or.inr (by omega)
      · exact Or.inl h.2
    obtain ⟨st1, p1, h1, -, h3, h4, -⟩ := hcd.2 hk hf
    refine ⟨vanish rnd st1, p1, ?_, ?_, ?_⟩
    · unfold compile_word
      rw [h1]
      rfl
    · rw [vanish_nextb, h3]
      omega
    · rw [(vanish_quiet rnd st1).1, h4]
      omega

/-- C19: compiled-word storage is never reclaimed.  In every state an iteration of `run` never
moves the arena offset `nextb` down and leaves it as it is unless its token is `:`, and a run of
the loop of `run` never moves it down.  A definition `name S`, read at a cursor in the line
buffer or in the arena below `nextb` with room in the dictionary, moves the offset up by
`(length of name + 1) + the sum over the stored tokens of (length + 1) + 1` whenever it
returns, whatever word `vanish` erases (for every value `rnd` of the random source).  It
returns when the offset so moved stays below 65536, and also when it is exactly 65536 and no
token is stored; it dies of `compile arena full` when the offset so moved would exceed 65536,
or would be exactly 65536 with a token stored.  Hence once the offset is 65534 or more every
definition dies of `compile arena full`, though the dictionary has room. -/
theorem arena_never_reclaimed (rnd : Nat) (st : State) (p : Ptr) (name : List Nat)
    (S : List (List Nat)) (hs : stream st p = name :: S) (hb : below st.nextb st p)
    (hd : st.dictlen < DICTSZ) :
    (∀ (s0 : State) (r : Nat) (ip save : Ptr) (s : Step), step r ip save s0 = .ok s →
        s0.nextb ≤ s.state.nextb
        ∧ ((stream s0 (cursor ip save)).head? ≠ some (bytes ":") → s.state.nextb = s0.nextb))
    ∧ (∀ (s0 : State) (rand : Nat → Nat) (fuel : Nat) (ip save : Ptr) (s : State),
        runLoop rand fuel ip save s0 = .ok s → s0.nextb ≤ s.nextb)
    ∧ (∀ st1 p1, compile_word rnd st p = .ok (st1, p1) →
        st1.nextb = st.nextb
          + ((name.length + 1) + ((bodyOf false S).map (fun t => t.length + 1)).sum + 1))
    ∧ ((st.nextb + ((name.length + 1) + ((bodyOf false S).map (fun t => t.length + 1)).sum + 1)
          < BUFSZ
        ∨ (st.nextb
          + ((name.length + 1) + ((bodyOf false S).map (fun t => t.length + 1)).sum + 1) = BUFSZ
            ∧ bodyOf false S = [])) →
      ∃ st1 p1, compile_word rnd st p = .ok (st1, p1))
    ∧ ((BUFSZ < st.nextb
          + ((name.length + 1) + ((bodyOf false S).map (fun t => t.length + 1)).sum + 1)
        ∨ (BUFSZ = st.nextb
          + ((name.length + 1) + ((bodyOf false S).map (fun t => t.length + 1)).sum + 1)
            ∧ bodyOf false S ≠ [])) →
      compile_word rnd st p = .dead ⟨bytes "compile arena full\n", st.out⟩)
    ∧ (BUFSZ ≤ st.nextb + 2 →
      compile_word rnd st p = .dead ⟨bytes "compile arena full\n", st.out⟩) := by
  obtain ⟨hdead, hok⟩ := compile_word_stream rnd st p name S hs hb hd
  have hname : name ≠ [] := ((stream_words st p) name (by rw [hs]; exact List.mem_cons_self _ _)).1
  have hnl : 0 < name.length := List.length_pos.mpr hname
  refine ⟨?_, ?_, ?_, ?_, ?_, ?_⟩
  · intro s0 r ip save s h
    have := step_nextb r ip save s0
    rw [h] at this
    exact this
  · intro s0 rand fuel ip save s h
    have := runLoop_nextb rand fuel ip save s0
    rw [h] at this
    exact this
  · intro st1 p1 h
    by_cases hc : st.nextb
        + ((name.length + 1) + ((bodyOf false S).map (fun t => t.length + 1)).sum + 1) < BUFSZ
      ∨ (st.nextb
        + ((name.length + 1) + ((bodyOf false S).map (fun t => t.length + 1)).sum + 1) = BUFSZ
          ∧ bodyOf false S = [])
    · obtain ⟨st2, p2, h1, h2, -⟩ := hok hc
      rw [h1] at h
      cases h
      exact h2
    · rw [hdead (by
        by_cases hB : bodyOf false S = []
        · left
          rcases Nat.lt_trichotomy (st.nextb + ((name.length + 1)
            + ((bodyOf false S).map (fun t => t.length + 1)).sum + 1)) BUFSZ with h1 | h1 | h1
          · exact absurd (Or.inl h1) hc
          · exact absurd (Or.inr ⟨h1, hB⟩) hc
          · exact h1
        · rcases Nat.lt_trichotomy (st.nextb + ((name.length + 1)
            + ((bodyOf false S).map (fun t => t.length + 1)).sum + 1)) BUFSZ with h1 | h1 | h1
          · exact absurd (Or.inl h1) hc
          · exact Or.inr ⟨h1.symm, hB⟩
          · exact Or.inl h1)] at h
      cases h
  · intro hc
    obtain ⟨st1, p1, h1, -, -⟩ := hok hc
    exact ⟨st1, p1, h1⟩
  · intro hc
    rw [hdead hc]
    rfl
  · intro hc
    rw [hdead (Or.inl (by omega))]
    rfl

/-- C19, at a concrete input: from the initial state `: sq dup * ;` moves the arena offset
from 0 to 10, that is 3 bytes for the name, 4 and 2 for the tokens and 1 for the NUL. -/
theorem arena_never_reclaimed_witness :
    ∃ st1 p1, compile_word 0 (initial (bytes ": sq dup * ;\n") []) (.line 1) = .ok (st1, p1)
      ∧ st1.nextb = 10 :=
  match arena_never_reclaimed 0 (initial (bytes ": sq dup * ;\n") []) (.line 1) (bytes "sq")
      [bytes "dup", bytes "*", bytes ";"] (by decide) trivial (by decide) with
  | ⟨_, _, h3, h4, _⟩ =>
    match h4 (Or.inl (by decide)) with
    | ⟨st1, p1, h⟩ => ⟨st1, p1, h, (h3 st1 p1 h).trans (by decide)⟩

/-- C19 as stated fails at the boundary.  With the arena offset at 65533 the definition
`: x ;` adds 2 bytes for the name and 1 for the NUL of its empty body, so that the sum reaches
65536; yet the definition is accepted, and the offset becomes 65536. -/
theorem arena_threshold_counterexample :
    stream { initial (bytes ": x ;\n") [] with nextb := 65533 } (.line 1)
        = [bytes "x", bytes ";"]
    ∧ 65533 + (((bytes "x").length + 1) + 0 + 1) = 65536
    ∧ ∃ st1 p1, compile_word 0 { initial (bytes ": x ;\n") [] with nextb := 65533 } (.line 1)
          = .ok (st1, p1)
        ∧ st1.nextb = 65536 ∧ st1.dictlen = 0 := by
  refine ⟨by decide, by decide, ?_⟩
  obtain ⟨st1, p1, h1, h2, h3⟩ :=
    (compile_word_stream 0 { initial (bytes ": x ;\n") [] with nextb := 65533 } (.line 1)
      (bytes "x") [bytes ";"] (by decide) trivial (by decide)).2 (Or.inr ⟨by decide, by decide⟩)
  exact ⟨st1, p1, h1, h2.trans (by decide), h3⟩

/-! ## C20: termination on a line without `repeat` -/

theorem dropComment_suffix : ∀ ts : List (List Nat), dropComment ts <:+ ts
  | [] => List.suffix_refl _
  | t :: ts => by
    rw [dropComment_cons]
    split
    · exact List.suffix_cons _ _
    · exact (dropComment_suffix ts).trans (List.suffix_cons _ _)

theorem afterDef_suffix : ∀ (inc : Bool) (ts : List (List Nat)), afterDef inc ts <:+ ts
  | inc, [] => by
    cases inc <;> exact List.suffix_refl _
  | true, t :: ts => by
    rw [afterDef.eq_2]
    split
    · exact (afterDef_suffix false ts).trans (List.suffix_cons _ _)
    · exact (afterDef_suffix true ts).trans (List.suffix_cons _ _)
  | false, t :: ts => by
    rw [afterDef.eq_3]
    split
    · exact List.suffix_cons _ _
    · split
      · exact (afterDef_suffix true ts).trans (List.suffix_cons _ _)
      · exact (afterDef_suffix false ts).trans (List.suffix_cons _ _)

/-- Without a `repeat` token the scan of a false `while` finds nothing. -/
theorem seekRepeat_none : ∀ (inc : Bool) (d : Int) (ts : List (List Nat)),
    bytes "repeat" ∉ ts → seekRepeat inc d ts = none
  | inc, _, [], _ => by
    cases inc <;> rfl
  | true, d, t :: ts, h => by
    have h1 : bytes "repeat" ∉ ts := fun hm => h (List.mem_cons_of_mem _ hm)
    rw [seekRepeat.eq_2]
    split
    · exact seekRepeat_none false d ts h1
    · exact seekRepeat_none true d ts h1
  | false, d, t :: ts, h => by
    have h1 : bytes "repeat" ∉ ts := fun hm => h (List.mem_cons_of_mem _ hm)
    have h2 : t ≠ bytes "repeat" := fun he => h (by rw [he]; exact List.mem_cons_self _ _)
    rw [seekRepeat.eq_3, if_neg h2]
    split
    · exact seekRepeat_none true d ts h1
    · split
      · exact seekRepeat_none false _ ts h1
      · exact seekRepeat_none false d ts h1

theorem strtok_r_isLine (st : State) (p : Ptr) :
    (strtok_r st .null DELIM p).2.1.isLine = p.isLine := by
  unfold strtok_r
  cases p <;> rfl

theorem skipLoop_isLine : ∀ (n : Nat) (st : State) (p : Ptr),
    (skipLoop n st p).sat (fun r => r.2.isLine = p.isLine) (fun _ => True)
  | 0, _, _ => trivial
  | n + 1, st, p => by
    have hs := strtok_r_isLine st p
    unfold skipLoop
    generalize strtok_r st .null DELIM p = x at hs
    obtain ⟨tok, sv, st1⟩ := x
    simp only at hs
    cases tok with
    | none => exact hs
    | some t =>
      simp only
      split
      · exact hs
      · exact Res.sat_mono (skipLoop_isLine n st1 sv) (fun _ h => h.trans hs) (fun _ h => h)

theorem compileLoop_isLine : ∀ (n : Nat) (st : State) (p : Ptr),
    (compileLoop n st p).sat (fun r => r.2.isLine = p.isLine) (fun _ => True)
  | 0, _, _ => trivial
  | n + 1, st, p => by
    have hs := strtok_r_isLine st p
    unfold compileLoop
    generalize strtok_r st .null DELIM p = x at hs
    obtain ⟨tok, sv, st1⟩ := x
    simp only at hs
    cases tok with
    | none => exact hs
    | some t =>
      simp only
      split
      · exact hs
      · split
        · refine Res.sat_bind (skipLoop_isLine _ st1 sv) (fun r hr => ?_)
          exact Res.sat_mono (compileLoop_isLine n r.1 r.2) (fun _ h => h.trans (hr.trans hs))
            (fun _ h => h)
        · split
          · trivial
          · exact Res.sat_mono (compileLoop_isLine n _ sv) (fun _ h => h.trans hs)
              (fun _ h => h)

theorem compileDefine_isLine (st : State) (p : Ptr) :
    (compileDefine st p).sat (fun r => r.2.isLine = p.isLine) (fun _ => True) := by
  have hs := strtok_r_isLine st p
  unfold compileDefine
  generalize strtok_r st .null DELIM p = x at hs
  obtain ⟨tok, sv, st1⟩ := x
  simp only at hs
  cases tok with
  | none => trivial
  | some t =>
    simp only
    split
    · trivial
    · split
      · trivial
      · refine Res.sat_bind (compileLoop_isLine _ _ sv) (fun r hr => ?_)
        exact hr.trans hs

theorem vanish_cstack (rnd : Nat) (st : State) : (vanish rnd st).cstack = st.cstack := by
  unfold vanish
  split <;> rfl

/-- A definition at an exhausted stream is an empty definition. -/
theorem compileDefine_nil (st : State) (p : Ptr) (h : stream st p = []) :
    compileDefine st p = die "empty definition" st := by
  obtain ⟨p1, h1, -, -⟩ := strtok_r_end st p h
  unfold compileDefine
  rw [h1]

theorem below_of_isLine (b : Nat) (st : State) (p : Ptr) (h : p.isLine = true) :
    below b st p := by
  cases p with
  | null => trivial
  | line o => trivial
  | arena o => cases h

/-- A definition read in the line buffer with an empty dictionary and an empty call stack: the
process dies, or the definition returns with the dictionary and the call stack empty again and
the cursor further on in the line. -/
theorem compile_word_forward (rnd : Nat) (st : State) (p : Ptr) (hd : st.dictlen = 0)
    (hc : st.cstack = []) (hp : p.isLine = true) :
    (∃ d, compile_word rnd st p = .dead d)
    ∨ ∃ st1 p1, compile_word rnd st p = .ok (st1, p1) ∧ st1.dictlen = 0 ∧ st1.cstack = []
        ∧ p1.isLine = true ∧ stream st1 p1 <:+ stream st p := by
  cases hs : stream st p with
  | nil =>
    left
    unfold compile_word
    rw [compileDefine_nil st p hs]
    exact ⟨_, rfl⟩
  | cons name S =>
    have hcd := compileDefine_stream st p name S hs (below_of_isLine _ st p hp)
      (by rw [hd]; decide)
    have hil := compileDefine_isLine st p
    by_cases hk : st.nextb + (name.length + 1) < BUFSZ
      ∧ fits (st.nextb + (name.length + 1)) (bodyOf false S) = true
    · right
      obtain ⟨st1, p1, h1, h2, -, h4, -, -, -, -, h9, -⟩ := hcd.2 hk.1 hk.2
      rw [h1] at hil
      refine ⟨vanish rnd st1, p1, ?_, ?_, ?_, ?_, ?_⟩
      · unfold compile_word
        rw [h1]
        rfl
      · rw [(vanish_quiet rnd st1).1, h4, hd]
      · rw [vanish_cstack, h9, hc]
      · exact hil.trans hp
      · rw [stream_vanish, h2]
        exact (afterDef_suffix false S).trans (List.suffix_cons _ _)
    · left
      unfold compile_word
      rw [hcd.1 (by
        by_cases h1 : st.nextb + (name.length + 1) < BUFSZ
        · right
          cases hf : fits (st.nextb + (name.length + 1)) (bodyOf false S) with
          | false => rfl
          | true => exact absurd ⟨h1, hf⟩ hk
        · left
          omega)]
      exact ⟨_, rfl⟩

theorem pop_bind_total {β : Type} (st : State) (f : Int × State → Res β)
    (hf : ∀ a, f a ≠ .outOfFuel) : (pop st).bind f ≠ .outOfFuel := by
  unfold pop
  split
  · intro h
    cases h
  · exact hf _

theorem push_bind_total {β : Type} (st : State) (v : Int) (f : State → Res β)
    (hf : ∀ a, f a ≠ .outOfFuel) : (push v st).bind f ≠ .outOfFuel := by
  unfold push
  split
  · intro h
    cases h
  · exact hf _

theorem ite_total {β : Type} {c : Prop} [Decidable c] {x y : Res β}
    (hx : c → x ≠ .outOfFuel) (hy : ¬ c → y ≠ .outOfFuel) :
    (if c then x else y) ≠ .outOfFuel := by
  split
  · exact hx ‹_›
  · exact hy ‹_›

theorem die_total {β : Type} (msg : String) (st : State) :
    (die msg st : Res β) ≠ .outOfFuel := by
  intro h
  cases h

theorem ok_total {β : Type} (a : β) : (Res.ok a : Res β) ≠ .outOfFuel := by
  intro h
  cases h

theorem crash_total {β : Type} : (Res.crash : Res β) ≠ .outOfFuel := by
  intro h
  cases h

/-- A word of `simpleWords` returns or dies. -/
theorem exec_simple_total (rnd : Nat) (t : List Nat) (save : Ptr) (st : State)
    (ht : t ∈ simpleWords) : exec rnd t save st ≠ .outOfFuel := by
  unfold exec
  iterate 23 (apply ite_total <;> intro _; swap)
  · simp only [simpleWords, List.mem_cons, List.mem_singleton, List.not_mem_nil, or_false] at ht
    tauto
  all_goals try (subst_vars; exact absurd ht (by decide))
  all_goals try (repeat' (first
    | refine pop_bind_total _ _ (fun _ => ?_)
    | refine push_bind_total _ _ _ (fun _ => ?_)
    | (apply ite_total <;> intro _)
    | exact die_total _ _
    | exact ok_total _
    | exact crash_total))
  all_goals (split <;> repeat' (first
    | refine pop_bind_total _ _ (fun _ => ?_)
    | refine push_bind_total _ _ _ (fun _ => ?_)
    | exact die_total _ _
    | exact ok_total _))

theorem pop_bind_safe {β : Type} (st : State) (f : Int × State → Res β)
    (hf : ∀ a, f a ≠ .crash) : (pop st).bind f ≠ .crash := by
  unfold pop
  split
  · intro h
    cases h
  · exact hf _

theorem push_bind_safe {β : Type} (st : State) (v : Int) (f : State → Res β)
    (hf : ∀ a, f a ≠ .crash) : (push v st).bind f ≠ .crash := by
  unfold push
  split
  · intro h
    cases h
  · exact hf _

theorem ite_safe {β : Type} {c : Prop} [Decidable c] {x y : Res β}
    (hx : c → x ≠ .crash) (hy : ¬ c → y ≠ .crash) : (if c then x else y) ≠ .crash := by
  split
  · exact hx ‹_›
  · exact hy ‹_›

theorem die_safe {β : Type} (msg : String) (st : State) : (die msg st : Res β) ≠ .crash := by
  intro h
  cases h

theorem ok_safe {β : Type} (a : β) : (Res.ok a : Res β) ≠ .crash := by
  intro h
  cases h

/-- A word of `simpleWords` other than `/` does not crash. -/
theorem exec_simple_safe (rnd : Nat) (t : List Nat) (save : Ptr) (st : State)
    (ht : t ∈ simpleWords) (hdiv : t ≠ bytes "/") : exec rnd t save st ≠ .crash := by
  unfold exec
  iterate 23 (apply ite_safe <;> intro _; swap)
  · simp only [simpleWords, List.mem_cons, List.mem_singleton, List.not_mem_nil, or_false] at ht
    tauto
  all_goals try (subst_vars; exact absurd ht (by decide))
  all_goals try (subst_vars; exact absurd rfl hdiv)
  all_goals try (repeat' (first
    | refine pop_bind_safe _ _ (fun _ => ?_)
    | refine push_bind_safe _ _ _ (fun _ => ?_)
    | (apply ite_safe <;> intro _)
    | exact die_safe _ _
    | exact ok_safe _))
  all_goals (split <;> repeat' (first
    | refine pop_bind_safe _ _ (fun _ => ?_)
    | refine push_bind_safe _ _ _ (fun _ => ?_)
    | exact die_safe _ _
    | exact ok_safe _))

/-- The word `/` crashes exactly on the operands minimum cell and -1: the quotient overflows,
which traps. -/
theorem exec_div_crash (rnd : Nat) (save : Ptr) (st : State) :
    exec rnd (bytes "/") save st = .crash ↔ ∃ ds, st.dstack = -1 :: LONG_MIN :: ds := by
  cases st with
  | mk dstack dict dictlen arena nextb cstack lstack ltop line out inp nrand =>
    rcases dstack with _ | ⟨a, _ | ⟨b, ds⟩⟩
    · simp [exec, bytes, pop, die]
    · simp [exec, bytes, pop, die]
    · by_cases ha : a = 0
      · subst ha
        simp [exec, bytes, pop, die]
      · by_cases hov : b = LONG_MIN ∧ a = -1
        · obtain ⟨rfl, rfl⟩ := hov
          simp [exec, bytes, pop]
        · have hne : ¬ (a = -1 ∧ b = LONG_MIN) := fun h => hov ⟨h.2, h.1⟩
          simp only [exec, bytes, pop, push, Res.ok_bind]
          simp [ha, hov, hne]
          split <;> simp [die]

/-- A word of `simpleWords` dies, or crashes (the word `/` on the operands minimum cell and
-1), or returns with the cursor where it was and a state that differs in the data stack and the
standard streams only. -/
theorem exec_simple_cases (rnd : Nat) (t : List Nat) (save : Ptr) (st : State)
    (ht : t ∈ simpleWords) :
    (∃ d, exec rnd t save st = .dead d ∧ simpleErr d)
    ∨ (exec rnd t save st = .crash ∧ t = bytes "/" ∧ ∃ ds, st.dstack = -1 :: LONG_MIN :: ds)
    ∨ ∃ st1, exec rnd t save st = .ok (.cont .null save st1) ∧ memSame st st1 := by
  have h1 := exec_simple rnd t save st ht
  have h2 := exec_simple_total rnd t save st ht
  have h3 := exec_simple_safe rnd t save st ht
  have h4 := exec_div_crash rnd save st
  generalize hx : exec rnd t save st = x at h1 h2 h3
  cases x with
  | ok s =>
    obtain ⟨st1, rfl, hm⟩ := h1
    exact Or.inr (Or.inr ⟨st1, rfl, hm⟩)
  | dead d => exact Or.inl ⟨d, rfl, h1⟩
  | crash =>
    by_cases hdiv : t = bytes "/"
    · subst hdiv
      exact Or.inr (Or.inl ⟨rfl, rfl, h4.mp hx⟩)
    · exact absurd rfl (h3 hdiv)
  | outOfFuel => exact absurd rfl h2

theorem find_empty (st : State) (s : List Nat) (h : st.dictlen = 0) : find st s = -1 := by
  unfold find
  rw [h]
  rfl

theorem runLoop_crash (rand : Nat → Nat) (fuel : Nat) (ip save : Ptr) (st : State)
    (h : step (rand st.nrand) ip save st = .crash) :
    runLoop rand (fuel + 1) ip save st = .crash := by
  rw [runLoop, h]

/-- One iteration of `run` on a line without `repeat`, with an empty dictionary and an empty
call stack: the process dies, or crashes (the token is `/` and the operands are the minimum cell
and -1), or the cursor moves forward in the line and the dictionary and the call stack are empty
again. -/
theorem step_forward (rnd : Nat) (ip save : Ptr) (st : State) (t : List Nat)
    (ts : List (List Nat)) (hd : st.dictlen = 0) (hc : st.cstack = [])
    (hp : (cursor ip save).isLine = true) (hs : stream st (cursor ip save) = t :: ts)
    (hr : bytes "repeat" ∉ t :: ts) :
    (∃ d, step rnd ip save st = .dead d)
    ∨ (step rnd ip save st = .crash ∧ t = bytes "/" ∧ ∃ ds, st.dstack = -1 :: LONG_MIN :: ds)
    ∨ ∃ p1 st1, step rnd ip save st = .ok (.cont .null p1 st1) ∧ st1.dictlen = 0
        ∧ st1.cstack = [] ∧ p1.isLine = true ∧ stream st1 p1 <:+ ts := by
  obtain ⟨p1, st1, h1, h3, h4, h5⟩ := step_stream_cons rnd ip save st t ts hs
  have hd1 : st1.dictlen = 0 := h4.1.2.2.1.trans hd
  have hc1 : st1.cstack = [] := h4.1.2.2.2.1.trans hc
  have hp1 : p1.isLine = true := h5.trans hp
  have hrt : t ≠ bytes "repeat" := fun he => hr (by rw [he]; exact List.mem_cons_self _ _)
  have hrs : bytes "repeat" ∉ ts := fun hm => hr (List.mem_cons_of_mem _ hm)
  rw [h1]
  rcases token_cases t with h | h | h | h | h | h | h | h
  · rcases exec_simple_cases rnd t p1 st1 h with ⟨d, e, -⟩ | ⟨e, ht, ds, hds⟩ | ⟨st2, e, hm⟩
    · exact Or.inl ⟨d, e⟩
    · exact Or.inr (Or.inl ⟨e, ht, ds, by rw [← h4.1.1]; exact hds⟩)
    · refine Or.inr (Or.inr
        ⟨p1, st2, e, hm.2.2.2.2.1.trans hd1, hm.2.2.2.2.2.1.trans hc1, hp1, ?_⟩)
      rw [stream_congr st1 st2 p1 (fun _ => hm.1) (fun _ => hm.2.1), h3]
  · subst h
    rw [exec_comment]
    obtain ⟨st2, p2, e1, e2, e3, e4⟩ := skip_comment_stream st1 p1
    rw [e1, Res.ok_bind]
    refine Or.inr (Or.inr
      ⟨p2, st2, rfl, e3.1.2.2.1.trans hd1, e3.1.2.2.2.1.trans hc1, e4.trans hp1, ?_⟩)
    rw [e2, h3]
    exact dropComment_suffix ts
  · subst h
    rw [exec_begin_eq]
    split
    · exact Or.inl ⟨_, rfl⟩
    · exact Or.inr (Or.inr
            ⟨p1, _, rfl, hd1, hc1, hp1, by rw [← h3]; exact List.suffix_refl _⟩)
  · subst h
    rw [exec_while]
    split
    · exact Or.inl ⟨_, rfl⟩
    · unfold pop
      split
      · exact Or.inl ⟨_, rfl⟩
      · rename_i v ds hds
        simp only [Res.ok_bind]
        split
        · exact Or.inr (Or.inr
            ⟨p1, _, rfl, hd1, hc1, hp1, by rw [← h3]; exact List.suffix_refl _⟩)
        · obtain ⟨st2, r, e1, e2, e3, -⟩ := scanLoop_stream
            (loopFuel { st1 with dstack := ds })
            { st1 with dstack := ds, ltop := st1.ltop - 1 } p1 1
            (stream_length_lt { st1 with dstack := ds, ltop := st1.ltop - 1 } p1)
          rw [e1, Res.ok_bind]
          have hst : stream { st1 with dstack := ds, ltop := st1.ltop - 1 } p1 = ts := h3
          rw [hst, seekRepeat_none false 1 ts hrs] at e3
          cases r with
          | none => exact Or.inl ⟨_, rfl⟩
          | some q => cases e3
  · exact absurd h hrt
  · subst h
    rw [exec_colon]
    rcases compile_word_forward rnd st1 p1 hd1 hc1 hp1 with ⟨d, e⟩ | ⟨st2, p2, e, f1, f2, f3, f4⟩
    · rw [e]
      exact Or.inl ⟨d, rfl⟩
    · rw [e, Res.ok_bind]
      exact Or.inr (Or.inr ⟨p2, st2, rfl, f1, f2, f3, by rw [← h3]; exact f4⟩)
  · subst h
    rw [exec_semi]
    exact Or.inl ⟨_, rfl⟩
  · rw [exec_other rnd t p1 st1 h]
    split
    · unfold push
      split
      · exact Or.inl ⟨_, rfl⟩
      · exact Or.inr (Or.inr
            ⟨p1, _, rfl, hd1, hc1, hp1, by rw [← h3]; exact List.suffix_refl _⟩)
    · rw [if_pos (by rw [find_empty st1 t hd1]; decide)]
      exact Or.inl ⟨_, rfl⟩

/-- The loop of `run` on a line without `repeat`, with an empty dictionary and an empty call
stack: with more fuel than tokens left, it returns, or the process dies or crashes. -/
theorem runLoop_terminates (rand : Nat → Nat) : ∀ (fuel : Nat) (ip save : Ptr) (st : State),
    st.dictlen = 0 → st.cstack = [] → (cursor ip save).isLine = true →
    bytes "repeat" ∉ stream st (cursor ip save) →
    (stream st (cursor ip save)).length < fuel →
    (∃ s, runLoop rand fuel ip save st = .ok s ∧ s.dictlen = 0 ∧ s.cstack = [])
    ∨ (∃ d, runLoop rand fuel ip save st = .dead d)
    ∨ runLoop rand fuel ip save st = .crash
  | 0, _, _, _, _, _, _, _, h => absurd h (Nat.not_lt_zero _)
  | fuel + 1, ip, save, st, hd, hc, hp, hr, hl => by
    cases hs : stream st (cursor ip save) with
    | nil =>
      left
      have := step_stream_nil (rand st.nrand) ip save st hs
      rw [hc] at this
      exact ⟨st, runLoop_ret rand fuel ip save st st this, hd, hc⟩
    | cons t ts =>
      rw [hs] at hr hl
      rcases step_forward (rand st.nrand) ip save st t ts hd hc hp hs hr with
        ⟨d, e⟩ | ⟨e, -⟩ | ⟨p1, st1, e, f1, f2, f3, f4⟩
      · exact Or.inr (Or.inl ⟨d, runLoop_dead rand fuel ip save st d e⟩)
      · exact Or.inr (Or.inr (runLoop_crash rand fuel ip save st e))
      · rw [runLoop_cont rand fuel ip save st _ _ _ e]
        refine runLoop_terminates rand fuel .null p1 st1 f1 f2 f3 ?_ ?_
        · intro hm
          exact hr (List.mem_cons_of_mem _ (f4.subset hm))
        · have := f4.length_le
          simp only [List.length_cons] at hl
          exact Nat.lt_of_le_of_lt this (by omega)

/-- C20: `run` ends on every line without `repeat`, by a return, a fatal error or the trap of
`/`.  Take a state with an empty dictionary and an empty call stack whose line buffer has no
token `repeat`.  Then `run` ends within as many iterations as the line has tokens, plus one: with
that much fuel or more it returns at the end of the line, or the process dies of a fatal error,
or the process is killed by the trap of the division of the minimum cell by -1; more fuel does
not change the outcome.  Each token is processed at most once: in every such configuration an
iteration of `run` that reads a token ends the process by a fatal error, or ends it by the trap
(then the token is `/` and the two cells on top of the data stack are -1 and the minimum cell),
or leaves the cursor, still in the line buffer, on a suffix of the tokens that followed the one
it read, with the dictionary and the call stack empty again. -/
theorem run_terminates (rand : Nat → Nat) (st : State) (hd : st.dictlen = 0)
    (hc : st.cstack = []) (hr : bytes "repeat" ∉ tokens st.line) :
    (∀ fuel, (tokens st.line).length < fuel →
      (∃ s, run rand fuel st = .ok s) ∨ (∃ d, run rand fuel st = .dead d)
        ∨ run rand fuel st = .crash)
    ∧ (∀ fuel, (tokens st.line).length < fuel →
      run rand fuel st = run rand ((tokens st.line).length + 1) st)
    ∧ (∀ (rnd : Nat) (ip save : Ptr) (s : State) (t : List Nat) (ts : List (List Nat)),
      s.dictlen = 0 → s.cstack = [] → (cursor ip save).isLine = true →
      stream s (cursor ip save) = t :: ts → bytes "repeat" ∉ t :: ts →
      (∃ d, step rnd ip save s = .dead d)
      ∨ (step rnd ip save s = .crash ∧ t = bytes "/"
          ∧ ∃ ds, s.dstack = -1 :: LONG_MIN :: ds)
      ∨ ∃ p1 s1, step rnd ip save s = .ok (.cont .null p1 s1) ∧ s1.dictlen = 0
          ∧ s1.cstack = [] ∧ p1.isLine = true ∧ stream s1 p1 <:+ ts) := by
  have key : ∀ fuel, (tokens st.line).length < fuel →
      (∃ s, run rand fuel st = .ok s) ∨ (∃ d, run rand fuel st = .dead d)
        ∨ run rand fuel st = .crash := by
    intro fuel hf
    rcases runLoop_terminates rand fuel (.line 0) .null st hd hc rfl hr hf with
      ⟨s, e, -, -⟩ | ⟨d, e⟩ | e
    · exact Or.inl ⟨s, e⟩
    · exact Or.inr (Or.inl ⟨d, e⟩)
    · exact Or.inr (Or.inr e)
  refine ⟨key, ?_, ?_⟩
  · intro fuel hf
    have hne : run rand ((tokens st.line).length + 1) st ≠ .outOfFuel := by
      rcases key _ (Nat.lt_succ_self _) with ⟨s, e⟩ | ⟨d, e⟩ | e <;> rw [e] <;> intro h <;>
        cases h
    have := runLoop_fuel rand ((tokens st.line).length + 1)
      (fuel - ((tokens st.line).length + 1)) (.line 0) .null st hne
    rw [show (tokens st.line).length + 1 + (fuel - ((tokens st.line).length + 1)) = fuel by
      omega] at this
    exact this
  · intro rnd ip save s t ts h1 h2 h3 h4 h5
    exact step_forward rnd ip save s t ts h1 h2 h3 h4 h5

/-- C20, at a concrete input: the line `1 2 + . : x ; x` has 8 tokens and no `repeat`; from the
initial state `run` ends within 9 iterations. -/
theorem run_terminates_witness :
    (∃ s, run (fun _ => 0) 9 (initial (bytes "1 2 + . : x ; x\n") []) = .ok s)
    ∨ (∃ d, run (fun _ => 0) 9 (initial (bytes "1 2 + . : x ; x\n") []) = .dead d)
    ∨ run (fun _ => 0) 9 (initial (bytes "1 2 + . : x ; x\n") []) = .crash :=
  (run_terminates (fun _ => 0) (initial (bytes "1 2 + . : x ; x\n") []) rfl rfl
    (by decide)).1 9 (by decide)

/-- C20 as stated fails on the line `-9223372036854775808 -1 /`, which has no `repeat`, from
the initial state (empty dictionary, empty call stack).  The third iteration of `run` divides
the minimum cell by -1: the process neither returns from `run` nor stops at a fatal error, it is
killed by the trap of the division. -/
theorem run_terminates_counterexample :
    (initial (bytes "-9223372036854775808 -1 /\n") []).dictlen = 0
    ∧ (initial (bytes "-9223372036854775808 -1 /\n") []).cstack = []
    ∧ tokens (bytes "-9223372036854775808 -1 /\n")
        = [bytes "-9223372036854775808", bytes "-1", bytes "/"]
    ∧ isnum (bytes "-9223372036854775808") = some LONG_MIN
    ∧ run (fun _ => 0) 4 (initial (bytes "-9223372036854775808 -1 /\n") []) = .crash
    ∧ run (fun _ => 0) 3 (initial (bytes "-9223372036854775808 -1 /\n") []) = .crash := by
  refine ⟨rfl, rfl, by decide, by decide, by decide, by decide⟩

/-! ## C18: the dictionary of a run from the initial state -/

theorem simpleErr_other (d : Dead) (h : simpleErr d) : errOther d := by
  rcases h with h | h | h <;> rw [errOther, h] <;> exact ⟨by decide, by decide⟩

theorem errOther_mk (e o : List Nat) (h1 : e ≠ bytes "dictionary full\n")
    (h2 : e ≠ bytes "call stack overflow\n") : errOther ⟨e, o⟩ := ⟨h1, h2⟩

/-- With room in the dictionary a definition does not die of a full dictionary. -/
theorem compileDefine_err (st : State) (p : Ptr) (hd : st.dictlen < DICTSZ) :
    (compileDefine st p).sat (fun _ => True) errOther := by
  have hs := strtok_r_sameRegs st .null DELIM p
  unfold compileDefine
  generalize strtok_r st .null DELIM p = x at hs
  obtain ⟨tok, sv, st1⟩ := x
  have hdl : st1.dictlen = st.dictlen := hs.2.2.1
  cases tok with
  | none => exact errOther_mk _ _ (by decide) (by decide)
  | some t =>
    simp only
    rw [if_neg (by rw [hdl]; exact Nat.not_le.mpr hd)]
    split
    · exact errOther_mk _ _ (by decide) (by decide)
    · refine Res.sat_bind (Res.sat_mono (compileLoop_sat _ _ sv) (fun _ _ => trivial)
        (fun d h => ?_)) (fun _ _ => trivial)
      rw [errOther, h.1]
      exact ⟨by decide, by decide⟩

/-- One token, with an empty dictionary and an empty call stack: no word is called, the
dictionary and the call stack stay empty, and the process does not die of a full dictionary
or of a call stack overflow. -/
theorem exec_empty (rnd : Nat) (t : List Nat) (save : Ptr) (st : State) (hd : st.dictlen = 0)
    (hc : st.cstack = []) :
    (exec rnd t save st).sat
      (fun s => ∃ p1 st1, s = .cont .null p1 st1 ∧ st1.dictlen = 0 ∧ st1.cstack = [])
      errOther := by
  rcases token_cases t with h | h | h | h | h | h | h | h
  · refine Res.sat_mono (exec_simple rnd t save st h) (fun s hs => ?_) simpleErr_other
    obtain ⟨st1, rfl, hm⟩ := hs
    exact ⟨save, st1, rfl, hm.2.2.2.2.1.trans hd, hm.2.2.2.2.2.1.trans hc⟩
  · subst h
    rw [exec_comment]
    refine Res.sat_bind (Res.sat_mono (skip_comment_sat st save) (fun _ h => h)
      (fun _ h => h.elim)) (fun r hr => ?_)
    exact ⟨r.2, r.1, rfl, hr.2.2.1.trans hd, hr.2.2.2.1.trans hc⟩
  · subst h
    rw [exec_begin_eq]
    split
    · exact errOther_mk _ _ (by decide) (by decide)
    · exact ⟨save, _, rfl, hd, hc⟩
  · subst h
    rw [exec_while]
    split
    · exact errOther_mk _ _ (by decide) (by decide)
    · unfold pop
      split
      · exact errOther_mk _ _ (by decide) (by decide)
      · simp only [Res.ok_bind]
        split
        · exact ⟨save, _, rfl, hd, hc⟩
        · refine Res.sat_bind (Res.sat_mono (scanLoop_sat _ _ save 1) (fun _ h => h)
            (fun _ h => h.elim)) (fun r hr => ?_)
          split
          · exact errOther_mk _ _ (by decide) (by decide)
          · exact ⟨_, r.1, rfl, hr.2.2.1.trans hd, hr.2.2.2.1.trans hc⟩
  · subst h
    rw [exec_repeat]
    split
    · exact errOther_mk _ _ (by decide) (by decide)
    · exact ⟨_, st, rfl, hd, hc⟩
  · subst h
    rw [exec_colon]
    unfold compile_word
    have h1 := compileDefine_sat st save
    have h2 := compileDefine_err st save (by rw [hd]; decide)
    generalize compileDefine st save = x at h1 h2
    cases x with
    | ok r =>
      refine ⟨r.2, vanish rnd r.1, rfl, ?_, ?_⟩
      · rw [(vanish_quiet rnd r.1).1, h1.2.1, hd]
      · rw [vanish_cstack, h1.2.2.2.1, hc]
    | dead d => exact h2
    | crash => trivial
    | outOfFuel => trivial
  · subst h
    rw [exec_semi]
    exact errOther_mk _ _ (by decide) (by decide)
  · rw [exec_other rnd t save st h]
    split
    · unfold push
      split
      · exact errOther_mk _ _ (by decide) (by decide)
      · exact ⟨save, _, rfl, hd, hc⟩
    · rw [if_pos (by rw [find_empty st t hd]; decide)]
      constructor <;> simp [bytes]

/-- One iteration of `run`, with an empty dictionary and an empty call stack. -/
theorem step_empty (rnd : Nat) (ip save : Ptr) (st : State) (hd : st.dictlen = 0)
    (hc : st.cstack = []) :
    (step rnd ip save st).sat (fun s => s.state.dictlen = 0 ∧ s.state.cstack = []) errOther := by
  have hs := strtok_r_sameRegs st ip DELIM save
  unfold step
  generalize strtok_r st ip DELIM save = x at hs
  obtain ⟨tok, sv, st1⟩ := x
  have hd1 : st1.dictlen = 0 := hs.2.2.1.trans hd
  have hc1 : st1.cstack = [] := hs.2.2.2.1.trans hc
  cases tok with
  | none =>
    simp only
    rw [hc1]
    exact ⟨hd1, hc1⟩
  | some t =>
    refine Res.sat_mono (exec_empty rnd _ sv st1 hd1 hc1) (fun s hs => ?_) (fun _ h => h)
    obtain ⟨p1, st2, rfl, h1, h2⟩ := hs
    exact ⟨h1, h2⟩

theorem runLoop_empty (rand : Nat → Nat) : ∀ (fuel : Nat) (ip save : Ptr) (st : State),
    st.dictlen = 0 → st.cstack = [] →
    (runLoop rand fuel ip save st).sat (fun s => s.dictlen = 0 ∧ s.cstack = []) errOther
  | 0, _, _, _, _, _ => trivial
  | fuel + 1, ip, save, st, hd, hc => by
    have hs := step_empty (rand st.nrand) ip save st hd hc
    unfold runLoop
    generalize step (rand st.nrand) ip save st = x at hs
    cases x with
    | ok r =>
      cases r with
      | cont ip1 save1 st1 => exact runLoop_empty rand fuel ip1 save1 st1 hs.1 hs.2
      | ret st1 => exact hs
    | dead d => exact hs
    | crash => trivial
    | outOfFuel => trivial

theorem main_empty (rand : Nat → Nat) (fuel : Nat) : ∀ (lines : Nat) (st : State),
    st.dictlen = 0 → st.cstack = [] →
    (main rand fuel lines st).sat (fun s => s.dictlen = 0 ∧ s.cstack = []) errOther
  | 0, _, _, _ => trivial
  | lines + 1, st, hd, hc => by
    unfold main
    split
    · exact ⟨hd, hc⟩
    · exact Res.sat_bind (runLoop_empty rand fuel (.line 0) .null _ hd hc)
        (fun s hs => main_empty rand fuel lines s hs.1 hs.2)

theorem reach_empty (rand : Nat → Nat) (inp : List Nat) (c : Config)
    (h : Reach rand inp c) : c.state.dictlen = 0 ∧ c.state.cstack = [] := by
  induction h with
  | start => exact ⟨rfl, rfl⟩
  | read st ln rest _ _ ih => exact ih
  | cont ip save st ip1 save1 st1 _ hstep ih =>
    have := step_empty (rand st.nrand) ip save st ih.1 ih.2
    rw [hstep] at this
    exact this
  | ret ip save st st1 _ hstep ih =>
    have := step_empty (rand st.nrand) ip save st ih.1 ih.2
    rw [hstep] at this
    exact this

/-- C18: the dictionary is empty in every reachable state.  In every configuration `main` goes
through on any input, for any random source, the dictionary has size 0 and no call frame is
pushed, so that `find` fails for every name.  In such a state a definition that returns leaves
the size at 0 for every value `rnd` of `rand()`: the dictionary has size 1 before `vanish()`,
the erased index is `rnd % 1 = 0`, the word just defined.  No token calls a word (the next
iteration of `run` reads on at a cursor, never at the body of a word), an iteration of `run`
leaves the dictionary and the call stack empty, and the process never dies of
`dictionary full` or of `call stack overflow`; so it is also for `main` as a whole. -/
theorem dictionary_always_empty (rand : Nat → Nat) (inp : List Nat) (c : Config)
    (h : Reach rand inp c) :
    c.state.dictlen = 0 ∧ c.state.cstack = []
    ∧ (∀ name, find c.state name = -1)
    ∧ (∀ rnd p st1 p1, compile_word rnd c.state p = .ok (st1, p1) →
        st1.dictlen = 0
        ∧ ∃ st2, compileDefine c.state p = .ok (st2, p1) ∧ st2.dictlen = 1
            ∧ rnd % st2.dictlen = 0 ∧ st1 = vanish rnd st2)
    ∧ (∀ rnd t save s, exec rnd t save c.state = .ok s →
        ∃ p1 st1, s = .cont .null p1 st1 ∧ st1.dictlen = 0 ∧ st1.cstack = [])
    ∧ (∀ rnd ip save s, step rnd ip save c.state = .ok s →
        s.state.dictlen = 0 ∧ s.state.cstack = [])
    ∧ (∀ rnd ip save d, step rnd ip save c.state = .dead d →
        d.err ≠ bytes "dictionary full\n" ∧ d.err ≠ bytes "call stack overflow\n")
    ∧ (∀ fuel lines, (main rand fuel lines (initial [] inp)).sat
        (fun s => s.dictlen = 0 ∧ s.cstack = [])
        (fun d => d.err ≠ bytes "dictionary full\n" ∧ d.err ≠ bytes "call stack overflow\n")) := by
  obtain ⟨hd, hc⟩ := reach_empty rand inp c h
  refine ⟨hd, hc, fun name => find_empty _ name hd, ?_, ?_, ?_, ?_, ?_⟩
  · intro rnd p st1 p1 hcw
    unfold compile_word at hcw
    have h1 := compileDefine_sat c.state p
    generalize compileDefine c.state p = x at h1 hcw
    cases x with
    | ok r =>
      simp only [Res.ok_bind, Res.ok.injEq, Prod.mk.injEq] at hcw
      obtain ⟨rfl, rfl⟩ := hcw
      have hr : r.1.dictlen = 1 := by rw [h1.2.1, hd]
      refine ⟨by rw [(vanish_quiet rnd r.1).1, hr], r.1, rfl, hr, ?_, rfl⟩
      rw [hr]
      exact Nat.mod_one rnd
    | dead d => cases hcw
    | crash => cases hcw
    | outOfFuel => cases hcw
  · intro rnd t save s hs
    have := exec_empty rnd t save c.state hd hc
    rw [hs] at this
    exact this
  · intro rnd ip save s hs
    have := step_empty rnd ip save c.state hd hc
    rw [hs] at this
    exact this
  · intro rnd ip save d hs
    have := step_empty rnd ip save c.state hd hc
    rw [hs] at this
    exact this
  · intro fuel lines
    exact main_empty rand fuel lines (initial [] inp) rfl rfl

/-- C18, at a concrete input: on the input `: x 1 ; x`, after the iteration of `run` that
compiles the definition of `x`, the dictionary is empty and `x` is not found. -/
theorem dictionary_always_empty_witness :
    ({ initial (bytes ":\x00x\x001\x00;\x00x\n\x00") [] with
        dict := [⟨0, 2⟩], arena := bytes "x\x001 \x00", nextb := 5, nrand := 1 } : State).dictlen
      = 0
    ∧ find { initial (bytes ":\x00x\x001\x00;\x00x\n\x00") [] with
        dict := [⟨0, 2⟩], arena := bytes "x\x001 \x00", nextb := 5, nrand := 1 } (bytes "x")
      = -1 :=
  match dictionary_always_empty (fun _ => 7) (bytes ": x 1 ; x\n")
      (.running .null (.line 8) { initial (bytes ":\x00x\x001\x00;\x00x\n\x00") [] with
        dict := [⟨0, 2⟩], arena := bytes "x\x001 \x00", nextb := 5, nrand := 1 })
      (Reach.cont (.line 0) .null
        { initial [] (bytes ": x 1 ; x\n") with
          line := blit [] 0 (bytes ": x 1 ; x\n" ++ [0]), inp := [] }
        .null (.line 8) _
        (Reach.read (initial [] (bytes ": x 1 ; x\n")) (bytes ": x 1 ; x\n") [] Reach.start
          (by decide))
        (by decide)) with
  | ⟨h1, _, h3, _⟩ => ⟨h1, h3 _⟩

/-! ## C17: calling a word -/


/-- A stream without a token `;`: the loop of `compile_word` stores every token that is not
in a comment and stops at the end of the stream. -/
theorem bodyOf_unterminated : ∀ (inc : Bool) (T : List (List Nat)), bytes ";" ∉ T →
    bodyOf inc T = stripComments inc T ∧ afterDef inc T = []
  | inc, [], _ => by
    cases inc <;> exact ⟨rfl, rfl⟩
  | true, t :: T, h => by
    have h1 : bytes ";" ∉ T := fun hm => h (List.mem_cons_of_mem _ hm)
    rw [bodyOf.eq_2, afterDef.eq_2, stripComments.eq_2]
    by_cases hc : t = bytes "*/"
    · rw [if_pos hc, if_pos hc, if_pos hc]
      exact bodyOf_unterminated false T h1
    · rw [if_neg hc, if_neg hc, if_neg hc]
      exact bodyOf_unterminated true T h1
  | false, t :: T, h => by
    have h1 : bytes ";" ∉ T := fun hm => h (List.mem_cons_of_mem _ hm)
    have h2 : t ≠ bytes ";" := fun he => h (by rw [he]; exact List.mem_cons_self _ _)
    rw [bodyOf.eq_3, afterDef.eq_3, stripComments.eq_3, if_neg h2, if_neg h2]
    by_cases hc : t = bytes "/*"
    · rw [if_pos hc, if_pos hc, if_pos hc]
      exact bodyOf_unterminated true T h1
    · rw [if_neg hc, if_neg hc, if_neg hc]
      have ih := bodyOf_unterminated false T h1
      rw [ih.1, ih.2]
      exact ⟨rfl, rfl⟩

/-- Without a token `/*` nothing is deleted. -/
theorem stripComments_id : ∀ T : List (List Nat), bytes "/*" ∉ T → stripComments false T = T
  | [], _ => rfl
  | t :: T, h => by
    have h1 : bytes "/*" ∉ T := fun hm => h (List.mem_cons_of_mem _ hm)
    have h2 : t ≠ bytes "/*" := fun he => h (by rw [he]; exact List.mem_cons_self _ _)
    rw [stripComments.eq_3, if_neg h2, stripComments_id T h1]

/-- C7, as the code has it: a definition that is not closed is accepted.  `compile_word` has no
unterminated-definition error: in every state and on every stream it dies only with
`empty definition`, `dictionary full` or `compile arena full`.  Take a token stream
`name t1 ... tk` after a `:` in which no token after the name is `;` (the stream ends first),
read at a cursor in the line buffer or in the arena below `nextb`, with room in the dictionary
and in the arena for the name and the tokens to store.  Then `compile_word` returns, as if a `;`
had followed: before its final `vanish()` the dictionary has one more entry (size `n + 1`), in
slot `dictlen`, whose name is the string `name` and whose body is the string made of the tokens
`t1 ... tk` without their comments (all of `t1 ... tk` when none is `/*`), each followed by a
space; the stream is exhausted at the cursor it leaves, the next `strtok_r` returns no token;
then `vanish()` erases one entry (size `n`) and touches neither the arena nor the cursor. -/
theorem unterminated_definition_accepted (rnd : Nat) (st : State) (p : Ptr) (name : List Nat)
    (T : List (List Nat)) (hs : stream st p = name :: T) (hsemi : bytes ";" ∉ T)
    (hb : below st.nextb st p) (hd : st.dictlen < DICTSZ)
    (hroom : st.nextb + (name.length + 1) + (render (stripComments false T)).length + 1
      < BUFSZ) :
    (∀ (s0 : State) (psave : Ptr) (d : Dead), compile_word rnd s0 psave = .dead d →
        d.err = bytes "empty definition\n" ∨ d.err = bytes "dictionary full\n"
          ∨ d.err = bytes "compile arena full\n")
    ∧ ∃ st1 p1, compileDefine st p = .ok (st1, p1)
      ∧ compile_word rnd st p = .ok (vanish rnd st1, p1)
      ∧ st1.dictlen = st.dictlen + 1 ∧ (vanish rnd st1).dictlen = st.dictlen
      ∧ cstrBuf st1.arena (aget st1.dict st.dictlen).name = name
      ∧ cstrBuf st1.arena (aget st1.dict st.dictlen).body = render (stripComments false T)
      ∧ tokens (st1.arena.drop (aget st1.dict st.dictlen).body) = stripComments false T
      ∧ (bytes "/*" ∉ T → stripComments false T = T)
      ∧ stream st1 p1 = []
      ∧ (vanish rnd st1).arena = st1.arena
      ∧ stream (vanish rnd st1) p1 = []
      ∧ ∃ p2, strtok_r (vanish rnd st1) .null DELIM p1 = (none, p2, vanish rnd st1) := by
  constructor
  · intro s0 psave d h
    have := compile_word_sat rnd s0 psave
    rw [h] at this
    exact this.1
  · obtain ⟨hB, hA⟩ := bodyOf_unterminated false T hsemi
    have hw := stream_words st p
    rw [hs] at hw
    have hfit : fits (st.nextb + (name.length + 1)) (bodyOf false T) = true := by
      rw [hB, fits_iff]
      exact Or.inr (by omega)
    obtain ⟨st1, p1, h1, h2, h3, h4, h5, h6, h7, -, -, -, -, -, -, -, -⟩ :=
      (compileDefine_stream st p name _ hs hb hd).2 (by omega) hfit
    rw [hB] at h7
    rw [hA] at h2
    have hstr := stored_strings st1.arena _ st.nextb name (stripComments false T) h7
      (hw name (List.mem_cons_self _ _)).2
      (fun t ht => hw t (List.mem_cons_of_mem _ (by
        rw [← hB] at ht
        exact mem_bodyOf false _ t ht)))
    have hsv : stream (vanish rnd st1) p1 = [] := by rw [stream_vanish, h2]
    obtain ⟨p2, e1, -, -⟩ := strtok_r_end (vanish rnd st1) p1 hsv
    refine ⟨st1, p1, h1, ?_, h4, ?_, ?_, ?_, ?_, stripComments_id T, h2, vanish_arena rnd st1,
      hsv, p2, e1⟩
    · unfold compile_word
      rw [h1, Res.ok_bind]
    · rw [(vanish_quiet rnd st1).1, h4]
      omega
    · rw [h5]
      exact hstr.1
    · rw [h5]
      exact hstr.2.1
    · rw [h5]
      exact hstr.2.2

/-- C7, as the code has it, at a concrete input: the line `: foo 1`, read into a line buffer
that still holds the end of an earlier line `: x 1 2 3 4 5 ;` (a `;` byte past the NUL that ends
the new line).  No token after `foo` is `;`: the definition is compiled with the body `1`, the
size of the dictionary goes from 0 to 1 and back to 0, and the stream is exhausted. -/
theorem unterminated_definition_accepted_witness :
    ∃ st1 p1,
      compileDefine (initial (bytes ": foo 1\n\x00\x004\x005\x00;\x00") []) (.line 1)
        = .ok (st1, p1)
      ∧ compile_word 5 (initial (bytes ": foo 1\n\x00\x004\x005\x00;\x00") []) (.line 1)
        = .ok (vanish 5 st1, p1)
      ∧ st1.dictlen = 1 ∧ (vanish 5 st1).dictlen = 0
      ∧ cstrBuf st1.arena (aget st1.dict 0).name = bytes "foo"
      ∧ cstrBuf st1.arena (aget st1.dict 0).body = bytes "1 "
      ∧ tokens (st1.arena.drop (aget st1.dict 0).body) = [bytes "1"]
      ∧ stream (vanish 5 st1) p1 = [] :=
  match (unterminated_definition_accepted 5
      (initial (bytes ": foo 1\n\x00\x004\x005\x00;\x00") []) (.line 1) (bytes "foo")
      [bytes "1"] (by decide) (by decide) trivial (by decide) (by decide)).2 with
  | ⟨st1, p1, h1, h2, h3, h4, h5, h6, h7, _, _, _, h11, _⟩ =>
    ⟨st1, p1, h1, h2, h3, h4, h5, h6, h7, h11⟩

end Evanesque
